import Mathlib

/-!
# lcm-gen MATLAB backend (`lcmgen/emit_m.c`)

A shallow embedding of the MATLAB emitter of lcm-gen and of the procedures it
generates.  The emitter is a C program that prints MATLAB text; the embedding
has two layers:

* the schema model read by the emitter (`lcm_struct`, `lcm_member`,
  `lcm_dimension`) and the string helpers of `emit_m.c`;
* the generated procedures (`computeHash`, `hash`, `encode`, `decode`,
  `encodedSize` and the `_nohash` helpers), each written as the function the
  emitted MATLAB text computes.  A call in the emitted text resolves to the
  procedure whose emitted name is the called name;
* the emitted text itself, line by line (`Line`, `emit_encode_nohash` and the
  other `emit_...` functions), for the properties of what is printed.

MATLAB arrays are indexed from 1; positions and indices below are 1-based
wherever the emitted text is.
-/

namespace EmitM

/-! ## Schema model (declared in `lcmgen.h`) -/

/-- Modelled from the spec: `lcm_typename_t` of `lcmgen.h` (not part of the
sources at hand): the fully-qualified name, the package and the short name of a
type. -/
structure lcm_typename where
  lctypename : String
  package : String
  shortname : String
deriving DecidableEq, Repr

/-- Modelled from the spec: `lcm_dimension_mode_t` of `lcmgen.h`: a constant
extent or a dynamic extent naming an earlier member of the same struct. -/
inductive lcm_dimension_mode where
  | LCM_CONST
  | LCM_VAR
deriving DecidableEq, Repr

/-- Modelled from the spec: `lcm_dimension_t` of `lcmgen.h`.  The field `size`
is a string holding either a constant (its decimal digits) or, for a dynamic
extent, the name of the length member. -/
structure lcm_dimension where
  mode : lcm_dimension_mode
  size : String
deriving DecidableEq, Repr

/-- Modelled from the spec: `lcm_member_t` of `lcmgen.h`. -/
structure lcm_member where
  type : lcm_typename
  membername : String
  dimensions : List lcm_dimension
deriving DecidableEq, Repr

/-- Modelled from the spec: `lcm_struct_t` of `lcmgen.h`.  The field `hash` is
the base hash seed; the emitter prints its 64-bit pattern as 16 hex digits. -/
structure lcm_struct where
  structname : lcm_typename
  members : List lcm_member
  hash : Nat
deriving DecidableEq, Repr

/-! ## String helpers of `emit_m.c` -/

/-- Lines 34-44: every `.` becomes `_`. -/
def dots_to_underscores (s : String) : String :=
  ⟨s.data.map (fun c => if c = '.' then '_' else c)⟩

/-- Lines 46-64: every `.` becomes `::`, every other character is copied. -/
def dots_to_double_colons (s : String) : String :=
  ⟨s.data.flatMap (fun c => if c = '.' then [':', ':'] else [c])⟩

/-- Lines 101-131. -/
def map_type_name (t : String) : String :=
  if t = "boolean" then "logical"
  else if t = "byte" then "uint8"
  else if t = "int8_t" then "int8"
  else if t = "int16_t" then "int16"
  else if t = "uint16_t" then "uint16"
  else if t = "int32_t" then "int32"
  else if t = "uint32_t" then "uint32"
  else if t = "int64_t" then "int64"
  else if t = "float" then "single"
  else dots_to_underscores t

/-- Lines 133-167: the encoded size if known, -1 otherwise. -/
def encoded_size (t : String) : Int :=
  if t = "boolean" then 1
  else if t = "byte" then 1
  else if t = "int8_t" then 1
  else if t = "int16_t" then 2
  else if t = "uint16_t" then 2
  else if t = "int32_t" then 4
  else if t = "uint32_t" then 4
  else if t = "int64_t" then 8
  else if t = "float" then 4
  else if t = "double" then 8
  else -1

/-! ## Outcomes of running a generated procedure -/

/-- The outcome of running emitted MATLAB code: a value, a MATLAB run-time
error (undefined function or variable, index out of range), or the evaluation
budget of the model running out before the code finished. -/
inductive Run (α : Type) where
  | ok (a : α)
  | fault
  | timeout
deriving DecidableEq, Repr

/-- Sequencing of two steps: the second runs on the value of the first. -/
def Run.bind {α β : Type} (r : Run α) (f : α → Run β) : Run β :=
  match r with
  | .ok a => f a
  | .fault => .fault
  | .timeout => .timeout

/-! ## The generated hash procedures -/

/-- A 64-bit hash as MATLAB holds it: `uint32([hash(1), hash(2)])`, the high
word first. -/
abbrev Hash := Nat × Nat

/-- The 64-bit value a pair of words stands for. -/
def Hash.toNat (h : Hash) : Nat := h.1 * 2 ^ 32 + h.2

/-- The pair of words of a 64-bit value. -/
def Hash.ofNat (n : Nat) : Hash := ((n / 2 ^ 32) % 2 ^ 32, n % 2 ^ 32)

/-- Rotate a 64-bit value left by one bit. -/
def rotl1 (h : Nat) : Nat := (h * 2) % 2 ^ 64 + (h / 2 ^ 63) % 2

/-- Modelled from the spec: `hex2int64` of lcm-matlab (not part of the
sources at hand), applied to the 16 hex digits `%016PRIx64` prints: the two
32-bit words of the 64-bit pattern. -/
def hex2int64 (seed : Nat) : Hash := Hash.ofNat seed

/-- Modelled from the spec: `add_overflow` of lcm-matlab (not part of the
sources at hand): 64-bit addition with wraparound, modulo 2^64. -/
def add_overflow (a b : Hash) : Hash := Hash.ofNat ((a.toNat + b.toNat) % 2 ^ 64)

/-- MATLAB `bitshift(x, k)` on a `uint32`: a left shift drops the bits that
overflow. -/
def bitshift_left1 (x : Nat) : Nat := (x <<< 1) % 2 ^ 32

/-- MATLAB `bitshift(x, -31)` on a `uint32`. -/
def bitshift_right31 (x : Nat) : Nat := x >>> 31

/-- Lines 372-377, the wrap around shift at the end of `computeHash`:
```
overflowbit = bitshift(hash(2), -31);
bigendbit = bitshift(hash(1), -31);
hash = bitshift(hash, 1);
hash(1) = bitor(hash(1), overflowbit);
hash(2) = bitor(hash(2), bigendbit);
``` -/
def wrap_around_shift (hash : Hash) : Hash :=
  let overflowbit := bitshift_right31 hash.2
  let bigendbit := bitshift_right31 hash.1
  let hash : Hash := (bitshift_left1 hash.1, bitshift_left1 hash.2)
  let hash : Hash := (hash.1 ||| overflowbit, hash.2)
  let hash : Hash := (hash.1, hash.2 ||| bigendbit)
  hash

/-- The record `%zu, '%s'` that line 346 appends to `parents`: the length of the
name, then its characters, one cell each (names are ASCII identifiers, so
`strlen` counts the characters). -/
def record (name : String) : List Nat :=
  name.length :: name.data.map Char.toNat

/-- Lines 356-364, the scan of the ancestry for the type name `tn`:
```
ix = uint32(1);
while ix < parents_len
    p_len = uint32(parents(ix));
    if strlen(tn) == p_len && strcmp(parents(ix + 1: ix + p_len), tn)
        visit = false;
        break
    end
    ix = ix + p_len + 1;
end
```
The result is the final value of `visit`.  The first argument bounds the number
of iterations. -/
def scan_parents : Nat → List Nat → Nat → String → Nat → Run Bool
  | 0, _, _, _, _ => .timeout
  | fuel + 1, parents, parents_len, tn, ix =>
    if ix < parents_len then
      match parents.get? (ix - 1) with
      | none => .fault
      | some p_len =>
        if tn.length = p_len then
          if ix + p_len ≤ parents.length then
            if (parents.drop ix).take p_len = tn.data.map Char.toNat then .ok false
            else scan_parents fuel parents parents_len tn (ix + p_len + 1)
          else .fault
        else scan_parents fuel parents parents_len tn (ix + p_len + 1)
    else .ok true

/-- The procedure a call `<name>_computeHash(...)` (or any other generated
procedure of that name stem) resolves to: the struct whose procedures are emitted
under `<shortname>_...` with `shortname = name` (`start_file`, line 212). -/
def lookup (structs : List lcm_struct) (name : String) : Option lcm_struct :=
  structs.find? (fun ls => ls.structname.shortname = name)

/-- Lines 352-367, the block emitted for one member `lm` of a struct: nothing
for a primitive member; for any other member the scan of the ancestry and, if
the type was not found there, `hash = add_overflow(hash, <lm_tnc>_computeHash(parents))`.
`call` runs the generated `computeHash` of another struct. -/
def hash_member (prim : String → Bool) (structs : List lcm_struct)
    (call : lcm_struct → List Nat → Run Hash) (parents_len : Nat) (parents : List Nat)
    (hash : Hash) (lm : lcm_member) : Run Hash :=
  if prim lm.type.lctypename then .ok hash
  else
    let lm_tnc := dots_to_double_colons lm.type.lctypename
    (scan_parents (parents_len + 1) parents parents_len lm_tnc 1).bind fun visit =>
      if visit then
        match lookup structs lm_tnc with
        | none => .fault
        | some callee => (call callee parents).bind fun h => .ok (add_overflow hash h)
      else .ok hash

/-- Lines 350-371: the member blocks in declaration order. -/
def hash_members (prim : String → Bool) (structs : List lcm_struct)
    (call : lcm_struct → List Nat → Run Hash) (parents_len : Nat) (parents : List Nat) :
    List lcm_member → Hash → Run Hash
  | [], hash => .ok hash
  | lm :: rest, hash =>
    (hash_member prim structs call parents_len parents hash lm).bind fun hash =>
      hash_members prim structs call parents_len parents rest hash

/-- Lines 340-382: the generated `<sn>_computeHash(parents)`:
```
parents_len = length(parents);
parents = [parents, strlen(sn), sn];
hash = hex2int64(seed);
... one block per member that is not primitive ...
... wrap around shift ...
```
`prim` is `lcm_is_primitive_type` of `lcmgen.c` (not part of the sources at
hand).  The first argument bounds the number of nested activations. -/
def computeHash (prim : String → Bool) (structs : List lcm_struct) :
    Nat → lcm_struct → List Nat → Run Hash
  | 0, _, _ => .timeout
  | fuel + 1, ls, parents =>
    let sn := ls.structname.shortname
    let parents_len := parents.length
    let parents := parents ++ record sn
    let hash := hex2int64 ls.hash
    (hash_members prim structs (computeHash prim structs fuel) parents_len parents
      ls.members hash).bind fun hash => .ok (wrap_around_shift hash)

/-- Lines 323-338: the generated `<sn>_hash()`, the top-level fingerprint
`<sn>_computeHash([])`.  The budget is twice the number of structs, which the
nesting of activations never exceeds. -/
def get_hash (prim : String → Bool) (structs : List lcm_struct) (ls : lcm_struct) : Run Hash :=
  computeHash prim structs (2 * structs.length) ls []

/-- The ancestry holding the records of the given names, in order. -/
def ancestry (names : List String) : List Nat := names.flatMap record

/-- The short names under which the procedures of the schema are emitted. -/
def shortnames (structs : List lcm_struct) : List String :=
  structs.map (fun ls => ls.structname.shortname)

/-- A bound on the activations of `computeHash` still to come below the
activation of the struct named `sn` entered with the ancestry `anc`: two for
each name of the schema not yet in the ancestry, and one more if `sn` is
already in it. -/
def depth_bound (structs : List lcm_struct) (anc : List String) (sn : String) : Nat :=
  2 * ((shortnames structs).toFinset \ anc.toFinset).card + (if sn ∈ anc then 1 else 0)

/-! ## Example schemas -/

/-- Modelled from the spec: `lcm_is_primitive_type` of `lcmgen.c` (not part of
the sources at hand): the primitive kinds, those with a row in the tables of
`emit_m.c` and `string`.  The theorems below hold for any such predicate; this
one serves the examples. -/
def lcm_is_primitive_type (t : String) : Bool :=
  decide (encoded_size t ≠ -1) || decide (t = "string")

/-- The type name of a type declared outside any package: no package, the
short name is the whole name. -/
def unqualified (name : String) : lcm_typename := ⟨name, "", name⟩

/-- The schema `struct Inner { int32_t x; }`. -/
def ex_Inner : lcm_struct :=
  ⟨unqualified "Inner", [⟨unqualified "int32_t", "x", []⟩], 0x8000000000000001⟩

/-- The schema `struct Outer { Inner a; int32_t n; Inner b; }`. -/
def ex_Outer : lcm_struct :=
  ⟨unqualified "Outer",
    [⟨unqualified "Inner", "a", []⟩, ⟨unqualified "int32_t", "n", []⟩,
     ⟨unqualified "Inner", "b", []⟩], 5⟩

/-- A rank for the schema of `Inner` and `Outer`. -/
def ex_rank (name : String) : Nat := if name = "Outer" then 1 else 0

/-- The schema `struct A { A a; B b; }`. -/
def ex_A : lcm_struct :=
  ⟨unqualified "A", [⟨unqualified "A", "a", []⟩, ⟨unqualified "B", "b", []⟩], 1⟩

/-- The schema `struct B { A a; B b; }`. -/
def ex_B : lcm_struct :=
  ⟨unqualified "B", [⟨unqualified "A", "a", []⟩, ⟨unqualified "B", "b", []⟩], 2⟩

/-- The schema `struct T { T t; }`, a struct with a member of its own type. -/
def ex_T : lcm_struct := ⟨unqualified "T", [⟨unqualified "T", "t", []⟩], 1⟩

/-! ## MATLAB values, buffers and the primitive codecs of lcm-matlab -/

/-- A MATLAB value as the generated procedures see it: a numeric scalar, an
array (an array of several dimensions is an array of arrays, the first
dimension outermost), or a struct with named fields. -/
inductive Val where
  | num (n : Int)
  | arr (elems : List Val)
  | struct (fields : List (String × Val))
deriving Repr

/-- The byte buffer `buf`; positions in it are counted from 1. -/
abbrev Buf := List Nat

/-- Modelled from the spec: the primitive procedures of lcm-matlab, called by
the generated code as `<name>_encode_nohash(buf, pos, maxlen, values, count)`,
`<name>_decode_nohash(buf, pos, maxlen, values, count)` and
`<name>_encodedSize_nohash(value)` (not part of the sources at hand).  A name
the library does not define is a MATLAB error. -/
structure Codec where
  encode_nohash : String → Buf → Int → Int → List Val → Int → Run (Buf × Int)
  decode_nohash : String → Buf → Int → Int → List Val → Int → Run (Int × List Val)
  encodedSize_nohash : String → Val → Run Nat

/-- The value of a decimal constant, if the text is one. -/
def decimal (s : String) : Option Nat :=
  if s.data ≠ [] ∧ s.data.all Char.isDigit = true then
    some (s.data.foldl (fun n c => n * 10 + (c.toNat - '0'.toNat)) 0)
  else none

/-- The value MATLAB gives the text `dim->size` where the emitter prints it as
a loop bound or an element count: a decimal constant is its value; anything
else is an identifier, and the generated procedures declare no variable under
the name of a length member, so MATLAB raises `Undefined function or
variable`.  (A length member named like a variable of the generated procedure
or like a function on the MATLAB path is outside this model.) -/
def eval_size (size : String) : Run Int :=
  match decimal size with
  | some n => .ok (n : Int)
  | none => .fault

/-- MATLAB `for v = 1:n ... end`: the body runs for `v = first, first + 1, ...`,
`count` times. -/
def for_loop {σ : Type} (body : Nat → σ → Run σ) : Nat → Nat → σ → Run σ
  | 0, _, s => .ok s
  | count + 1, first, s => (body first s).bind fun s => for_loop body count (first + 1) s

/-- The nest of loops `for dx0 = 1:size0`, `for dx1 = 1:size1`, ... the emitter
opens for the given dimensions, around `body`; `body` receives the values of
`dx0, dx1, ...` in that order. -/
def nest {σ : Type} : List lcm_dimension → List Nat → (List Nat → σ → Run σ) → σ → Run σ
  | [], idx, body, s => body idx s
  | dim :: rest, idx, body, s =>
    (eval_size dim.size).bind fun n =>
      for_loop (fun dx s => nest rest (idx ++ [dx]) body s) n.toNat 1 s

/-- MATLAB `xs(i)`: the element at the 1-based index `i`. -/
def nth (xs : List Val) (i : Nat) : Run Val :=
  if i = 0 then .fault
  else match xs.get? (i - 1) with
    | some x => .ok x
    | none => .fault

/-- MATLAB `v.name`. -/
def Val.field (v : Val) (name : String) : Run Val :=
  match v with
  | .struct fields =>
    match fields.lookup name with
    | some x => .ok x
    | none => .fault
  | _ => .fault

/-- Replace the value of the first field called `name`. -/
def set_first (name : String) (x : Val) : List (String × Val) → List (String × Val)
  | [] => []
  | (n, v) :: rest => if n = name then (n, x) :: rest else (n, v) :: set_first name x rest

/-- MATLAB `v.name = x` for a field the struct has. -/
def Val.set_field (v : Val) (name : String) (x : Val) : Run Val :=
  match v with
  | .struct fields =>
    match fields.lookup name with
    | some _ => .ok (.struct (set_first name x fields))
    | none => .fault
  | _ => .fault

/-- MATLAB `S(ix).name`. -/
def member_ref (S : List Val) (ix : Nat) (name : String) : Run Val :=
  (nth S ix).bind fun inst => inst.field name

/-- MATLAB `S(ix).name = x`. -/
def member_set (S : List Val) (ix : Nat) (name : String) (x : Val) : Run (List Val) :=
  (nth S ix).bind fun inst =>
    (inst.set_field name x).bind fun inst => .ok (S.set (ix - 1) inst)

/-- MATLAB `v(dx0, dx1, ...)` with one index for each dimension given. -/
def element : Val → List Nat → Run Val
  | v, [] => .ok v
  | .arr xs, i :: rest => (nth xs i).bind fun x => element x rest
  | _, _ :: _ => .fault

/-- MATLAB `v(dx0, ..., :)`: the elements along the last dimension. -/
def slice (v : Val) (idx : List Nat) : Run (List Val) :=
  (element v idx).bind fun e =>
    match e with
    | .arr xs => .ok xs
    | _ => .fault

/-- MATLAB `v(dx0, ..., :) = new`: the row is replaced by as many elements. -/
def set_slice : Val → List Nat → List Val → Run Val
  | .arr xs, [], new => if xs.length = new.length then .ok (.arr new) else .fault
  | .arr xs, i :: rest, new =>
    (nth xs i).bind fun x =>
      (set_slice x rest new).bind fun x => .ok (.arr (xs.set (i - 1) x))
  | _, _, _ => .fault

/-- MATLAB `t(1:n)`. -/
def first_n (t : List Val) (n : Int) : Run (List Val) :=
  if n.toNat ≤ t.length then .ok (t.take n.toNat) else .fault

/-! ## The generated encode procedures -/

/-- The procedure a call `<fn>_encode_nohash(...)` runs: the generated one of
the struct emitted under that name, else the one of lcm-matlab. -/
def call_encode_nohash (codec : Codec) (structs : List lcm_struct)
    (generated : lcm_struct → Buf → Int → Int → List Val → Int → Run (Buf × Int))
    (fn : String) (buf : Buf) (pos maxlen : Int) (S : List Val) (elems : Int) :
    Run (Buf × Int) :=
  match lookup structs fn with
  | some callee => generated callee buf pos maxlen S elems
  | none => codec.encode_nohash fn buf pos maxlen S elems

/-- Lines 402-414, the call emitted for one member, run with the loop
variables `dx0, dx1, ...` at `idx`:
`[buf, pos] = <fn>_encode_nohash(buf, pos, maxlen, S(ix).m(dx0,...,:), sizeLast);`
or, for a member without dimensions,
`[buf, pos] = <fn>_encode_nohash(buf, pos, maxlen, S(ix).m, 1);`. -/
def encode_element (call : String → Buf → Int → Int → List Val → Int → Run (Buf × Int))
    (maxlen : Int) (S : List Val) (ix : Nat) (lm : lcm_member) (idx : List Nat)
    (st : Buf × Int) : Run (Buf × Int) :=
  let lm_tnc := dots_to_double_colons lm.type.lctypename
  let fn := map_type_name lm_tnc
  (member_ref S ix lm.membername).bind fun m =>
    match lm.dimensions.getLast? with
    | none => call fn st.1 st.2 maxlen [m] 1
    | some dim =>
      (slice m idx).bind fun values =>
        (eval_size dim.size).bind fun count => call fn st.1 st.2 maxlen values count

/-- Lines 391-422, the lines emitted for one member inside `for ix = 1:elems`:
one loop `for dx<k> = 1:size<k>` for each dimension but the last, nested in
declaration order, around the call. -/
def encode_member (call : String → Buf → Int → Int → List Val → Int → Run (Buf × Int))
    (maxlen : Int) (S : List Val) (ix : Nat) (lm : lcm_member) (st : Buf × Int) :
    Run (Buf × Int) :=
  nest lm.dimensions.dropLast [] (encode_element call maxlen S ix lm) st

/-- Lines 390-423: the member lines in declaration order. -/
def encode_members (call : String → Buf → Int → Int → List Val → Int → Run (Buf × Int))
    (maxlen : Int) (S : List Val) (ix : Nat) : List lcm_member → Buf × Int → Run (Buf × Int)
  | [], st => .ok st
  | lm :: rest, st =>
    (encode_member call maxlen S ix lm st).bind fun st =>
      encode_members call maxlen S ix rest st

/-- Lines 384-429: the generated `<sn>_encode_nohash(buf, pos, maxlen, S, elems)`.
The first argument bounds the nesting of generated procedures. -/
def encode_nohash (codec : Codec) (structs : List lcm_struct) :
    Nat → lcm_struct → Buf → Int → Int → List Val → Int → Run (Buf × Int)
  | 0, _, _, _, _, _, _ => .timeout
  | fuel + 1, ls, buf, pos, maxlen, S, elems =>
    for_loop
      (fun ix st =>
        encode_members (call_encode_nohash codec structs (encode_nohash codec structs fuel))
          maxlen S ix ls.members st)
      elems.toNat 1 (buf, pos)

/-- Lines 277-289: the generated `<sn>_encode(buf, pos, maxlen, S)`:
```
hash = <sn>_hash();
[buf, pos] = int64_encode_nohash(buf, pos, maxlen, hash, 1);
[buf, pos] = <sn>_encode_nohash(buf, pos, maxlen, S, 1);
``` -/
def encode (codec : Codec) (prim : String → Bool) (structs : List lcm_struct) (fuel : Nat)
    (ls : lcm_struct) (buf : Buf) (pos maxlen : Int) (S : Val) : Run (Buf × Int) :=
  (get_hash prim structs ls).bind fun hash =>
    (call_encode_nohash codec structs (encode_nohash codec structs fuel) "int64" buf pos maxlen
      [.num hash.1, .num hash.2] 1).bind fun st =>
      encode_nohash codec structs fuel ls st.1 st.2 maxlen [S] 1

/-! ## The generated decode procedures -/

/-- The procedure a call `<fn>_decode_nohash(...)` runs: the generated one of
the struct emitted under that name, else the one of lcm-matlab. -/
def call_decode_nohash (codec : Codec) (structs : List lcm_struct)
    (generated : lcm_struct → Buf → Int → Int → List Val → Int → Run (Int × List Val))
    (fn : String) (buf : Buf) (pos maxlen : Int) (S : List Val) (elems : Int) :
    Run (Int × List Val) :=
  match lookup structs fn with
  | some callee => generated callee buf pos maxlen S elems
  | none => codec.decode_nohash fn buf pos maxlen S elems

/-- Lines 493-528, the lines emitted for one member inside `for ix = 1:elems`.
For a member without dimensions:
```
[pos, t] = <fn>_decode_nohash(buf, pos, maxlen, S(ix).m, 1);
S(ix).m = t(1);
```
and otherwise, inside one loop for each dimension but the last:
```
[pos, t] = <fn>_decode_nohash(buf, pos, maxlen, S(ix).m(dx0,...,:), sizeLast);
S(ix).m(dx0,...,:) = t(1:sizeLast);
``` -/
def decode_member (call : String → Buf → Int → Int → List Val → Int → Run (Int × List Val))
    (buf : Buf) (maxlen : Int) (ix : Nat) (lm : lcm_member) (st : Int × List Val) :
    Run (Int × List Val) :=
  let lm_tnc := dots_to_double_colons lm.type.lctypename
  let fn := map_type_name lm_tnc
  match lm.dimensions.getLast? with
  | none =>
    (member_ref st.2 ix lm.membername).bind fun m =>
      (call fn buf st.1 maxlen [m] 1).bind fun r =>
        (nth r.2 1).bind fun t1 =>
          (member_set st.2 ix lm.membername t1).bind fun S => .ok (r.1, S)
  | some dim =>
    nest lm.dimensions.dropLast []
      (fun idx st =>
        (member_ref st.2 ix lm.membername).bind fun m =>
          (slice m idx).bind fun values =>
            (eval_size dim.size).bind fun count =>
              (call fn buf st.1 maxlen values count).bind fun r =>
                (first_n r.2 count).bind fun t =>
                  (set_slice m idx t).bind fun m =>
                    (member_set st.2 ix lm.membername m).bind fun S => .ok (r.1, S))
      st

/-- Lines 492-529: the member lines in declaration order. -/
def decode_members (call : String → Buf → Int → Int → List Val → Int → Run (Int × List Val))
    (buf : Buf) (maxlen : Int) (ix : Nat) :
    List lcm_member → Int × List Val → Run (Int × List Val)
  | [], st => .ok st
  | lm :: rest, st =>
    (decode_member call buf maxlen ix lm st).bind fun st =>
      decode_members call buf maxlen ix rest st

/-- Lines 486-533: the generated `<sn>_decode_nohash(buf, pos, maxlen, S, elems)`.
The first argument bounds the nesting of generated procedures. -/
def decode_nohash (codec : Codec) (structs : List lcm_struct) :
    Nat → lcm_struct → Buf → Int → Int → List Val → Int → Run (Int × List Val)
  | 0, _, _, _, _, _, _ => .timeout
  | fuel + 1, ls, buf, pos, maxlen, S, elems =>
    for_loop
      (fun ix st =>
        decode_members (call_decode_nohash codec structs (decode_nohash codec structs fuel))
          buf maxlen ix ls.members st)
      elems.toNat 1 (pos, S)

/-- MATLAB `a ~= b` on two numeric scalars. -/
def differs (a : Val) (b : Nat) : Run Bool :=
  match a with
  | .num n => .ok (decide (n ≠ (b : Int)))
  | _ => .fault

/-- Lines 303-321: the generated `<sn>_decode(buf, pos, maxlen, S)`:
```
hash = uint32([0, 0]);
hash(1:2) = <sn>_hash();
readHash = uint32([0, 0]);
[pos, readHash] = int64_decode_nohash(buf, pos, maxlen, readHash, 1);
if pos < 1 || readHash(1) ~= hash(1) || readHash(2) ~= hash(2)
    pos = -1;
else
    [pos, S] = <sn>_decode_nohash(buf, pos, maxlen, S, 1);
end
``` -/
def decode (codec : Codec) (prim : String → Bool) (structs : List lcm_struct) (fuel : Nat)
    (ls : lcm_struct) (buf : Buf) (pos maxlen : Int) (S : Val) : Run (Int × Val) :=
  (get_hash prim structs ls).bind fun hash =>
    (call_decode_nohash codec structs (decode_nohash codec structs fuel) "int64" buf pos maxlen
      [.num 0, .num 0] 1).bind fun r =>
      let pos := r.1
      let readHash := r.2
      let body : Run (Int × Val) :=
        (decode_nohash codec structs fuel ls buf pos maxlen [S] 1).bind fun r =>
          (nth r.2 1).bind fun S => .ok (r.1, S)
      if pos < 1 then .ok (-1, S)
      else
        (nth readHash 1).bind fun r1 =>
          (differs r1 hash.1).bind fun d1 =>
            if d1 then .ok (-1, S)
            else
              (nth readHash 2).bind fun r2 =>
                (differs r2 hash.2).bind fun d2 =>
                  if d2 then .ok (-1, S) else body

/-! ## The generated size procedures -/

/-- MATLAB arithmetic on `uint32` saturates: a sum past 2^32 - 1 is 2^32 - 1. -/
def uint32_sat (n : Nat) : Nat := min n (2 ^ 32 - 1)

/-- The procedure a call `<fn>_encodedSize_nohash(...)` runs: the generated one
of the struct emitted under that name, else the one of lcm-matlab. -/
def call_encodedSize_nohash (codec : Codec) (structs : List lcm_struct)
    (generated : lcm_struct → Val → Run Nat) (fn : String) (S : Val) : Run Nat :=
  match lookup structs fn with
  | some callee => generated callee S
  | none => codec.encodedSize_nohash fn S

/-- The value of `encsize * size0 * size1 * ...`. -/
def size_product : List lcm_dimension → Nat → Run Nat
  | [], acc => .ok acc
  | dim :: rest, acc => (eval_size dim.size).bind fun n => size_product rest (acc * n.toNat)

/-- Lines 438-478, the lines emitted for one member.  For a type of known
size: `s = s + encsize * size0 * size1 ...;`.  Otherwise, for a member without
dimensions: `s = s + <fn>_encodedSize_nohash(S.m);`, and with dimensions, inside
one loop for each dimension: `s = s + <fn>_encodedSize_nohash(S.m(dx0,...));`. -/
def encodedSize_member (call : String → Val → Run Nat) (S : Val) (lm : lcm_member) (s : Nat) :
    Run Nat :=
  let lm_tnc := dots_to_double_colons lm.type.lctypename
  let encsize := encoded_size lm_tnc
  if encsize > -1 then
    (size_product lm.dimensions encsize.toNat).bind fun n => .ok (uint32_sat (s + n))
  else if lm.dimensions = [] then
    (S.field lm.membername).bind fun m =>
      (call (map_type_name lm_tnc) m).bind fun n => .ok (uint32_sat (s + n))
  else
    nest lm.dimensions []
      (fun idx s =>
        (S.field lm.membername).bind fun m =>
          (element m idx).bind fun e =>
            (call (map_type_name lm_tnc) e).bind fun n => .ok (uint32_sat (s + n)))
      s

/-- Lines 437-479: the member lines in declaration order. -/
def encodedSize_members (call : String → Val → Run Nat) (S : Val) :
    List lcm_member → Nat → Run Nat
  | [], s => .ok s
  | lm :: rest, s =>
    (encodedSize_member call S lm s).bind fun s => encodedSize_members call S rest s

/-- Lines 431-484: the generated `<sn>_encodedSize_nohash(S)`, starting from
`s = uint32(0)`.  The first argument bounds the nesting of generated
procedures. -/
def encodedSize_nohash (codec : Codec) (structs : List lcm_struct) :
    Nat → lcm_struct → Val → Run Nat
  | 0, _, _ => .timeout
  | fuel + 1, ls, S =>
    encodedSize_members
      (call_encodedSize_nohash codec structs (encodedSize_nohash codec structs fuel)) S
      ls.members 0

/-- Lines 291-301: the generated `<sn>_encodedSize(S)`:
`bytes = uint32(8) + <sn>_encodedSize_nohash(S);`. -/
def encodedSize (codec : Codec) (structs : List lcm_struct) (fuel : Nat) (ls : lcm_struct)
    (S : Val) : Run Nat :=
  (encodedSize_nohash codec structs fuel ls S).bind fun n => .ok (uint32_sat (8 + n))

/-! ## A primitive codec for the examples -/

/-- The width in bytes of one element of the lcm-matlab codec of the given
name, for the names `map_type_name` gives the fixed-width primitive types. -/
def be_width (fn : String) : Option Nat :=
  if fn = "logical" ∨ fn = "uint8" ∨ fn = "int8" then some 1
  else if fn = "int16" ∨ fn = "uint16" then some 2
  else if fn = "int32" ∨ fn = "uint32" ∨ fn = "single" then some 4
  else if fn = "int64" ∨ fn = "double" then some 8
  else none

/-- The `w` bytes of `n`, most significant first (two's complement). -/
def be_bytes (w : Nat) (n : Int) : List Nat :=
  (List.range w).map fun i => ((n % (256 ^ w : Int)).toNat / 256 ^ (w - 1 - i)) % 256

/-- The unsigned value of bytes given most significant first. -/
def be_value (bytes : List Nat) : Nat := bytes.foldl (fun a b => a * 256 + b) 0

/-- The numbers of a list of numeric scalars. -/
def nums : List Val → Option (List Int)
  | [] => some []
  | .num n :: rest => (nums rest).map (n :: ·)
  | _ :: _ => none

/-- MATLAB `buf(pos : pos + numel(bytes) - 1) = bytes`; a buffer too short is
grown with zeros. -/
def write_at (buf : Buf) (pos : Nat) (bytes : List Nat) : Buf :=
  (buf ++ List.replicate (pos - 1 - buf.length) 0).take (pos - 1) ++ bytes
    ++ buf.drop (pos - 1 + bytes.length)

/-- The chunks of `w` bytes of a list. -/
def chunks (w : Nat) : Nat → List Nat → List (List Nat)
  | 0, _ => []
  | k + 1, bytes => bytes.take w :: chunks w k (bytes.drop w)

/-- Modelled from the spec: a codec for the examples, writing each element in
big-endian byte order and checking `maxlen` before it writes or reads; a
failure is reported as position -1.  A 64-bit integer is held as two `uint32`
words, as the hash is. -/
def be_codec : Codec where
  encode_nohash := fun fn buf pos maxlen values count =>
    match be_width fn with
    | none => .fault
    | some w =>
      if pos < 1 ∨ maxlen < pos - 1 + count * w then .ok (buf, -1)
      else
        let per := if fn = "int64" then 2 else 1
        if values.length < per * count.toNat then .fault
        else match nums (values.take (per * count.toNat)) with
          | none => .fault
          | some ns =>
            .ok (write_at buf pos.toNat (ns.flatMap (be_bytes (w / per))), pos + count * w)
  decode_nohash := fun fn buf pos maxlen values count =>
    match be_width fn with
    | none => .fault
    | some w =>
      if pos < 1 ∨ maxlen < pos - 1 + count * w ∨ (buf.length : Int) < pos - 1 + count * w then
        .ok (-1, values)
      else
        let per := if fn = "int64" then 2 else 1
        let bytes := (buf.drop (pos.toNat - 1)).take (count.toNat * w)
        .ok (pos + count * w,
          (chunks (w / per) (per * count.toNat) bytes).map fun c => .num (be_value c))
  encodedSize_nohash := fun fn _ =>
    match be_width fn with
    | none => .fault
    | some w => .ok w

/-- The schema `struct Point { int32_t x; int32_t y; }`. -/
def ex_Point : lcm_struct :=
  ⟨unqualified "Point",
    [⟨unqualified "int32_t", "x", []⟩, ⟨unqualified "int32_t", "y", []⟩], 0x1234⟩

/-- The instance `{x = 1, y = 2}` of `Point`. -/
def ex_point : Val := .struct [("x", .num 1), ("y", .num 2)]

/-- The schema `struct Dyn { int32_t n; int32_t values[n]; }`, an array whose
extent is the run-time value of the member `n`. -/
def ex_Dyn : lcm_struct :=
  ⟨unqualified "Dyn",
    [⟨unqualified "int32_t", "n", []⟩,
     ⟨unqualified "int32_t", "values", [⟨.LCM_VAR, "n"⟩]⟩], 0x5678⟩

/-- The instance `n = 3, values = [10, 20, 30]` of `Dyn`. -/
def ex_dyn : Val := .struct [("n", .num 3), ("values", .arr [.num 10, .num 20, .num 30])]

/-- The schema `struct Grid { int16_t cells[2][3]; Point corners[2]; }`. -/
def ex_Grid : lcm_struct :=
  ⟨unqualified "Grid",
    [⟨unqualified "int16_t", "cells", [⟨.LCM_CONST, "2"⟩, ⟨.LCM_CONST, "3"⟩]⟩,
     ⟨unqualified "Point", "corners", [⟨.LCM_CONST, "2"⟩]⟩], 0x9abc⟩

/-- An instance of `Grid`. -/
def ex_grid : Val :=
  .struct
    [("cells", .arr [.arr [.num 1, .num 2, .num 3], .arr [.num 4, .num 5, .num 6]]),
     ("corners", .arr [.struct [("x", .num 7), ("y", .num 8)],
        .struct [("x", .num 9), ("y", .num 10)]])]

/-- The instance of `Grid` with every number zero, as `Grid_new()` builds it. -/
def ex_grid_new : Val :=
  .struct
    [("cells", .arr [.arr [.num 0, .num 0, .num 0], .arr [.num 0, .num 0, .num 0]]),
     ("corners", .arr [.struct [("x", .num 0), ("y", .num 0)],
        .struct [("x", .num 0), ("y", .num 0)]])]

/-! ## The emitted text of the no-preamble encoder and decoder -/

/-- One emitted line of a generated procedure: the indentation level (the
first argument of `emit` and `emit_start`) and what the format string and its
arguments print. -/
inductive Line where
  /-- The line `for ix = 1:elems`. -/
  | for_ix (indent : Nat)
  /-- The line `for dx%d = 1:%s`. -/
  | for_dx (indent : Nat) (dx : Nat) (size : String)
  /-- The line `end`. -/
  | end_ (indent : Nat)
  /-- The line `[buf, pos] = %s_encode_nohash(buf, pos, maxlen, S(ix).%s`, then either
  `, 1);` or `(`, `dx%d,` for each index, `:), %s);` -/
  | encode_call (indent : Nat) (fn member : String) (index : Option (List Nat)) (count : String)
  /-- The line `[pos, t] = %s_decode_nohash(buf, pos, maxlen, S(ix).%s, 1);` or
  `[pos, t] = %s_decode_nohash(buf, pos, maxlen, S(ix).%s(`, `dx%d,` for each
  index, `:), %s);` -/
  | decode_call (indent : Nat) (fn member : String) (index : Option (List Nat)) (count : String)
  /-- The line `S(ix).%s = t(1);` or `S(ix).%s(`, `dx%d,` for each index,
  `:) = t(1:%s);` -/
  | store (indent : Nat) (member : String) (index : Option (List Nat)) (count : String)
  /-- The line `s = s + %d`, then ` * %s` for each dimension, then `;`. -/
  | size_known (indent : Nat) (encsize : Int) (sizes : List String)
  /-- The line `s = s + %s_encodedSize_nohash(S.%s);` or
  `s = s + %s_encodedSize_nohash(S.%s(`, `dx%d,` for each index but the last, `dx%d));` -/
  | size_call (indent : Nat) (fn member : String) (index : Option (List Nat))
  /-- The line `parents = [parents, %zu, '%s'];` -/
  | append_record (indent : Nat) (len : Nat) (name : String)
  /-- The line `if %zu == p_len && strcmp(parents(ix + 1: ix + p_len), '%s')` -/
  | compare_record (indent : Nat) (len : Nat) (name : String)
  /-- The line `hash = add_overflow(hash, %s_computeHash(parents));` -/
  | hash_call (indent : Nat) (fn : String)
  /-- Any other line, kept as its text. -/
  | text (indent : Nat) (s : String)
deriving DecidableEq, Repr

/-- The text of `(dx0,dx1,...,:)`, or nothing for a member without dimensions. -/
def render_index : Option (List Nat) → String
  | none => ""
  | some dxs => "(" ++ String.join (dxs.map fun dx => "dx" ++ toString dx ++ ",") ++ ":)"

/-- The `INDENT(n)` spaces a line starts with. -/
def indentation (n : Nat) : String := ⟨List.replicate (4 * n) ' '⟩

/-- The characters a line prints, without the newline. -/
def Line.render : Line → String
  | .for_ix n => indentation n ++ "for ix = 1:elems"
  | .for_dx n dx size => indentation n ++ "for dx" ++ toString dx ++ " = 1:" ++ size
  | .end_ n => indentation n ++ "end"
  | .encode_call n fn member index count =>
    indentation n ++ "[buf, pos] = " ++ fn ++ "_encode_nohash(buf, pos, maxlen, S(ix)." ++ member
      ++ render_index index ++ ", " ++ count ++ ");"
  | .decode_call n fn member index count =>
    indentation n ++ "[pos, t] = " ++ fn ++ "_decode_nohash(buf, pos, maxlen, S(ix)." ++ member
      ++ render_index index ++ ", " ++ count ++ ");"
  | .store n member none _ => indentation n ++ "S(ix)." ++ member ++ " = t(1);"
  | .store n member (some dxs) count =>
    indentation n ++ "S(ix)." ++ member ++ render_index (some dxs) ++ " = t(1:" ++ count ++ ");"
  | .size_known n encsize sizes =>
    indentation n ++ "s = s + " ++ toString encsize
      ++ String.join (sizes.map fun size => " * " ++ size) ++ ";"
  | .size_call n fn member none =>
    indentation n ++ "s = s + " ++ fn ++ "_encodedSize_nohash(S." ++ member ++ ");"
  | .size_call n fn member (some dxs) =>
    indentation n ++ "s = s + " ++ fn ++ "_encodedSize_nohash(S." ++ member ++ "("
      ++ String.join (dxs.dropLast.map fun dx => "dx" ++ toString dx ++ ",")
      ++ "dx" ++ toString (dxs.getLastD 0) ++ "));"
  | .append_record n len name =>
    indentation n ++ "parents = [parents, " ++ toString len ++ ", '" ++ name ++ "'];"
  | .compare_record n len name =>
    indentation n ++ "if " ++ toString len ++ " == p_len && strcmp(parents(ix + 1: ix + p_len), '"
      ++ name ++ "')"
  | .hash_call n fn =>
    indentation n ++ "hash = add_overflow(hash, " ++ fn ++ "_computeHash(parents));"
  | .text n s => indentation n ++ s

/-- The `size` of the last dimension, `g_ptr_array_index(lm->dimensions,
dimensions - 1)->size`. -/
def last_size (lm : lcm_member) : String :=
  match lm.dimensions.getLast? with
  | some dim => dim.size
  | none => ""

/-- Lines 396-399 and 503-506: `for (dx = 0; dx < dimensions - 1; ++dx)
emit(2 + dx, "for dx%d = 1:%s", dx, dim->size)`. -/
def emit_for_each_dimension (lm : lcm_member) : List Line :=
  lm.dimensions.dropLast.enum.map fun p => .for_dx (2 + p.1) p.1 p.2.size

/-- Lines 390-423: the lines `emit_encode_nohash` prints for one member. -/
def emit_encode_member (lm : lcm_member) : List Line :=
  let lm_tnc := dots_to_double_colons lm.type.lctypename
  let dimensions := lm.dimensions.length
  emit_for_each_dimension lm
  ++ [if 0 = dimensions then
        .encode_call (1 + (if dimensions > 1 then dimensions else 1)) (map_type_name lm_tnc)
          lm.membername none "1"
      else
        .encode_call (1 + (if dimensions > 1 then dimensions else 1)) (map_type_name lm_tnc)
          lm.membername (some (List.range (dimensions - 1))) (last_size lm)]
  ++ (List.range' 2 (dimensions - 1)).reverse.map fun dx => .end_ dx

/-- Lines 384-429: the lines `emit_encode_nohash` prints after the warning of
`start_file`. -/
def emit_encode_nohash (ls : lcm_struct) : List Line :=
  let sn := ls.structname.shortname
  [.text 0 ("function [buf, pos] = " ++ sn ++ "_encode_nohash(buf, pos, maxlen, S, elems)"),
   .for_ix 1]
  ++ ls.members.flatMap emit_encode_member
  ++ [.end_ 1, .text 0 "%endfunction", .text 0 ""]

/-- Lines 492-529: the lines `emit_decode_nohash` prints for one member. -/
def emit_decode_member (lm : lcm_member) : List Line :=
  let lm_tnc := dots_to_double_colons lm.type.lctypename
  let dimensions := lm.dimensions.length
  if 0 = dimensions then
    [.decode_call 2 (map_type_name lm_tnc) lm.membername none "1",
     .store 2 lm.membername none "1"]
  else
    emit_for_each_dimension lm
    ++ [.decode_call (1 + (if dimensions > 1 then dimensions else 1)) (map_type_name lm_tnc)
          lm.membername (some (List.range (dimensions - 1))) (last_size lm),
        .store (1 + (if dimensions > 1 then dimensions else 1)) lm.membername
          (some (List.range (dimensions - 1))) (last_size lm)]
    ++ (List.range' 1 (dimensions - 1)).reverse.map fun dx => .end_ (1 + dx)

/-- Lines 486-533: the lines `emit_decode_nohash` prints after the warning of
`start_file`. -/
def emit_decode_nohash (ls : lcm_struct) : List Line :=
  let sn := ls.structname.shortname
  [.text 0 ("function [pos, S] = " ++ sn ++ "_decode_nohash(buf, pos, maxlen, S, elems)"),
   .for_ix 1]
  ++ ls.members.flatMap emit_decode_member
  ++ [.end_ 1, .text 0 "%endfunction"]

/-- A step of the traversal a generated codec procedure makes: a loop opened, a
loop closed, or the call of the codec of a member type on a member, with its
index expression and element count. -/
inductive Step where
  | open_ix (indent : Nat)
  | open_dx (indent : Nat) (dx : Nat) (size : String)
  | close (indent : Nat)
  | codec (indent : Nat) (fn member : String) (index : Option (List Nat)) (count : String)
deriving DecidableEq, Repr

/-- The step a line of an encoder or decoder makes, if any: the loops and the
codec calls; the line that stores what was decoded, the lines of text and the
lines of the size and fingerprint procedures make none. -/
def Line.step : Line → Option Step
  | .for_ix n => some (.open_ix n)
  | .for_dx n dx size => some (.open_dx n dx size)
  | .end_ n => some (.close n)
  | .encode_call n fn member index count => some (.codec n fn member index count)
  | .decode_call n fn member index count => some (.codec n fn member index count)
  | .store _ _ _ _ => none
  | .size_known _ _ _ => none
  | .size_call _ _ _ _ => none
  | .append_record _ _ _ => none
  | .compare_record _ _ _ => none
  | .hash_call _ _ => none
  | .text _ _ => none

/-- The traversal of a generated procedure: the steps of its lines, in order. -/
def traversal (lines : List Line) : List Step := lines.filterMap Line.step

/-! ## The order of the encoder's writes -/

/-- Run the steps of a list one after the other, in the order of the list. -/
def run_all {α σ : Type} (step : α → σ → Run σ) : List α → σ → Run σ
  | [], s => .ok s
  | a :: rest, s => (step a s).bind fun s => run_all step rest s

/-- The index tuples `(dx0, dx1, ...)` of the given dimensions in lexicographic
order, the first dimension most significant (row-major order); the sizes are
read outermost first, and no further once one of them is 0. -/
def index_tuples : List lcm_dimension → Run (List (List Nat))
  | [] => .ok [[]]
  | dim :: rest =>
    (eval_size dim.size).bind fun n =>
      if n.toNat = 0 then .ok []
      else (index_tuples rest).bind fun ts =>
        .ok ((List.range' 1 n.toNat).flatMap fun dx => ts.map fun t => dx :: t)

/-- The pairs (instance index, (member index, member)) of `elems` instances of
a struct, in lexicographic order: instances first, then members in declaration
order. -/
def write_order (ls : lcm_struct) (elems : Int) : List (Nat × Nat × lcm_member) :=
  (List.range' 1 elems.toNat).flatMap fun ix => ls.members.enum.map fun m => (ix, m)

/-! ## Instances of a struct and the size of their encoding -/

/-- The constant extents of the dimensions, if every `size` is a decimal
constant. -/
def extents : List lcm_dimension → Option (List Nat)
  | [] => some []
  | dim :: rest =>
    match decimal dim.size, extents rest with
    | some n, some ns => some (n :: ns)
    | _, _ => none

/-- The index tuples `(dx0, dx1, ...)` of an array of the given extents, in
row-major order. -/
def all_tuples : List Nat → List (List Nat)
  | [] => [[]]
  | n :: ns => (List.range' 1 n).flatMap fun dx => (all_tuples ns).map fun t => dx :: t

/-- Whether a value is an array of the given extents, the first outermost. -/
def has_shape : List Nat → Val → Bool
  | [], _ => true
  | n :: ns, .arr xs => decide (xs.length = n) && xs.all (has_shape ns)
  | _ :: _, _ => false

/-- The elements of an array of the given extents, in row-major order. -/
def leaves : List Nat → Val → List Val
  | [], v => [v]
  | _ :: ns, .arr xs => xs.flatMap (leaves ns)
  | _ :: _, _ => []

/-- The value of the field `name` of a struct value, if it has one. -/
def Val.field? (v : Val) (name : String) : Option Val :=
  match v with
  | .struct fields => fields.lookup name
  | _ => none

/-- Whether `x` is an instance of the struct `ls` all of whose members, at every
level, have constant dimensions and a type that is either a primitive of known
size, encoded by lcm-matlab, or a struct of the schema: every member is a field
of `x`, an array of the declared extents, and every element of a struct-typed
member is such an instance in turn.  The first argument bounds the nesting of
structs. -/
def conforms (structs : List lcm_struct) : Nat → lcm_struct → Val → Bool
  | 0, _, _ => false
  | fuel + 1, ls, x =>
    ls.members.all fun lm =>
      let lm_tnc := dots_to_double_colons lm.type.lctypename
      match extents lm.dimensions, x.field? lm.membername with
      | some ns, some v =>
        has_shape ns v &&
          (if encoded_size lm_tnc > -1 then (lookup structs (map_type_name lm_tnc)).isNone
           else
             match lookup structs (map_type_name lm_tnc) with
             | some callee => decide (fuel ≠ 0) && (leaves ns v).all (conforms structs fuel callee)
             | none => false)
      | _, _ => false

/-- The number of bytes of the encoding of one member of an instance. -/
def member_wire_size (structs : List lcm_struct) (size_of : lcm_struct → Val → Nat) (x : Val)
    (lm : lcm_member) : Nat :=
  let lm_tnc := dots_to_double_colons lm.type.lctypename
  match extents lm.dimensions, x.field? lm.membername with
  | some ns, some v =>
    if encoded_size lm_tnc > -1 then (encoded_size lm_tnc).toNat * ns.prod
    else
      match lookup structs (map_type_name lm_tnc) with
      | some callee => ((leaves ns v).map (size_of callee)).sum
      | none => 0
  | _, _ => 0

/-- The number of bytes of the encoding of an instance without its preamble:
for each member, the width of its primitive type times its extents, or the sum
over its elements for a struct type. -/
def wire_size (structs : List lcm_struct) : Nat → lcm_struct → Val → Nat
  | 0, _, _ => 0
  | fuel + 1, ls, x => (ls.members.map (member_wire_size structs (wire_size structs fuel) x)).sum

/-- Modelled from the spec: a codec of which only the positions are kept: a
primitive write of `count` elements of width `w` advances the position by
`count * w` and always succeeds. -/
def counting_codec : Codec where
  encode_nohash := fun fn buf pos _ _ count =>
    match be_width fn with
    | none => .fault
    | some w => .ok (buf, pos + count * w)
  decode_nohash := fun fn _ pos _ values count =>
    match be_width fn with
    | none => .fault
    | some w => .ok (pos + count * w, values)
  encodedSize_nohash := fun fn _ =>
    match be_width fn with
    | none => .fault
    | some w => .ok w

/-- The schema `struct Big { int32_t a[1073741824]; }`, 2^32 bytes of payload. -/
def ex_Big : lcm_struct :=
  ⟨unqualified "Big", [⟨unqualified "int32_t", "a", [⟨.LCM_CONST, "1073741824"⟩]⟩], 0x42⟩

/-- The instance of `Big` with every element zero. -/
def ex_big : Val := .struct [("a", .arr (List.replicate 1073741824 (.num 0)))]

/-- The elements of a row, the value of `v(dx0, ..., :)`. -/
def row_of : Val → List Val
  | .arr xs => xs
  | _ => []

/-- The assumption on the primitive codecs under which sizes are compared: a
write of `count` elements of a primitive type of width `w` succeeds and advances
the position by `count * w`. -/
def writes_fixed_width (codec : Codec) : Prop :=
  ∀ t, encoded_size t > -1 → ∀ (buf : Buf) (pos maxlen : Int) (values : List Val) (count : Nat),
    ∃ b, codec.encode_nohash (map_type_name t) buf pos maxlen values count
      = .ok (b, pos + ((count * (encoded_size t).toNat : Nat) : Int))

/-- The instance `n = 0, values = []` of `Dyn`, a dynamic array of length 0. -/
def ex_dyn0 : Val := .struct [("n", .num 0), ("values", .arr [])]

/-! ## The buffer of `dots_to_double_colons` -/

/-- Lines 53-61 of `dots_to_double_colons` on an explicit buffer: `s` is what is left to read at
`t`, `p` the allocation and `q` the write position in it. A write outside the allocation is
`none`. -/
def dots_to_double_colons_loop : List Char → List Char → Nat → Option (List Char × Nat)
  | [], p, q => some (p, q)
  | t :: s, p, q =>
    if t = '.' then
      if q + 1 < p.length then
        dots_to_double_colons_loop s ((p.set q ':').set (q + 1) ':') (q + 2)
      else none
    else
      if q < p.length then dots_to_double_colons_loop s (p.set q t) (q + 1) else none

/-- The zero byte that ends a C string. -/
def nul : Char := Char.ofNat 0

/-- Line 50 and the loop after it: the loop run on `calloc(1, 2 * strlen(s) + 1)`, which is
that many zero bytes, from write position 0. The result is the buffer and the final `q`. -/
def dots_to_double_colons_buffer (s : String) : Option (List Char × Nat) :=
  dots_to_double_colons_loop s.data (List.replicate (2 * s.length + 1) nul) 0

/-- The C string held in a buffer: the bytes before the first zero byte. -/
def c_string (p : List Char) : List Char := p.takeWhile (fun c => c ≠ nul)

/-! ## What the ancestry scan reads -/

/-- The scan of lines 356-364 as in `scan_parents`, with a record of what it reads: for every
iteration the index `ix` and the value `p_len = uint32(parents(ix))` read there, in order,
next to the final value of `visit`. -/
def scan_trace : Nat → List Nat → Nat → String → Nat → Run (List (Nat × Nat) × Bool)
  | 0, _, _, _, _ => .timeout
  | fuel + 1, parents, parents_len, tn, ix =>
    if ix < parents_len then
      match parents.get? (ix - 1) with
      | none => .fault
      | some p_len =>
        if tn.length = p_len then
          if ix + p_len ≤ parents.length then
            if (parents.drop ix).take p_len = tn.data.map Char.toNat then
              .ok ([(ix, p_len)], false)
            else
              (scan_trace fuel parents parents_len tn (ix + p_len + 1)).bind fun r =>
                .ok ((ix, p_len) :: r.1, r.2)
          else .fault
        else
          (scan_trace fuel parents parents_len tn (ix + p_len + 1)).bind fun r =>
            .ok ((ix, p_len) :: r.1, r.2)
    else .ok ([], true)

/-- The 1-based positions of the length cells of the records of `names` in an ancestry whose
first record starts at `ix`, each with the length held there. -/
def length_cells : List String → Nat → List (Nat × Nat)
  | [], _ => []
  | a :: rest, ix => (ix, a.length) :: length_cells rest (ix + a.length + 1)

/-- The names of an ancestry up to and including the first one equal to `tn`; all of them
when `tn` is not among them. -/
def up_to_first : List String → String → List String
  | [], _ => []
  | a :: rest, tn => if a = tn then [a] else a :: up_to_first rest tn

/-! ## The emitted text of the other procedures -/

/-- Lines 66-73: every `.` becomes the directory separator (`/`). -/
def dots_to_slashes (s : String) : String :=
  ⟨s.data.map (fun c => if c = '.' then '/' else c)⟩

/-- Lines 186-199: the file a procedure of the struct is written to; `mpath` is the option of
that name and `func` the suffix given to `start_file`. MATLAB finds a procedure under the name
of its file, the part after the last `/` without `.m`. -/
def get_file_name (mpath : String) (lr : lcm_struct) (func : String) : String :=
  let tn := lr.structname.lctypename
  let tn_ := dots_to_slashes tn
  mpath ++ (if mpath.length > 0 then "/" else "") ++ tn_ ++ func ++ ".m"

/-- The text of `%016"PRIx64"`: sixteen hexadecimal digits, lower case. -/
def hex16 (n : Nat) : String :=
  ⟨(List.range 16).reverse.map fun i => "0123456789abcdef".data.getD ((n / 16 ^ i) % 16) '0'⟩

/-- Lines 277-289: the lines `emit_encode` prints after the warning of `start_file`. -/
def emit_encode (ls : lcm_struct) : List Line :=
  let sn := ls.structname.shortname
  [.text 0 ("function [buf, pos] = " ++ sn ++ "_encode(buf, pos, maxlen, S)"),
   .text 1 ("hash = " ++ sn ++ "_hash();"),
   .text 1 "[buf, pos] = int64_encode_nohash(buf, pos, maxlen, hash, 1);",
   .text 1 ("[buf, pos] = " ++ sn ++ "_encode_nohash(buf, pos, maxlen, S, 1);"),
   .text 0 "%endfunction",
   .text 0 ""]

/-- Lines 291-301: the lines `emit_encoded_size` prints after the warning of `start_file`. -/
def emit_encoded_size (ls : lcm_struct) : List Line :=
  let sn := ls.structname.shortname
  [.text 0 ("function bytes = " ++ sn ++ "_encodedSize(S)"),
   .text 1 ("bytes = uint32(8) + " ++ sn ++ "_encodedSize_nohash(S);"),
   .text 0 "%endfunction",
   .text 0 ""]

/-- Lines 303-321: the lines `emit_decode` prints after the warning of `start_file`. -/
def emit_decode (ls : lcm_struct) : List Line :=
  let sn := ls.structname.shortname
  [.text 0 ("function [pos, S] = " ++ sn ++ "_decode(buf, pos, maxlen, S)"),
   .text 1 "hash = uint32([0, 0]);",
   .text 1 ("hash(1:2) = " ++ sn ++ "_hash();"),
   .text 1 "readHash = uint32([0, 0]);",
   .text 1 "[pos, readHash] = int64_decode_nohash(buf, pos, maxlen, readHash, 1);",
   .text 1 "if pos < 1 || readHash(1) ~= hash(1) || readHash(2) ~= hash(2)",
   .text 2 "pos = -1;",
   .text 1 "else",
   .text 2 ("[pos, S] = " ++ sn ++ "_decode_nohash(buf, pos, maxlen, S, 1);"),
   .end_ 1,
   .text 0 "%endfunction",
   .text 0 ""]

/-- Lines 323-338: the lines `emit_get_hash` prints after the warning of `start_file`. -/
def emit_get_hash (ls : lcm_struct) : List Line :=
  let sn := ls.structname.shortname
  [.text 0 ("function hash = " ++ sn ++ "_hash()"),
   .text 1 "hash = uint32([0, 0]);",
   .text 1 ("persistent " ++ sn ++ "_hash_value;"),
   .text 1 ("if isempty(" ++ sn ++ "_hash_value)"),
   .text 2 (sn ++ "_hash_value = " ++ sn ++ "_computeHash([]);"),
   .end_ 1,
   .text 1 ("hash = " ++ sn ++ "_hash_value;"),
   .text 0 "%endfunction",
   .text 0 ""]

/-- Lines 351-370: the lines `emit_compute_hash` prints for one member, none for a member of
primitive type. `prim` is `lcm_is_primitive_type`. -/
def emit_hash_member (prim : String → Bool) (lm : lcm_member) : List Line :=
  if prim lm.type.lctypename then []
  else
    let lm_tnc := dots_to_double_colons lm.type.lctypename
    [.text 1 "visit = true;",
     .text 1 "ix = uint32(1);",
     .text 1 "while ix < parents_len",
     .text 2 "p_len = uint32(parents(ix));",
     .compare_record 2 lm_tnc.length lm_tnc,
     .text 3 "visit = false;",
     .text 3 "break",
     .end_ 2,
     .text 2 "ix = ix + p_len + 1;",
     .end_ 1,
     .text 1 "if visit",
     .hash_call 2 lm_tnc,
     .end_ 1,
     .text 0 ""]

/-- Lines 340-382: the lines `emit_compute_hash` prints after the warning of `start_file`. -/
def emit_compute_hash (prim : String → Bool) (ls : lcm_struct) : List Line :=
  let sn := ls.structname.shortname
  [.text 0 ("function hash = " ++ sn ++ "_computeHash(parents)"),
   .text 1 "parents_len = length(parents);",
   .append_record 1 sn.length sn,
   .text 0 "",
   .text 1 ("hash = hex2int64('" ++ hex16 ls.hash ++ "');")]
  ++ ls.members.flatMap (emit_hash_member prim)
  ++ [.text 1 "%wrap around shift",
      .text 1 "overflowbit = bitshift(hash(2), -31);",
      .text 1 "bigendbit = bitshift(hash(1), -31);",
      .text 1 "hash = bitshift(hash, 1);",
      .text 1 "hash(1) = bitor(hash(1), overflowbit);",
      .text 1 "hash(2) = bitor(hash(2), bigendbit);",
      .text 0 "%endfunction",
      .text 0 ""]

/-- Lines 438-478: the lines `emit_encoded_size_nohash` prints for one member. -/
def emit_encoded_size_member (lm : lcm_member) : List Line :=
  let lm_tnc := dots_to_double_colons lm.type.lctypename
  let encsize := encoded_size lm_tnc
  let dimensions := lm.dimensions.length
  if encsize > -1 then
    [.size_known 1 encsize (lm.dimensions.map fun dim => dim.size)]
  else if 0 = dimensions then
    [.size_call 1 (map_type_name lm_tnc) lm.membername none]
  else
    (lm.dimensions.enum.map fun p => .for_dx (1 + p.1) p.1 p.2.size)
    ++ [.size_call (1 + dimensions) (map_type_name lm_tnc) lm.membername
          (some (List.range dimensions))]
    ++ (List.range' 1 dimensions).reverse.map fun dx => .end_ dx

/-- Lines 431-484: the lines `emit_encoded_size_nohash` prints after the warning of
`start_file`. -/
def emit_encoded_size_nohash (ls : lcm_struct) : List Line :=
  let sn := ls.structname.shortname
  [.text 0 ("function s = " ++ sn ++ "_encodedSize_nohash(S)"),
   .text 1 "s = uint32(0);"]
  ++ ls.members.flatMap emit_encoded_size_member
  ++ [.text 0 "%endfunction", .text 0 ""]

/-- The name of the procedure a line emitted for a member calls, as the line prints it. -/
def Line.callee : Line → Option String
  | .encode_call _ fn _ _ _ => some (fn ++ "_encode_nohash")
  | .decode_call _ fn _ _ _ => some (fn ++ "_decode_nohash")
  | .size_call _ fn _ _ => some (fn ++ "_encodedSize_nohash")
  | .hash_call _ fn => some (fn ++ "_computeHash")
  | _ => none

/-- The names of the procedures the lines call for members, in order. -/
def callees (lines : List Line) : List String := lines.filterMap Line.callee

/-- The schema `struct Sub { int32_t v; }` of package `pkg`. -/
def ex_pkg_Sub : lcm_struct :=
  ⟨⟨"pkg.Sub", "pkg", "Sub"⟩, [⟨unqualified "int32_t", "v", []⟩], 0x11⟩

/-- The schema `struct Top { Sub s; Sub r[2]; }` of package `pkg`; inside the package the
member type is `pkg.Sub`. -/
def ex_pkg_Top : lcm_struct :=
  ⟨⟨"pkg.Top", "pkg", "Top"⟩,
    [⟨⟨"pkg.Sub", "pkg", "Sub"⟩, "s", []⟩,
     ⟨⟨"pkg.Sub", "pkg", "Sub"⟩, "r", [⟨.LCM_CONST, "2"⟩]⟩], 0x22⟩

/-- The schema `struct P { Q q; }` of package `pkg`. -/
def ex_pkg_P : lcm_struct :=
  ⟨⟨"pkg.P", "pkg", "P"⟩, [⟨⟨"pkg.Q", "pkg", "Q"⟩, "q", []⟩], 0x33⟩

/-- The schema `struct Q { P p; }` of package `pkg`. -/
def ex_pkg_Q : lcm_struct :=
  ⟨⟨"pkg.Q", "pkg", "Q"⟩, [⟨⟨"pkg.P", "pkg", "P"⟩, "p", []⟩], 0x44⟩

/-! ## Loops of the emitted text -/

/-- The indentations of the loops open after the lines, innermost first, given those open
before them: a `for` line opens a loop at its indentation, an `end` line closes the innermost
open loop and must stand at its indentation. The result is `none` if an `end` line finds no
loop open or stands at another indentation than the loop it closes. -/
def open_loops : List Line → List Nat → Option (List Nat)
  | [], stack => some stack
  | .for_ix n :: rest, stack => open_loops rest (n :: stack)
  | .for_dx n _ _ :: rest, stack => open_loops rest (n :: stack)
  | .end_ n :: rest, stack =>
    match stack with
    | m :: stack => if m = n then open_loops rest stack else none
    | [] => none
  | _ :: rest, stack => open_loops rest stack

/-- Whether the line is a `for` line. -/
def Line.is_for : Line → Bool
  | .for_ix _ => true
  | .for_dx _ _ _ => true
  | _ => false

/-- Whether the line is an `end` line. -/
def Line.is_end : Line → Bool
  | .end_ _ => true
  | _ => false

/-! ## The writes of an instance, in wire order -/

/-- The primitive or nested writes one member of an instance calls for, in wire order, each
with the codec name, the elements handed over and their count: a member without dimensions is
one write of its value; an array member is one write for each index tuple of the dimensions
before the last, the first dimension outermost (row-major order), of the elements along the
last dimension. -/
def member_writes (x : Val) (lm : lcm_member) : List (String × List Val × Int) :=
  let fn := map_type_name (dots_to_double_colons lm.type.lctypename)
  match extents lm.dimensions, x.field? lm.membername with
  | some ns, some v =>
    match ns.getLast? with
    | none => [(fn, [v], 1)]
    | some n => (leaves ns.dropLast v).map fun e => (fn, row_of e, (n : Int))
  | _, _ => []

/-- The writes of one instance: those of its members, in declaration order. -/
def instance_writes (ls : lcm_struct) (x : Val) : List (String × List Val × Int) :=
  ls.members.flatMap (member_writes x)

/-- Whether `x` has every member of the struct as a field holding an array of the declared
constant extents. -/
def shaped (ls : lcm_struct) (x : Val) : Bool :=
  ls.members.all fun lm =>
    match extents lm.dimensions, x.field? lm.membername with
    | some ns, some v => has_shape ns v
    | _, _ => false

/-! ## Writes that fit the buffer -/

/-- The assumption on the primitive codecs under which sizes are compared: a write of
`count` elements of a primitive type of width `w`, of values the codec takes (`valid`), that
starts at a position from 1 on and ends within `maxlen`, succeeds and advances the position by
`count * w`. -/
def writes_within (codec : Codec) (valid : String → List Val → Int → Bool) : Prop :=
  ∀ t, encoded_size t > -1 → ∀ (buf : Buf) (pos maxlen : Int) (values : List Val) (count : Nat),
    1 ≤ pos → pos - 1 + ((count * (encoded_size t).toNat : Nat) : Int) ≤ maxlen →
    valid (map_type_name t) values count = true →
    ∃ b, codec.encode_nohash (map_type_name t) buf pos maxlen values count
      = .ok (b, pos + ((count * (encoded_size t).toNat : Nat) : Int))

/-- Whether the codec takes the values of every primitive write of the instance, at every
level of nesting.  The first argument bounds the nesting of structs. -/
def accepted (valid : String → List Val → Int → Bool) (structs : List lcm_struct) :
    Nat → lcm_struct → Val → Bool
  | 0, _, _ => false
  | fuel + 1, ls, x =>
    ls.members.all fun lm =>
      let lm_tnc := dots_to_double_colons lm.type.lctypename
      if encoded_size lm_tnc > -1 then (member_writes x lm).all fun w => valid w.1 w.2.1 w.2.2
      else
        match lookup structs (map_type_name lm_tnc), extents lm.dimensions,
          x.field? lm.membername with
        | some callee, some ns, some v => (leaves ns v).all (accepted valid structs fuel callee)
        | _, _, _ => false

/-- The values the example codec `be_codec` takes for `count` elements: as many numeric
scalars (two words for each `int64`). -/
def be_accepts (fn : String) (values : List Val) (count : Int) : Bool :=
  decide ((if fn = "int64" then 2 else 1) * count.toNat ≤ values.length) &&
    (nums (values.take ((if fn = "int64" then 2 else 1) * count.toNat))).isSome

/-! # Theorems -/

@[simp] theorem Run.ok_bind {α β : Type} (a : α) (f : α → Run β) : (Run.ok a).bind f = f a := rfl

@[simp] theorem Run.fault_bind {α β : Type} (f : α → Run β) :
    (Run.fault : Run α).bind f = .fault := rfl

@[simp] theorem Run.timeout_bind {α β : Type} (f : α → Run β) :
    (Run.timeout : Run α).bind f = .timeout := rfl

/-! ## The wrap around shift -/

theorem or_bit (a b : Nat) (hb : b < 2) :
    (a <<< 1) % 2 ^ 32 ||| b = (a * 2) % 2 ^ 32 + b := by
  have h1 : (a <<< 1) % 2 ^ 32 = 2 ^ 1 * (a % 2 ^ 31) := by
    rw [Nat.shiftLeft_eq]; omega
  rw [h1, ← Nat.mul_add_lt_is_or (by simpa using hb)]
  omega

theorem rotl1_words (hi lo : Nat) (hhi : hi < 2 ^ 32) (hlo : lo < 2 ^ 32) :
    rotl1 (hi * 2 ^ 32 + lo)
      = ((hi * 2) % 2 ^ 32 + lo / 2 ^ 31) * 2 ^ 32 + ((lo * 2) % 2 ^ 32 + hi / 2 ^ 31) := by
  unfold rotl1
  have e1 : (hi * 2 ^ 32 + lo) / 2 ^ 63 = hi / 2 ^ 31 := by omega
  have e2 : (hi * 2 ^ 32 + lo) * 2 % 2 ^ 64
      = ((hi * 2) % 2 ^ 32 + lo / 2 ^ 31) * 2 ^ 32 + (lo * 2) % 2 ^ 32 := by omega
  rw [e1, e2]; omega

theorem wrap_around_shift_eq (hi lo : Nat) (hhi : hi < 2 ^ 32) (hlo : lo < 2 ^ 32) :
    wrap_around_shift (hi, lo) = Hash.ofNat (rotl1 (Hash.toNat (hi, lo))) := by
  have h1 : lo >>> 31 < 2 := by rw [Nat.shiftRight_eq_div_pow]; omega
  have h2 : hi >>> 31 < 2 := by rw [Nat.shiftRight_eq_div_pow]; omega
  simp only [wrap_around_shift, bitshift_left1, bitshift_right31, Hash.ofNat, Hash.toNat]
  rw [or_bit _ _ h1, or_bit _ _ h2, rotl1_words hi lo hhi hlo]
  simp only [Nat.shiftRight_eq_div_pow]
  have hA : (hi * 2) % 2 ^ 32 + lo / 2 ^ 31 < 2 ^ 32 := by omega
  have hB : (lo * 2) % 2 ^ 32 + hi / 2 ^ 31 < 2 ^ 32 := by omega
  generalize (hi * 2) % 2 ^ 32 + lo / 2 ^ 31 = A at hA ⊢
  generalize (lo * 2) % 2 ^ 32 + hi / 2 ^ 31 = B at hB ⊢
  refine Prod.ext ?_ ?_ <;> simp only <;> omega

/-- C2: for every 64-bit value held as the pair of 32-bit words `hash(1)` (high)
and `hash(2)` (low), the mixing step emitted at the end of `computeHash` yields
the two words of the 64-bit rotation left by one bit of that value, the topmost
bit wrapping to the bottom. -/
theorem wrap_around_shift_is_rotl1 (hi lo : Nat) (hhi : hi < 2 ^ 32) (hlo : lo < 2 ^ 32) :
    wrap_around_shift (hi, lo) = Hash.ofNat (rotl1 (hi * 2 ^ 32 + lo)) ∧
    (wrap_around_shift (hi, lo)).toNat = rotl1 (hi * 2 ^ 32 + lo) ∧
    rotl1 (hi * 2 ^ 32 + lo) = ((hi * 2 ^ 32 + lo) * 2) % 2 ^ 64 + (hi * 2 ^ 32 + lo) / 2 ^ 63 ∧
    (wrap_around_shift (hi, lo)).1 < 2 ^ 32 ∧ (wrap_around_shift (hi, lo)).2 < 2 ^ 32 := by
  have h := wrap_around_shift_eq hi lo hhi hlo
  have hr : rotl1 (hi * 2 ^ 32 + lo) < 2 ^ 64 := by unfold rotl1; omega
  simp only [Hash.toNat] at h
  refine ⟨h, ?_, ?_, ?_, ?_⟩
  · rw [h]; simp only [Hash.ofNat, Hash.toNat]; omega
  · unfold rotl1; omega
  · rw [h]; simp only [Hash.ofNat]; omega
  · rw [h]; simp only [Hash.ofNat]; omega

/-- Witness of C2 at the value with only the topmost bit set. -/
theorem wrap_around_shift_is_rotl1_witness :
    wrap_around_shift (2 ^ 31, 0) = Hash.ofNat (rotl1 (2 ^ 31 * 2 ^ 32 + 0)) ∧
    (wrap_around_shift (2 ^ 31, 0)).toNat = rotl1 (2 ^ 31 * 2 ^ 32 + 0) ∧
    rotl1 (2 ^ 31 * 2 ^ 32 + 0)
      = ((2 ^ 31 * 2 ^ 32 + 0) * 2) % 2 ^ 64 + (2 ^ 31 * 2 ^ 32 + 0) / 2 ^ 63 ∧
    (wrap_around_shift (2 ^ 31, 0)).1 < 2 ^ 32 ∧ (wrap_around_shift (2 ^ 31, 0)).2 < 2 ^ 32 :=
  wrap_around_shift_is_rotl1 (2 ^ 31) 0 (by decide) (by decide)

/-! ## The ancestry scan -/

theorem char_toNat_inj {c d : Char} (h : c.toNat = d.toNat) : c = d := by
  rw [← Char.ofNat_toNat c, ← Char.ofNat_toNat d, h]

theorem map_toNat_inj : ∀ {l m : List Char}, l.map Char.toNat = m.map Char.toNat → l = m
  | [], [], _ => rfl
  | [], _ :: _, h => by simp at h
  | _ :: _, [], h => by simp at h
  | a :: l, b :: m, h => by
    simp only [List.map_cons, List.cons.injEq] at h
    rw [char_toNat_inj h.1, map_toNat_inj h.2]

theorem string_eq_of_cells {a b : String} (h : a.data.map Char.toNat = b.data.map Char.toNat) :
    a = b := String.ext (map_toNat_inj h)

theorem get_after (pre : List Nat) (x : Nat) (tail : List Nat) :
    (pre ++ x :: tail).get? (pre.length + 1 - 1) = some x := by
  rw [Nat.add_sub_cancel, List.get?_eq_getElem?, List.getElem?_append_right (le_refl _)]
  simp

theorem slice_after (pre : List Nat) (x : Nat) (cs tail : List Nat) :
    ((pre ++ x :: (cs ++ tail)).drop (pre.length + 1)).take cs.length = cs := by
  have : pre ++ x :: (cs ++ tail) = (pre ++ [x]) ++ (cs ++ tail) := by simp
  rw [this, List.drop_append_of_le_length (by simp), List.drop_of_length_le (by simp)]
  simp
theorem record_length (a : String) : (record a).length = a.length + 1 := by
  simp only [record, List.length_cons, List.length_map, String.length_data]

theorem ancestry_cons (a : String) (l : List String) :
    ancestry (a :: l) = record a ++ ancestry l := by
  simp [ancestry]

theorem ancestry_append (l m : List String) :
    ancestry (l ++ m) = ancestry l ++ ancestry m := by
  simp [ancestry]

theorem ancestry_length_ge (l : List String) : l.length ≤ (ancestry l).length := by
  induction l with
  | nil => simp
  | cons a l ih => rw [ancestry_cons, List.length_append, record_length, List.length_cons]; omega

theorem length_pos_of_ne_empty {a : String} (ha : a ≠ "") : 0 < a.length := by
  rcases a with ⟨_ | ⟨c, cs⟩⟩
  · exact absurd rfl ha
  · simp only [String.length_mk, List.length_cons]; omega

/-- The scan examines the records that precede `parents_len`, one per iteration. -/
theorem scan_parents_ancestry (tn : String) (rest : List Nat) :
    ∀ (anc : List String) (pre : List Nat) (fuel : Nat),
      (∀ a ∈ anc, a ≠ "") → anc.length < fuel →
      scan_parents fuel (pre ++ ancestry anc ++ rest) (pre.length + (ancestry anc).length) tn
        (pre.length + 1) = .ok (decide (tn ∉ anc)) := by
  intro anc
  induction anc with
  | nil =>
    intro pre fuel _ hf
    obtain ⟨f, rfl⟩ : ∃ f, fuel = f + 1 := ⟨fuel - 1, by simp at hf; omega⟩
    simp [scan_parents, ancestry]
  | cons a anc ih =>
    intro pre fuel hne hf
    obtain ⟨f, rfl⟩ : ∃ f, fuel = f + 1 := ⟨fuel - 1, by simp at hf; omega⟩
    have hlen : 0 < a.length := length_pos_of_ne_empty (hne a (List.mem_cons_self _ _))
    have hnext := ih (pre ++ record a) f (fun b hb => hne b (List.mem_cons_of_mem _ hb))
      (by simp at hf; omega)
    have hshape : pre ++ ancestry (a :: anc) ++ rest
        = pre ++ a.length :: (a.data.map Char.toNat ++ (ancestry anc ++ rest)) := by
      rw [ancestry_cons]; simp [record]
    have hshape2 : (pre ++ record a) ++ ancestry anc ++ rest
        = pre ++ a.length :: (a.data.map Char.toNat ++ (ancestry anc ++ rest)) := by
      simp [record]
    have hix : (pre ++ record a).length + 1 = pre.length + 1 + a.length + 1 := by
      rw [List.length_append, record_length]; omega
    have hlen2 : (pre ++ record a).length + (ancestry anc).length
        = pre.length + (ancestry (a :: anc)).length := by
      rw [ancestry_cons]; simp only [List.length_append]; omega
    have hcs : (a.data.map Char.toNat).length = a.length := by
      rw [List.length_map, String.length_data]
    rw [hix, hlen2, hshape2] at hnext
    have hlt : pre.length + 1 < pre.length + (ancestry (a :: anc)).length := by
      rw [ancestry_cons, List.length_append, record_length]; omega
    rw [hshape, scan_parents, if_pos hlt, get_after]
    by_cases hl : tn.length = a.length
    · have hin : pre.length + 1 + a.length
          ≤ (pre ++ a.length :: (a.data.map Char.toNat ++ (ancestry anc ++ rest))).length := by
        simp only [List.length_append, List.length_cons, hcs]; omega
      have hslice := slice_after pre a.length (a.data.map Char.toNat) (ancestry anc ++ rest)
      rw [hcs] at hslice
      simp only [hl, if_true, if_pos hin, hslice]
      by_cases he : a.data.map Char.toNat = tn.data.map Char.toNat
      · have : a = tn := string_eq_of_cells he
        subst this
        simp
      · have hne2 : tn ≠ a := fun h => he (by rw [h])
        rw [if_neg he, hnext]
        simp [hne2]
    · have hne2 : tn ≠ a := fun h => hl (by rw [h])
      simp only [hl, if_false]
      rw [hnext]
      simp [hne2]

/-! ## Calls, budget and termination of `computeHash` -/

theorem lookup_some {structs : List lcm_struct} {name : String} {callee : lcm_struct}
    (h : lookup structs name = some callee) :
    callee ∈ structs ∧ callee.structname.shortname = name := by
  unfold lookup at h
  exact ⟨List.mem_of_find?_eq_some h, by simpa using List.find?_some h⟩

theorem lookup_isSome_of_mem {structs : List lcm_struct} {ls : lcm_struct} (h : ls ∈ structs) :
    ∃ callee, lookup structs ls.structname.shortname = some callee := by
  unfold lookup
  cases hf : structs.find? (fun s => s.structname.shortname = ls.structname.shortname) with
  | some c => exact ⟨c, rfl⟩
  | none =>
    rw [List.find?_eq_none] at hf
    exact absurd (by simp) (hf ls h)

theorem hash_member_prim (prim : String → Bool) (structs : List lcm_struct)
    (call : lcm_struct → List Nat → Run Hash) (pl : Nat) (parents : List Nat) (hash : Hash)
    (lm : lcm_member) (hp : prim lm.type.lctypename = true) :
    hash_member prim structs call pl parents hash lm = .ok hash := by
  simp [hash_member, hp]

theorem hash_member_compound (prim : String → Bool) (structs : List lcm_struct)
    (call : lcm_struct → List Nat → Run Hash) (pl : Nat) (parents : List Nat) (hash : Hash)
    (lm : lcm_member) (hp : prim lm.type.lctypename = false) :
    hash_member prim structs call pl parents hash lm
      = (scan_parents (pl + 1) parents pl (dots_to_double_colons lm.type.lctypename) 1).bind
          fun visit =>
            if visit then
              match lookup structs (dots_to_double_colons lm.type.lctypename) with
              | none => .fault
              | some callee => (call callee parents).bind fun h => .ok (add_overflow hash h)
            else .ok hash := by
  simp [hash_member, hp]

theorem computeHash_step (prim : String → Bool) (structs : List lcm_struct) (fuel : Nat)
    (ls : lcm_struct) (parents : List Nat) :
    computeHash prim structs (fuel + 1) ls parents
      = (hash_members prim structs (computeHash prim structs fuel) parents.length
          (parents ++ record ls.structname.shortname) ls.members (hex2int64 ls.hash)).bind
          fun hash => .ok (wrap_around_shift hash) := by
  rw [computeHash]

theorem hash_member_mono (prim : String → Bool) (structs : List lcm_struct)
    (call1 call2 : lcm_struct → List Nat → Run Hash)
    (hc : ∀ c p, call1 c p ≠ .timeout → call2 c p = call1 c p)
    (pl : Nat) (parents : List Nat) (hash : Hash) (lm : lcm_member)
    (h : hash_member prim structs call1 pl parents hash lm ≠ .timeout) :
    hash_member prim structs call2 pl parents hash lm
      = hash_member prim structs call1 pl parents hash lm := by
  cases hp : prim lm.type.lctypename with
  | true => rw [hash_member_prim _ _ _ _ _ _ _ hp, hash_member_prim _ _ _ _ _ _ _ hp]
  | false =>
    rw [hash_member_compound _ _ _ _ _ _ _ hp] at h ⊢
    rw [hash_member_compound _ _ _ _ _ _ _ hp]
    cases hs : scan_parents (pl + 1) parents pl (dots_to_double_colons lm.type.lctypename) 1 with
    | fault => rfl
    | timeout => rfl
    | ok visit =>
      simp only [hs, Run.bind] at h ⊢
      cases visit with
      | false => rfl
      | true =>
        simp only [if_true] at h ⊢
        cases hl : lookup structs (dots_to_double_colons lm.type.lctypename) with
        | none => rfl
        | some callee =>
          simp only [hl] at h ⊢
          have hne : call1 callee parents ≠ .timeout := by
            intro hc1; rw [hc1] at h; exact h rfl
          rw [hc callee parents hne]

theorem hash_members_mono (prim : String → Bool) (structs : List lcm_struct)
    (call1 call2 : lcm_struct → List Nat → Run Hash)
    (hc : ∀ c p, call1 c p ≠ .timeout → call2 c p = call1 c p)
    (pl : Nat) (parents : List Nat) :
    ∀ (ms : List lcm_member) (hash : Hash),
      hash_members prim structs call1 pl parents ms hash ≠ .timeout →
      hash_members prim structs call2 pl parents ms hash
        = hash_members prim structs call1 pl parents ms hash := by
  intro ms
  induction ms with
  | nil => intro hash _; rfl
  | cons lm rest ih =>
    intro hash h
    simp only [hash_members] at h ⊢
    have h1 : hash_member prim structs call1 pl parents hash lm ≠ .timeout := by
      intro e; rw [e] at h; exact h rfl
    rw [hash_member_mono prim structs call1 call2 hc pl parents hash lm h1]
    cases hm : hash_member prim structs call1 pl parents hash lm with
    | fault => rfl
    | timeout => rfl
    | ok hash2 =>
      rw [hm] at h
      exact ih hash2 h

theorem computeHash_succ (prim : String → Bool) (structs : List lcm_struct) :
    ∀ (fuel : Nat) (ls : lcm_struct) (parents : List Nat),
      computeHash prim structs fuel ls parents ≠ .timeout →
      computeHash prim structs (fuel + 1) ls parents = computeHash prim structs fuel ls parents := by
  intro fuel
  induction fuel with
  | zero => intro ls parents h; exact absurd rfl h
  | succ f ih =>
    intro ls parents h
    rw [computeHash_step] at h
    rw [computeHash_step, computeHash_step]
    have h1 : hash_members prim structs (computeHash prim structs f) parents.length
        (parents ++ record ls.structname.shortname) ls.members (hex2int64 ls.hash) ≠ .timeout := by
      intro e; rw [e] at h; exact h rfl
    rw [hash_members_mono prim structs (computeHash prim structs f)
      (computeHash prim structs (f + 1)) (fun c p hne => ih c p hne) _ _ _ _ h1]

theorem computeHash_mono (prim : String → Bool) (structs : List lcm_struct)
    (ls : lcm_struct) (parents : List Nat) (fuel : Nat)
    (h : computeHash prim structs fuel ls parents ≠ .timeout) :
    ∀ (more : Nat), computeHash prim structs (fuel + more) ls parents
      = computeHash prim structs fuel ls parents := by
  intro more
  induction more with
  | zero => rfl
  | succ k ih =>
    rw [← Nat.add_assoc, computeHash_succ prim structs (fuel + k) ls parents (by rw [ih]; exact h), ih]

theorem depth_bound_pos (structs : List lcm_struct) (anc : List String) (sn : String)
    (hsn : sn ∈ shortnames structs) : 1 ≤ depth_bound structs anc sn := by
  unfold depth_bound
  by_cases h : sn ∈ anc
  · simp [h]
  · have : sn ∈ (shortnames structs).toFinset \ anc.toFinset := by
      simp [Finset.mem_sdiff, hsn, h]
    have := Finset.card_pos.mpr ⟨sn, this⟩
    omega

theorem depth_bound_step (structs : List lcm_struct) (anc : List String) (sn tn : String)
    (hsn : sn ∈ shortnames structs) (htn : tn ∉ anc) :
    depth_bound structs (anc ++ [sn]) tn < depth_bound structs anc sn := by
  unfold depth_bound
  by_cases h : sn ∈ anc
  · have hset : (anc ++ [sn]).toFinset = anc.toFinset := by
      ext x; simp only [List.mem_toFinset, List.mem_append, List.mem_singleton]
      constructor
      · rintro (hx | rfl)
        · exact hx
        · exact h
      · exact fun hx => Or.inl hx
    have htn2 : tn ∉ anc ++ [sn] := by
      simp only [List.mem_append, List.mem_singleton, not_or]
      exact ⟨htn, fun e => htn (e ▸ h)⟩
    rw [hset, if_neg htn2, if_pos h]
    omega
  · have hset : (shortnames structs).toFinset \ (anc ++ [sn]).toFinset
        = ((shortnames structs).toFinset \ anc.toFinset).erase sn := by
      ext x
      simp only [Finset.mem_sdiff, List.mem_toFinset, List.mem_append, List.mem_singleton,
        Finset.mem_erase, not_or]
      tauto
    have hmem : sn ∈ (shortnames structs).toFinset \ anc.toFinset := by
      simp [Finset.mem_sdiff, hsn, h]
    have hpos := Finset.card_pos.mpr ⟨sn, hmem⟩
    rw [hset, Finset.card_erase_of_mem hmem, if_neg h]
    split <;> omega

theorem depth_bound_nil_le (structs : List lcm_struct) (sn : String) :
    depth_bound structs [] sn ≤ 2 * structs.length := by
  unfold depth_bound
  have h1 : ((shortnames structs).toFinset \ ([] : List String).toFinset).card
      ≤ (shortnames structs).toFinset.card := Finset.card_le_card Finset.sdiff_subset
  have h2 : (shortnames structs).toFinset.card ≤ (shortnames structs).length :=
    List.toFinset_card_le _
  have h3 : (shortnames structs).length = structs.length := by simp [shortnames]
  simp only [List.not_mem_nil, if_false]
  omega

theorem ancestry_snoc (anc : List String) (sn : String) :
    ancestry anc ++ record sn = ancestry (anc ++ [sn]) := by
  rw [ancestry_append]; simp [ancestry]

/-- The scan as `computeHash` runs it: over the records received on entry. -/
theorem scan_parents_entry (anc : List String) (sn tn : String) (hne : ∀ a ∈ anc, a ≠ "") :
    scan_parents ((ancestry anc).length + 1) (ancestry anc ++ record sn) (ancestry anc).length
      tn 1 = .ok (decide (tn ∉ anc)) := by
  have h := scan_parents_ancestry tn (record sn) anc [] ((ancestry anc).length + 1) hne
    (by have := ancestry_length_ge anc; omega)
  simpa using h

theorem hash_members_ne_timeout (prim : String → Bool) (structs : List lcm_struct)
    (call : lcm_struct → List Nat → Run Hash) (anc : List String) (sn : String)
    (hne : ∀ a ∈ anc, a ≠ "")
    (hcall : ∀ tn callee, tn ∉ anc → lookup structs tn = some callee →
      call callee (ancestry anc ++ record sn) ≠ .timeout) :
    ∀ (ms : List lcm_member) (hash : Hash),
      hash_members prim structs call (ancestry anc).length (ancestry anc ++ record sn) ms hash
        ≠ .timeout := by
  intro ms
  induction ms with
  | nil => intro hash h; simp [hash_members] at h
  | cons lm rest ih =>
    intro hash
    rw [hash_members]
    cases hp : prim lm.type.lctypename with
    | true =>
      rw [hash_member_prim _ _ _ _ _ _ _ hp]
      exact ih hash
    | false =>
      rw [hash_member_compound _ _ _ _ _ _ _ hp, scan_parents_entry anc sn _ hne]
      by_cases hin : dots_to_double_colons lm.type.lctypename ∈ anc
      · simp only [hin, not_true_eq_false, decide_False, Run.ok_bind]
        exact ih hash
      · simp only [hin, not_false_eq_true, decide_True, Run.ok_bind, if_true]
        cases hl : lookup structs (dots_to_double_colons lm.type.lctypename) with
        | none => simp
        | some callee =>
          have := hcall _ callee hin hl
          cases hc : call callee (ancestry anc ++ record sn) with
          | timeout => exact absurd hc this
          | fault => simp [hc]
          | ok h => simp only [hc, Run.ok_bind]; exact ih _

theorem computeHash_ne_timeout (prim : String → Bool) (structs : List lcm_struct)
    (hnames : ∀ s ∈ structs, s.structname.shortname ≠ "") :
    ∀ (fuel : Nat) (anc : List String) (ls : lcm_struct),
      (∀ a ∈ anc, a ≠ "") → ls ∈ structs →
      depth_bound structs anc ls.structname.shortname ≤ fuel →
      computeHash prim structs fuel ls (ancestry anc) ≠ .timeout := by
  intro fuel
  induction fuel with
  | zero =>
    intro anc ls _ hls hb
    have := depth_bound_pos structs anc ls.structname.shortname
      (by simp only [shortnames, List.mem_map]; exact ⟨ls, hls, rfl⟩)
    omega
  | succ f ih =>
    intro anc ls hne hls hb
    have hsn : ls.structname.shortname ∈ shortnames structs := by
      simp only [shortnames, List.mem_map]; exact ⟨ls, hls, rfl⟩
    rw [computeHash_step]
    have hm := hash_members_ne_timeout prim structs (computeHash prim structs f) anc
      ls.structname.shortname hne
      (by
        intro tn callee htn hl
        rw [ancestry_snoc]
        apply ih
        · intro a ha
          rcases List.mem_append.mp ha with h | h
          · exact hne a h
          · rw [List.mem_singleton.mp h]; exact hnames ls hls
        · exact (lookup_some hl).1
        · rw [(lookup_some hl).2]
          have := depth_bound_step structs anc ls.structname.shortname tn hsn htn
          omega)
      ls.members (hex2int64 ls.hash)
    cases hr : hash_members prim structs (computeHash prim structs f) (ancestry anc).length
        (ancestry anc ++ record ls.structname.shortname) ls.members (hex2int64 ls.hash) with
    | timeout => exact absurd hr hm
    | fault => simp
    | ok h => simp

/-! ## The value of `computeHash` -/

theorem Hash.ofNat_mod (n : Nat) : Hash.ofNat (n % 2 ^ 64) = Hash.ofNat n := by
  simp only [Hash.ofNat]
  refine Prod.ext ?_ ?_ <;> simp only <;> omega

theorem Hash.toNat_ofNat (n : Nat) : (Hash.ofNat n).toNat = n % 2 ^ 64 := by
  simp only [Hash.ofNat, Hash.toNat]; omega

theorem foldl_add_overflow (hs : List Hash) :
    ∀ (n : Nat), hs.foldl add_overflow (Hash.ofNat n)
      = Hash.ofNat ((n + (hs.map Hash.toNat).sum) % 2 ^ 64) := by
  induction hs with
  | nil => intro n; simpa using (Hash.ofNat_mod n).symm
  | cons h hs ih =>
    intro n
    simp only [List.foldl_cons, List.map_cons, List.sum_cons, add_overflow, Hash.toNat_ofNat]
    rw [ih]
    congr 1
    omega

theorem wrap_around_shift_ofNat (n : Nat) :
    wrap_around_shift (Hash.ofNat n) = Hash.ofNat (rotl1 (n % 2 ^ 64)) := by
  have h := wrap_around_shift_eq ((n / 2 ^ 32) % 2 ^ 32) (n % 2 ^ 32)
    (Nat.mod_lt _ (by decide)) (Nat.mod_lt _ (by decide))
  have e : Hash.toNat ((n / 2 ^ 32) % 2 ^ 32, n % 2 ^ 32) = n % 2 ^ 64 := by
    simp only [Hash.toNat]; omega
  rw [e] at h
  exact h

/-- The member blocks of a struct none of whose compound members is skipped and
each of whose calls returns: the hashes of the compound members are added in
declaration order. -/
theorem hash_members_sum (prim : String → Bool) (structs : List lcm_struct)
    (call : lcm_struct → List Nat → Run Hash) (anc : List String) (sn : String)
    (hne : ∀ a ∈ anc, a ≠ "") (Q : lcm_member → Hash → Prop) :
    ∀ (ms : List lcm_member) (hash : Hash),
      (∀ lm ∈ ms, prim lm.type.lctypename = false →
        dots_to_double_colons lm.type.lctypename ∉ anc ∧
        ∃ callee h, lookup structs (dots_to_double_colons lm.type.lctypename) = some callee ∧
          call callee (ancestry anc ++ record sn) = .ok h ∧ Q lm h) →
      ∃ hs : List Hash,
        List.Forall₂ Q (ms.filter (fun lm => !prim lm.type.lctypename)) hs ∧
        hash_members prim structs call (ancestry anc).length (ancestry anc ++ record sn) ms hash
          = .ok (hs.foldl add_overflow hash) := by
  intro ms
  induction ms with
  | nil => intro hash _; exact ⟨[], by simp, rfl⟩
  | cons lm rest ih =>
    intro hash hall
    have hrest := fun h => ih h (fun m hm => hall m (List.mem_cons_of_mem _ hm))
    rw [hash_members]
    cases hp : prim lm.type.lctypename with
    | true =>
      obtain ⟨hs, h1, h2⟩ := hrest hash
      refine ⟨hs, ?_, ?_⟩
      · simpa [List.filter_cons, hp] using h1
      · rw [hash_member_prim _ _ _ _ _ _ _ hp, Run.ok_bind, h2]
    | false =>
      obtain ⟨hin, callee, h, hl, hc, hq⟩ := hall lm (List.mem_cons_self _ _) hp
      obtain ⟨hs, h1, h2⟩ := hrest (add_overflow hash h)
      refine ⟨h :: hs, ?_, ?_⟩
      · simpa [List.filter_cons, hp] using ⟨hq, h1⟩
      · rw [hash_member_compound _ _ _ _ _ _ _ hp, scan_parents_entry anc sn _ hne]
        simp only [hin, not_false_eq_true, decide_True, Run.ok_bind, if_true, hl, hc]
        rw [h2]; rfl

theorem forall2_unique {α β : Type} {Q : α → β → Prop}
    (hQ : ∀ a b c, Q a b → Q a c → b = c) :
    ∀ {l : List α} {m n : List β}, List.Forall₂ Q l m → List.Forall₂ Q l n → m = n
  | [], _, _, h1, h2 => by cases h1; cases h2; rfl
  | a :: l, _, _, h1, h2 => by
    cases h1 with
    | cons hb hm =>
      cases h2 with
      | cons hc hn => rw [hQ a _ _ hb hc, forall2_unique hQ hm hn]

/-- In a schema whose calls all resolve and whose dependency graph is acyclic
(`rank` decreases along every member edge), `computeHash` of a struct returns
the same hash for every ancestry of higher rank and every sufficient budget. -/
theorem computeHash_acyclic_stable (prim : String → Bool) (structs : List lcm_struct)
    (rank : String → Nat)
    (hnames : ∀ s ∈ structs, s.structname.shortname ≠ "")
    (hclosed : ∀ s ∈ structs, ∀ lm ∈ s.members, prim lm.type.lctypename = false →
      (lookup structs (dots_to_double_colons lm.type.lctypename)).isSome = true)
    (hacyclic : ∀ s ∈ structs, ∀ lm ∈ s.members, prim lm.type.lctypename = false →
      rank (dots_to_double_colons lm.type.lctypename) < rank s.structname.shortname) :
    ∀ (r : Nat) (ls : lcm_struct), ls ∈ structs → rank ls.structname.shortname < r →
      ∃ hs : List Hash,
        List.Forall₂ (fun lm h =>
          ∃ callee, lookup structs (dots_to_double_colons lm.type.lctypename) = some callee ∧
            ∀ (fuel : Nat) (anc : List String), rank callee.structname.shortname < fuel →
              (∀ a ∈ anc, a ≠ "" ∧ rank callee.structname.shortname < rank a) →
              computeHash prim structs fuel callee (ancestry anc) = .ok h)
          (ls.members.filter (fun lm => !prim lm.type.lctypename)) hs ∧
        ∀ (fuel : Nat) (anc : List String), rank ls.structname.shortname < fuel →
          (∀ a ∈ anc, a ≠ "" ∧ rank ls.structname.shortname < rank a) →
          computeHash prim structs fuel ls (ancestry anc)
            = .ok (wrap_around_shift (hs.foldl add_overflow (hex2int64 ls.hash))) := by
  intro r
  induction r with
  | zero => intro ls _ hr; omega
  | succ r ih =>
    intro ls hls hr
    -- the hash each compound member contributes
    have hcallee : ∀ lm ∈ ls.members, prim lm.type.lctypename = false →
        ∃ callee h, lookup structs (dots_to_double_colons lm.type.lctypename) = some callee ∧
          ∀ (fuel : Nat) (anc : List String), rank callee.structname.shortname < fuel →
            (∀ a ∈ anc, a ≠ "" ∧ rank callee.structname.shortname < rank a) →
            computeHash prim structs fuel callee (ancestry anc) = .ok h := by
      intro lm hlm hp
      obtain ⟨callee, hl⟩ := Option.isSome_iff_exists.mp (hclosed ls hls lm hlm hp)
      have hlt := hacyclic ls hls lm hlm hp
      rw [← (lookup_some hl).2] at hlt
      obtain ⟨hs, _, hh⟩ := ih callee (lookup_some hl).1 (by omega)
      exact ⟨callee, _, hl, hh⟩
    -- one budget and one ancestry fix the value
    have hone : ∀ (fuel : Nat) (anc : List String), rank ls.structname.shortname < fuel →
        (∀ a ∈ anc, a ≠ "" ∧ rank ls.structname.shortname < rank a) →
        ∃ hs : List Hash,
          List.Forall₂ (fun lm h =>
            ∃ callee, lookup structs (dots_to_double_colons lm.type.lctypename) = some callee ∧
              ∀ (fuel : Nat) (anc : List String), rank callee.structname.shortname < fuel →
                (∀ a ∈ anc, a ≠ "" ∧ rank callee.structname.shortname < rank a) →
                computeHash prim structs fuel callee (ancestry anc) = .ok h)
            (ls.members.filter (fun lm => !prim lm.type.lctypename)) hs ∧
          computeHash prim structs fuel ls (ancestry anc)
            = .ok (wrap_around_shift (hs.foldl add_overflow (hex2int64 ls.hash))) := by
      intro fuel anc hf hanc
      obtain ⟨f, rfl⟩ : ∃ f, fuel = f + 1 := ⟨fuel - 1, by omega⟩
      obtain ⟨hs, h1, h2⟩ := hash_members_sum prim structs (computeHash prim structs f) anc
        ls.structname.shortname (fun a ha => (hanc a ha).1)
        (fun lm h =>
            ∃ callee, lookup structs (dots_to_double_colons lm.type.lctypename) = some callee ∧
              ∀ (fuel : Nat) (anc : List String), rank callee.structname.shortname < fuel →
                (∀ a ∈ anc, a ≠ "" ∧ rank callee.structname.shortname < rank a) →
                computeHash prim structs fuel callee (ancestry anc) = .ok h)
        ls.members (hex2int64 ls.hash)
        (by
          intro lm hlm hp
          obtain ⟨callee, h, hl, hh⟩ := hcallee lm hlm hp
          have hlt := hacyclic ls hls lm hlm hp
          have hsn := (lookup_some hl).2
          refine ⟨?_, callee, h, hl, ?_, callee, hl, hh⟩
          · intro hin
            have := (hanc _ hin).2
            omega
          · rw [ancestry_snoc]
            apply hh
            · rw [hsn]; omega
            · intro a ha
              rw [hsn]
              rcases List.mem_append.mp ha with h | h
              · exact ⟨(hanc a h).1, by have := (hanc a h).2; omega⟩
              · rw [List.mem_singleton.mp h]; exact ⟨hnames ls hls, hlt⟩)
      exact ⟨hs, h1, by rw [computeHash_step, h2]; rfl⟩
    obtain ⟨hs, h1, _⟩ := hone (rank ls.structname.shortname + 1) [] (by omega) (by simp)
    refine ⟨hs, h1, ?_⟩
    intro fuel anc hf hanc
    obtain ⟨hs2, h3, h4⟩ := hone fuel anc hf hanc
    have : hs2 = hs := by
      refine forall2_unique ?_ h3 h1
      rintro lm b c ⟨c1, hl1, hb⟩ ⟨c2, hl2, hc⟩
      rw [hl1] at hl2
      cases hl2
      have e1 := hb (rank c1.structname.shortname + 1) [] (by omega) (by simp)
      have e2 := hc (rank c1.structname.shortname + 1) [] (by omega) (by simp)
      rw [e1] at e2
      cases e2
      rfl
    rw [h4, this]

theorem get_hash_of_stable (prim : String → Bool) (structs : List lcm_struct)
    (rank : String → Nat) (hnames : ∀ s ∈ structs, s.structname.shortname ≠ "")
    (ls : lcm_struct) (hls : ls ∈ structs) (h : Hash)
    (hst : ∀ (fuel : Nat) (anc : List String), rank ls.structname.shortname < fuel →
      (∀ a ∈ anc, a ≠ "" ∧ rank ls.structname.shortname < rank a) →
      computeHash prim structs fuel ls (ancestry anc) = .ok h) :
    get_hash prim structs ls = .ok h := by
  unfold get_hash
  have hnt : computeHash prim structs (2 * structs.length) ls (ancestry []) ≠ .timeout :=
    computeHash_ne_timeout prim structs hnames _ [] ls (by simp) hls
      (depth_bound_nil_le structs _)
  have hbig := computeHash_mono prim structs ls (ancestry []) (2 * structs.length) hnt
    (rank ls.structname.shortname + 1)
  rw [hst _ [] (by omega) (by simp)] at hbig
  exact hbig.symm

/-- The fingerprint in an acyclic schema whose calls resolve: if `rank` decreases
along every edge from a struct to the type of a compound member and every
compound member type names a struct of the schema, the top-level fingerprint of
a struct `T` is `rotl1 ((seed(T) + sum of the fingerprints of the compound member
types, in declaration order) mod 2^64)`, the rotation applied once; a struct
with only primitive members has fingerprint `rotl1 (seed(T))`. -/
theorem get_hash_acyclic (prim : String → Bool) (structs : List lcm_struct)
    (rank : String → Nat)
    (hnames : ∀ s ∈ structs, s.structname.shortname ≠ "")
    (hclosed : ∀ s ∈ structs, ∀ lm ∈ s.members, prim lm.type.lctypename = false →
      (lookup structs (dots_to_double_colons lm.type.lctypename)).isSome = true)
    (hacyclic : ∀ s ∈ structs, ∀ lm ∈ s.members, prim lm.type.lctypename = false →
      rank (dots_to_double_colons lm.type.lctypename) < rank s.structname.shortname)
    (ls : lcm_struct) (hls : ls ∈ structs) :
    (∃ hs : List Hash,
      List.Forall₂ (fun lm h =>
        ∃ callee, lookup structs (dots_to_double_colons lm.type.lctypename) = some callee ∧
          get_hash prim structs callee = .ok h)
        (ls.members.filter (fun lm => !prim lm.type.lctypename)) hs ∧
      get_hash prim structs ls
        = .ok (Hash.ofNat (rotl1 ((ls.hash + (hs.map Hash.toNat).sum) % 2 ^ 64)))) ∧
    ((∀ lm ∈ ls.members, prim lm.type.lctypename = true) →
      get_hash prim structs ls = .ok (Hash.ofNat (rotl1 (ls.hash % 2 ^ 64)))) := by
  obtain ⟨hs, h1, h2⟩ := computeHash_acyclic_stable prim structs rank hnames hclosed hacyclic
    (rank ls.structname.shortname + 1) ls hls (by omega)
  have hval : get_hash prim structs ls
      = .ok (Hash.ofNat (rotl1 ((ls.hash + (hs.map Hash.toNat).sum) % 2 ^ 64))) := by
    rw [get_hash_of_stable prim structs rank hnames ls hls _ h2, hex2int64, foldl_add_overflow,
      wrap_around_shift_ofNat, Nat.mod_mod]
  refine ⟨⟨hs, ?_, hval⟩, ?_⟩
  · refine List.Forall₂.imp ?_ h1
    rintro lm h ⟨callee, hl, hst⟩
    exact ⟨callee, hl, get_hash_of_stable prim structs rank hnames callee (lookup_some hl).1 h hst⟩
  · intro hall
    have hnil : ls.members.filter (fun lm => !prim lm.type.lctypename) = [] := by
      rw [List.filter_eq_nil_iff]
      intro lm hlm
      simp [hall lm hlm]
    rw [hnil] at h1
    cases h1
    simpa using hval

/-- The fingerprints of `Outer { Inner a; int32_t n; Inner b; }` over
`Inner { int32_t x; }`. -/
theorem get_hash_acyclic_example :
    get_hash lcm_is_primitive_type [ex_Inner, ex_Outer] ex_Inner = .ok (0, 3) ∧
    get_hash lcm_is_primitive_type [ex_Inner, ex_Outer] ex_Outer = .ok (0, 22) ∧
    ((∃ hs : List Hash,
      List.Forall₂ (fun lm h =>
        ∃ callee, lookup [ex_Inner, ex_Outer] (dots_to_double_colons lm.type.lctypename)
            = some callee ∧
          get_hash lcm_is_primitive_type [ex_Inner, ex_Outer] callee = .ok h)
        (ex_Outer.members.filter (fun lm => !lcm_is_primitive_type lm.type.lctypename)) hs ∧
      get_hash lcm_is_primitive_type [ex_Inner, ex_Outer] ex_Outer
        = .ok (Hash.ofNat (rotl1 ((ex_Outer.hash + (hs.map Hash.toNat).sum) % 2 ^ 64)))) ∧
    ((∀ lm ∈ ex_Outer.members, lcm_is_primitive_type lm.type.lctypename = true) →
      get_hash lcm_is_primitive_type [ex_Inner, ex_Outer] ex_Outer
        = .ok (Hash.ofNat (rotl1 (ex_Outer.hash % 2 ^ 64))))) :=
  ⟨by decide, by decide,
    get_hash_acyclic lcm_is_primitive_type [ex_Inner, ex_Outer] ex_rank
      (by decide) (by decide) (by decide) ex_Outer (by decide)⟩

/-- C1 (the code at the failing input): in package `pkg` with `Sub { int32_t v; }` and
`Top { Sub s; Sub r[2]; }`, an acyclic schema, the fingerprint of `Sub` is `rotl1 (seed)`, but
the generated `Top_computeHash` calls `pkg::Sub_computeHash` for its two compound members,
while the procedure of `Sub` is defined as `Sub_computeHash`: the top-level fingerprint of
`Top` is a MATLAB error, not `rotl1 ((seed(Top) + 2 * computeHash(Sub)) mod 2^64)`.  The same
schema outside a package (`Outer` over `Inner`) gives that value, and so does every acyclic
schema whose compound member types name a generated procedure. -/
theorem get_hash_qualified_member_faults :
    get_hash lcm_is_primitive_type [ex_pkg_Sub, ex_pkg_Top] ex_pkg_Sub
      = .ok (Hash.ofNat (rotl1 ex_pkg_Sub.hash)) ∧
    callees (emit_compute_hash lcm_is_primitive_type ex_pkg_Top)
      = ["pkg::Sub_computeHash", "pkg::Sub_computeHash"] ∧
    (emit_compute_hash lcm_is_primitive_type ex_pkg_Sub).head?.map Line.render
      = some "function hash = Sub_computeHash(parents)" ∧
    lookup [ex_pkg_Sub, ex_pkg_Top] "pkg::Sub" = none ∧
    get_hash lcm_is_primitive_type [ex_pkg_Sub, ex_pkg_Top] ex_pkg_Top = .fault ∧
    get_hash lcm_is_primitive_type [ex_pkg_Sub, ex_pkg_Top] ex_pkg_Top
      ≠ .ok (Hash.ofNat (rotl1 ((ex_pkg_Top.hash + 2 * rotl1 ex_pkg_Sub.hash) % 2 ^ 64))) ∧
    get_hash lcm_is_primitive_type [ex_Inner, ex_Outer] ex_Outer
      = .ok (Hash.ofNat (rotl1 ((ex_Outer.hash + 2 * rotl1 ex_Inner.hash) % 2 ^ 64))) ∧
    (∀ (prim : String → Bool) (structs : List lcm_struct) (rank : String → Nat),
      (∀ s ∈ structs, s.structname.shortname ≠ "") →
      (∀ s ∈ structs, ∀ lm ∈ s.members, prim lm.type.lctypename = false →
        (lookup structs (dots_to_double_colons lm.type.lctypename)).isSome = true) →
      (∀ s ∈ structs, ∀ lm ∈ s.members, prim lm.type.lctypename = false →
        rank (dots_to_double_colons lm.type.lctypename) < rank s.structname.shortname) →
      ∀ ls ∈ structs,
        (∃ hs : List Hash,
          List.Forall₂ (fun lm h =>
            ∃ callee, lookup structs (dots_to_double_colons lm.type.lctypename) = some callee ∧
              get_hash prim structs callee = .ok h)
            (ls.members.filter (fun lm => !prim lm.type.lctypename)) hs ∧
          get_hash prim structs ls
            = .ok (Hash.ofNat (rotl1 ((ls.hash + (hs.map Hash.toNat).sum) % 2 ^ 64)))) ∧
        ((∀ lm ∈ ls.members, prim lm.type.lctypename = true) →
          get_hash prim structs ls = .ok (Hash.ofNat (rotl1 (ls.hash % 2 ^ 64))))) := by
  refine ⟨by decide, by decide, by decide, by decide, by decide, by decide, by decide, ?_⟩
  intro prim structs rank hnames hclosed hacyclic ls hls
  exact get_hash_acyclic prim structs rank hnames hclosed hacyclic ls hls

/-- C3 (as stated, refuted): in the schema `A { A a; B b; }`, `B { A a; B b; }`
the generated `computeHash` of `A`, called with the empty ancestry, nests its
activations four deep (`A`, `A`, `B`, `B`): a budget of one more than the number
of structs is exceeded, so the depth is not bounded by the number of structs. -/
theorem computeHash_depth_exceeds_struct_count :
    [ex_A, ex_B].length = 2 ∧
    computeHash lcm_is_primitive_type [ex_A, ex_B] 2 ex_A [] = .timeout ∧
    computeHash lcm_is_primitive_type [ex_A, ex_B] 3 ex_A [] = .timeout ∧
    computeHash lcm_is_primitive_type [ex_A, ex_B] 4 ex_A [] = .ok (0, 78) := by
  decide

/-- C3 (amended): for every finite schema, cyclic or not, and every struct of it,
the generated `computeHash` called with the empty ancestry terminates: its nested
activations never exceed twice the number of structs, and every budget of at
least that many activations yields the same outcome, the top-level fingerprint
(a hash, or the MATLAB error of a call that names no generated procedure). -/
theorem computeHash_terminates (prim : String → Bool) (structs : List lcm_struct)
    (hnames : ∀ s ∈ structs, s.structname.shortname ≠ "")
    (ls : lcm_struct) (hls : ls ∈ structs) (fuel : Nat) (hfuel : 2 * structs.length ≤ fuel) :
    computeHash prim structs fuel ls [] ≠ .timeout ∧
    computeHash prim structs fuel ls [] = get_hash prim structs ls := by
  have hnt : computeHash prim structs (2 * structs.length) ls (ancestry []) ≠ .timeout :=
    computeHash_ne_timeout prim structs hnames _ [] ls (by simp) hls
      (depth_bound_nil_le structs _)
  have hm := computeHash_mono prim structs ls (ancestry []) (2 * structs.length) hnt
    (fuel - 2 * structs.length)
  have he : 2 * structs.length + (fuel - 2 * structs.length) = fuel := by omega
  rw [he] at hm
  have hnil : ancestry [] = [] := rfl
  rw [hnil] at hm hnt
  exact ⟨by rw [hm]; exact hnt, hm⟩

/-- Witness of C3 (amended): the mutually and self referential schema of `A` and
`B`, and the struct `T` with a member of its own type. -/
theorem computeHash_terminates_witness :
    (computeHash lcm_is_primitive_type [ex_A, ex_B] 7 ex_B [] ≠ .timeout ∧
      computeHash lcm_is_primitive_type [ex_A, ex_B] 7 ex_B []
        = get_hash lcm_is_primitive_type [ex_A, ex_B] ex_B) ∧
    (computeHash lcm_is_primitive_type [ex_T] 2 ex_T [] ≠ .timeout ∧
      computeHash lcm_is_primitive_type [ex_T] 2 ex_T []
        = get_hash lcm_is_primitive_type [ex_T] ex_T) :=
  ⟨computeHash_terminates lcm_is_primitive_type [ex_A, ex_B] (by decide) ex_B (by decide) 7
      (by decide),
    computeHash_terminates lcm_is_primitive_type [ex_T] (by decide) ex_T (by decide) 2
      (by decide)⟩

/-! ## Which members are skipped -/

theorem rotl1_lt (h : Nat) : rotl1 h < 2 ^ 64 := by
  unfold rotl1; omega

/-- The block of a compound member, run on the ancestry `computeHash` builds:
the member is skipped exactly when its type is among the records received on
entry. -/
theorem hash_member_entry (prim : String → Bool) (structs : List lcm_struct)
    (call : lcm_struct → List Nat → Run Hash) (anc : List String) (sn : String) (hash : Hash)
    (lm : lcm_member) (hne : ∀ a ∈ anc, a ≠ "") (hp : prim lm.type.lctypename = false) :
    hash_member prim structs call (ancestry anc).length (ancestry anc ++ record sn) hash lm
      = if dots_to_double_colons lm.type.lctypename ∈ anc then .ok hash
        else match lookup structs (dots_to_double_colons lm.type.lctypename) with
          | none => .fault
          | some callee =>
            (call callee (ancestry anc ++ record sn)).bind fun h => .ok (add_overflow hash h) := by
  rw [hash_member_compound _ _ _ _ _ _ _ hp, scan_parents_entry anc sn _ hne]
  by_cases hin : dots_to_double_colons lm.type.lctypename ∈ anc
  · simp [hin]
  · simp [hin]

theorem hash_members_skip (prim : String → Bool) (structs : List lcm_struct)
    (call : lcm_struct → List Nat → Run Hash) (anc : List String) (sn : String)
    (hne : ∀ a ∈ anc, a ≠ "") :
    ∀ (ms : List lcm_member) (hash : Hash),
      (∀ lm ∈ ms, prim lm.type.lctypename = false →
        dots_to_double_colons lm.type.lctypename ∈ anc) →
      hash_members prim structs call (ancestry anc).length (ancestry anc ++ record sn) ms hash
        = .ok hash := by
  intro ms
  induction ms with
  | nil => intro hash _; rfl
  | cons lm rest ih =>
    intro hash hall
    rw [hash_members]
    cases hp : prim lm.type.lctypename with
    | true =>
      rw [hash_member_prim _ _ _ _ _ _ _ hp, Run.ok_bind]
      exact ih hash (fun m hm => hall m (List.mem_cons_of_mem _ hm))
    | false =>
      rw [hash_member_entry prim structs call anc sn hash lm hne hp,
        if_pos (hall lm (List.mem_cons_self _ _) hp), Run.ok_bind]
      exact ih hash (fun m hm => hall m (List.mem_cons_of_mem _ hm))

theorem sum_of_forall2_const {α : Type} (h0 : Hash) :
    ∀ {l : List α} {hs : List Hash}, List.Forall₂ (fun _ h => h = h0) l hs →
      (hs.map Hash.toNat).sum = l.length * h0.toNat
  | [], _, h => by cases h; simp
  | a :: l, _, h => by
    cases h with
    | cons hb hm =>
      rw [hb, List.map_cons, List.sum_cons, sum_of_forall2_const h0 hm, List.length_cons]
      ring

/-- The fingerprint of a struct whose compound members are all of its own
type: each of them is visited once, in the top-level call, and skipped in the
nested one. -/
theorem get_hash_self (prim : String → Bool) (structs : List lcm_struct) (ls : lcm_struct)
    (hsn : ls.structname.shortname ≠ "")
    (hlook : lookup structs ls.structname.shortname = some ls)
    (hself : ∀ m ∈ ls.members, prim m.type.lctypename = false →
      dots_to_double_colons m.type.lctypename = ls.structname.shortname) :
    get_hash prim structs ls = .ok (Hash.ofNat (rotl1 ((ls.hash
      + (ls.members.filter (fun m => !prim m.type.lctypename)).length
        * rotl1 (ls.hash % 2 ^ 64)) % 2 ^ 64))) := by
  have hmem := (lookup_some hlook).1
  have hlen : 0 < structs.length := List.length_pos_of_mem hmem
  obtain ⟨f, hf⟩ : ∃ f, 2 * structs.length = f + 1 + 1 := ⟨2 * structs.length - 2, by omega⟩
  -- the nested activation skips every compound member
  have hinner : computeHash prim structs (f + 1) ls (ancestry [] ++ record ls.structname.shortname)
      = .ok (Hash.ofNat (rotl1 (ls.hash % 2 ^ 64))) := by
    have e : ancestry [] ++ record ls.structname.shortname = ancestry [ls.structname.shortname] := by
      simp [ancestry]
    rw [e, computeHash_step, hash_members_skip prim structs _ [ls.structname.shortname] _
      (by simpa using hsn) ls.members _ (by
        intro m hm hp
        simp [hself m hm hp]),
      Run.ok_bind, hex2int64, wrap_around_shift_ofNat]
  obtain ⟨hs, h1, h2⟩ := hash_members_sum prim structs (computeHash prim structs (f + 1)) []
    ls.structname.shortname (by simp) (fun _ h => h = Hash.ofNat (rotl1 (ls.hash % 2 ^ 64)))
    ls.members (hex2int64 ls.hash) (by
      intro m hm hp
      refine ⟨by simp, ls, _, ?_, hinner, rfl⟩
      rw [hself m hm hp]; exact hlook)
  unfold get_hash
  rw [hf]
  have hnil : ([] : List Nat) = ancestry [] := rfl
  have hstep := computeHash_step prim structs (f + 1) ls (ancestry [])
  rw [h2, Run.ok_bind, hex2int64, foldl_add_overflow, wrap_around_shift_ofNat, Nat.mod_mod,
    sum_of_forall2_const _ h1, Hash.toNat_ofNat, Nat.mod_eq_of_lt (rotl1_lt _)] at hstep
  rw [hnil, hstep]

/-- C4 (as stated, refuted): in `T { T t; }` the member of type `T` is not
skipped in the top-level call, where `T`'s own record has been appended to the
ancestry: the scan stops at the length the ancestry had on entry.  The
fingerprint is `rotl1 (seed + rotl1 seed)`, not `rotl1 seed`. -/
theorem self_member_visited_at_top_level :
    scan_parents 1 ([] ++ record "T") 0 "T" 1 = .ok true ∧
    get_hash lcm_is_primitive_type [ex_T] ex_T = .ok (Hash.ofNat (rotl1 (1 + rotl1 1))) ∧
    get_hash lcm_is_primitive_type [ex_T] ex_T ≠ .ok (Hash.ofNat (rotl1 ex_T.hash)) := by
  decide

/-- C4 (amended): in the generated `computeHash` of a struct `T` (short name `sn`), a
compound member is skipped exactly when the (length, name) pair its block compares occurs in
the ancestry `T` received on entry, the list before `T`'s own pair is appended; otherwise the
`computeHash` its type names is called with the extended ancestry.  Hence a member whose
compared name is `T`'s own short name (a member of type `T`, `T` declared outside any
package) is visited in the top-level call and skipped one level down, and a struct found
under its short name whose compound members all are of that kind, `k` of them, has
fingerprint `rotl1 ((seed + k * rotl1 seed) mod 2^64)`. -/
theorem skipped_iff_in_entry_ancestry (prim : String → Bool) (structs : List lcm_struct)
    (call : lcm_struct → List Nat → Run Hash) (anc : List String) (sn : String) (hash : Hash)
    (lm : lcm_member)
    (hne : ∀ a ∈ anc, a ≠ "") (hp : prim lm.type.lctypename = false) :
    hash_member prim structs call (ancestry anc).length (ancestry anc ++ record sn) hash lm
      = (if dots_to_double_colons lm.type.lctypename ∈ anc then .ok hash
        else match lookup structs (dots_to_double_colons lm.type.lctypename) with
          | none => .fault
          | some callee =>
            (call callee (ancestry anc ++ record sn)).bind
              fun h => .ok (add_overflow hash h)) ∧
    (dots_to_double_colons lm.type.lctypename = sn →
      hash_member prim structs call (ancestry []).length (ancestry [] ++ record sn) hash lm
        = match lookup structs sn with
          | none => .fault
          | some callee =>
            (call callee (ancestry [] ++ record sn)).bind fun h => .ok (add_overflow hash h)) ∧
    (dots_to_double_colons lm.type.lctypename = sn → sn ≠ "" →
      hash_member prim structs call (ancestry [sn]).length (ancestry [sn] ++ record sn) hash lm
        = .ok hash) ∧
    (∀ ls : lcm_struct, ls.structname.shortname ≠ "" →
      lookup structs ls.structname.shortname = some ls →
      (∀ m ∈ ls.members, prim m.type.lctypename = false →
        dots_to_double_colons m.type.lctypename = ls.structname.shortname) →
      get_hash prim structs ls = .ok (Hash.ofNat (rotl1 ((ls.hash
        + (ls.members.filter (fun m => !prim m.type.lctypename)).length
          * rotl1 (ls.hash % 2 ^ 64)) % 2 ^ 64)))) := by
  refine ⟨hash_member_entry prim structs call anc sn hash lm hne hp, ?_, ?_, ?_⟩
  · intro hself
    rw [hash_member_entry prim structs call [] sn hash lm (by simp) hp, hself]
    cases lookup structs sn <;> simp
  · intro hself hsn
    rw [hash_member_entry prim structs call [sn] sn hash lm (by simpa using hsn) hp, hself]
    simp
  · intro ls hsn hlook hself
    exact get_hash_self prim structs ls hsn hlook hself

/-- Witness of C4 (amended): the members `A a` and `B b` of `A { A a; B b; }` in the
activation of `A` entered from `B`, and the fingerprint of `T { T t; }`. -/
theorem skipped_iff_in_entry_ancestry_witness :
    (⟨unqualified "B", "b", []⟩ ∈ ex_A.members ∧ ⟨unqualified "A", "a", []⟩ ∈ ex_A.members) ∧
    hash_member lcm_is_primitive_type [ex_A, ex_B]
        (computeHash lcm_is_primitive_type [ex_A, ex_B] 4) (ancestry ["B"]).length
        (ancestry ["B"] ++ record "A") (0, 1) ⟨unqualified "B", "b", []⟩ = .ok (0, 1) ∧
    hash_member lcm_is_primitive_type [ex_A, ex_B]
        (computeHash lcm_is_primitive_type [ex_A, ex_B] 4) (ancestry ["B"]).length
        (ancestry ["B"] ++ record "A") (0, 1) ⟨unqualified "A", "a", []⟩
      = ((computeHash lcm_is_primitive_type [ex_A, ex_B] 4 ex_A
          (ancestry ["B"] ++ record "A")).bind fun h => .ok (add_overflow (0, 1) h)) ∧
    hash_member lcm_is_primitive_type [ex_A, ex_B]
        (computeHash lcm_is_primitive_type [ex_A, ex_B] 4) (ancestry ["A"]).length
        (ancestry ["A"] ++ record "A") (0, 1) ⟨unqualified "A", "a", []⟩ = .ok (0, 1) ∧
    get_hash lcm_is_primitive_type [ex_T] ex_T = .ok (Hash.ofNat (rotl1 (1 + rotl1 1))) :=
  ⟨by decide,
    (skipped_iff_in_entry_ancestry lcm_is_primitive_type [ex_A, ex_B]
      (computeHash lcm_is_primitive_type [ex_A, ex_B] 4) ["B"] "A" (0, 1)
      ⟨unqualified "B", "b", []⟩ (by decide) (by decide)).1,
    (skipped_iff_in_entry_ancestry lcm_is_primitive_type [ex_A, ex_B]
      (computeHash lcm_is_primitive_type [ex_A, ex_B] 4) ["B"] "A" (0, 1)
      ⟨unqualified "A", "a", []⟩ (by decide) (by decide)).1,
    (skipped_iff_in_entry_ancestry lcm_is_primitive_type [ex_A, ex_B]
      (computeHash lcm_is_primitive_type [ex_A, ex_B] 4) ["B"] "A" (0, 1)
      ⟨unqualified "A", "a", []⟩ (by decide) (by decide)).2.2.1 (by decide) (by decide),
    (skipped_iff_in_entry_ancestry lcm_is_primitive_type [ex_T]
      (computeHash lcm_is_primitive_type [ex_T] 2) [] "T" (0, 1)
      ⟨unqualified "T", "t", []⟩ (by decide) (by decide)).2.2.2 ex_T (by decide) (by decide)
      (by decide)⟩

/-! ## The top-level decode -/

/-- C9: for every buffer, position and input instance `S`, if the read of the
8-byte preamble fails (the position it returns is below 1) or either 32-bit
word read differs from the expected fingerprint, the generated top-level decode
returns position -1 and `S` unchanged, whatever the budget, even a budget of 0
at which any invocation of the no-preamble decoder would run out; otherwise it
is the no-preamble decoder run once, with element count 1, on `S` at the
position after the preamble. -/
theorem decode_preamble (codec : Codec) (prim : String → Bool) (structs : List lcm_struct)
    (fuel : Nat) (ls : lcm_struct) (buf : Buf) (pos maxlen : Int) (S : Val)
    (hash : Hash) (pos1 : Int) (w1 w2 : Int) (more : List Val)
    (hhash : get_hash prim structs ls = .ok hash)
    (hread : call_decode_nohash codec structs (decode_nohash codec structs fuel) "int64" buf pos
      maxlen [.num 0, .num 0] 1 = .ok (pos1, .num w1 :: .num w2 :: more)) :
    ((pos1 < 1 ∨ w1 ≠ hash.1 ∨ w2 ≠ hash.2) →
      decode codec prim structs fuel ls buf pos maxlen S = .ok (-1, S)) ∧
    ((pos1 < 1 ∨ w1 ≠ hash.1 ∨ w2 ≠ hash.2) → fuel = 0 →
      decode_nohash codec structs fuel ls buf pos1 maxlen [S] 1 = .timeout ∧
      decode codec prim structs fuel ls buf pos maxlen S = .ok (-1, S)) ∧
    (¬ (pos1 < 1 ∨ w1 ≠ hash.1 ∨ w2 ≠ hash.2) →
      decode codec prim structs fuel ls buf pos maxlen S
        = (decode_nohash codec structs fuel ls buf pos1 maxlen [S] 1).bind fun r =>
            (nth r.2 1).bind fun S => .ok (r.1, S)) := by
  have hfail : (pos1 < 1 ∨ w1 ≠ hash.1 ∨ w2 ≠ hash.2) →
      decode codec prim structs fuel ls buf pos maxlen S = .ok (-1, S) := by
    intro h
    simp only [decode, hhash, hread, Run.ok_bind, nth, differs]
    by_cases h0 : pos1 < 1
    · simp [h0]
    · by_cases h1 : w1 = hash.1
      · have h2 : w2 ≠ hash.2 := by
          rcases h with h | h | h
          · exact absurd h h0
          · exact absurd h1 h
          · exact h
        simp [h0, h1, h2]
      · simp [h0, h1]
  refine ⟨hfail, ?_, ?_⟩
  · intro h hf
    subst hf
    exact ⟨rfl, hfail h⟩
  · intro h
    simp only [not_or, not_lt, ne_eq, not_not] at h
    obtain ⟨h0, h1, h2⟩ := h
    simp only [decode, hhash, hread, Run.ok_bind, nth, differs]
    simp [not_lt.mpr h0, h1, h2]
/-- Witness of C9: `Point` decoded from a buffer whose second preamble word is
off by one, with budget 0, and from a buffer with the right preamble. -/
theorem decode_preamble_witness :
    decode be_codec lcm_is_primitive_type [ex_Point] 0 ex_Point
        [0, 0, 0, 0, 0, 0, 0x24, 0x69, 0, 0, 0, 1, 0, 0, 0, 2] 1 100
        (.struct [("x", .num 0), ("y", .num 0)])
      = .ok (-1, .struct [("x", .num 0), ("y", .num 0)]) ∧
    decode be_codec lcm_is_primitive_type [ex_Point] 3 ex_Point
        [0, 0, 0, 0, 0, 0, 0x24, 0x68, 0, 0, 0, 1, 0, 0, 0, 2] 1 100
        (.struct [("x", .num 0), ("y", .num 0)])
      = (decode_nohash be_codec [ex_Point] 3 ex_Point
          [0, 0, 0, 0, 0, 0, 0x24, 0x68, 0, 0, 0, 1, 0, 0, 0, 2] 9 100
          [.struct [("x", .num 0), ("y", .num 0)]] 1).bind fun r =>
            (nth r.2 1).bind fun S => .ok (r.1, S) :=
  ⟨(decode_preamble be_codec lcm_is_primitive_type [ex_Point] 0 ex_Point
      [0, 0, 0, 0, 0, 0, 0x24, 0x69, 0, 0, 0, 1, 0, 0, 0, 2] 1 100
      (.struct [("x", .num 0), ("y", .num 0)]) (0, 0x2468) 9 0 0x2469 [] (by decide)
      (by rfl)).1 (by decide),
    (decode_preamble be_codec lcm_is_primitive_type [ex_Point] 3 ex_Point
      [0, 0, 0, 0, 0, 0, 0x24, 0x68, 0, 0, 0, 1, 0, 0, 0, 2] 1 100
      (.struct [("x", .num 0), ("y", .num 0)]) (0, 0x2468) 9 0 0x2468 [] (by decide)
      (by rfl)).2.2 (by decide)⟩

/-! ## The decoder mirrors the encoder -/

theorem traversal_append (a b : List Line) : traversal (a ++ b) = traversal a ++ traversal b := by
  simp [traversal, List.filterMap_append]

theorem traversal_flatMap {α : Type} (f : α → List Line) :
    ∀ (l : List α), traversal (l.flatMap f) = l.flatMap fun a => traversal (f a)
  | [] => rfl
  | a :: l => by
    rw [List.flatMap_cons, traversal_append, traversal_flatMap f l, List.flatMap_cons]

theorem traversal_member (lm : lcm_member) :
    traversal (emit_decode_member lm) = traversal (emit_encode_member lm) := by
  unfold emit_decode_member emit_encode_member
  by_cases h : 0 = lm.dimensions.length
  · have h0 : lm.dimensions = [] := List.length_eq_zero.mp h.symm
    simp [h0, emit_for_each_dimension, traversal, Line.step]
  · have hends : (List.range' 1 (lm.dimensions.length - 1)).reverse.map (fun dx => Line.end_ (1 + dx))
        = (List.range' 2 (lm.dimensions.length - 1)).reverse.map fun dx => Line.end_ dx := by
      have : List.range' 2 (lm.dimensions.length - 1)
          = (List.range' 1 (lm.dimensions.length - 1)).map (1 + ·) := by
        rw [List.map_add_range']
      rw [this, ← List.map_reverse, List.map_map]
      rfl
    simp only [if_neg h, hends, traversal_append]
    congr 1

/-- C6: for every struct, the generated no-preamble decoder makes exactly the
traversal of the generated no-preamble encoder: the same members in the same
order, and for each member the same loops (number, bounds, nesting and
indentation) around one call of the codec of the same member type, with the same
index expression and the same element count.  The decoder only adds, after each
call, the line that stores what was read. -/
theorem decoder_mirrors_encoder (ls : lcm_struct) :
    traversal (emit_decode_nohash ls) = traversal (emit_encode_nohash ls) := by
  unfold emit_decode_nohash emit_encode_nohash
  simp only [traversal_append, traversal_flatMap, traversal_member]
  simp [traversal, Line.step]

/-! ## Loops as enumerations -/

@[simp] theorem Run.bind_ok {α : Type} (r : Run α) : (r.bind fun a => Run.ok a) = r := by
  cases r <;> rfl

theorem run_all_append {α σ : Type} (step : α → σ → Run σ) :
    ∀ (l m : List α) (s : σ),
      run_all step (l ++ m) s = (run_all step l s).bind fun s => run_all step m s
  | [], m, s => by simp [run_all]
  | a :: l, m, s => by
    simp only [List.cons_append, run_all]
    cases step a s with
    | ok s2 => simp [run_all_append step l m s2]
    | fault => rfl
    | timeout => rfl

theorem run_all_flatMap {α β σ : Type} (step : β → σ → Run σ) (f : α → List β) :
    ∀ (l : List α) (s : σ),
      run_all step (l.flatMap f) s = run_all (fun a s => run_all step (f a) s) l s
  | [], s => by simp [run_all]
  | a :: l, s => by
    rw [List.flatMap_cons, run_all_append, run_all]
    cases run_all step (f a) s with
    | ok s2 => simp [run_all_flatMap step f l s2]
    | fault => rfl
    | timeout => rfl

theorem run_all_map {α β σ : Type} (step : β → σ → Run σ) (f : α → β) :
    ∀ (l : List α) (s : σ), run_all step (l.map f) s = run_all (fun a s => step (f a) s) l s
  | [], s => by simp [run_all]
  | a :: l, s => by
    simp only [List.map_cons, run_all]
    cases step (f a) s with
    | ok s2 => simp [run_all_map step f l s2]
    | fault => rfl
    | timeout => rfl

theorem run_all_congr {α σ : Type} (f g : α → σ → Run σ) :
    ∀ (l : List α) (s : σ), (∀ a ∈ l, ∀ s, f a s = g a s) → run_all f l s = run_all g l s
  | [], s, _ => rfl
  | a :: l, s, h => by
    simp only [run_all]
    rw [h a (List.mem_cons_self _ _)]
    cases g a s with
    | ok s2 =>
      simp only [Run.ok_bind]
      exact run_all_congr f g l s2 (fun b hb => h b (List.mem_cons_of_mem _ hb))
    | fault => rfl
    | timeout => rfl

/-- A `for` loop runs its body on `first, first + 1, ...` in increasing order. -/
theorem for_loop_eq_run_all {σ : Type} (body : Nat → σ → Run σ) :
    ∀ (count first : Nat) (s : σ),
      for_loop body count first s = run_all body (List.range' first count) s
  | 0, first, s => by simp [for_loop, run_all]
  | count + 1, first, s => by
    simp only [for_loop, List.range'_succ, run_all]
    cases body first s with
    | ok s2 => simp [for_loop_eq_run_all body count (first + 1) s2]
    | fault => rfl
    | timeout => rfl

/-- A nest of loops runs its body once for each index tuple, in lexicographic
order with the outermost loop most significant. -/
theorem nest_eq_run_all {σ : Type} (body : List Nat → σ → Run σ) :
    ∀ (dims : List lcm_dimension) (idx : List Nat) (s : σ),
      nest dims idx body s
        = (index_tuples dims).bind fun ts => run_all (fun t s => body (idx ++ t) s) ts s
  | [], idx, s => by simp [nest, index_tuples, run_all]
  | dim :: rest, idx, s => by
    simp only [nest, index_tuples]
    cases eval_size dim.size with
    | fault => rfl
    | timeout => rfl
    | ok n =>
      simp only [Run.ok_bind]
      rw [for_loop_eq_run_all]
      by_cases hn : n.toNat = 0
      · simp [hn, run_all]
      · rw [if_neg hn]
        cases hts : index_tuples rest with
        | fault =>
          obtain ⟨k, hk⟩ : ∃ k, n.toNat = k + 1 := ⟨n.toNat - 1, by omega⟩
          simp [hk, List.range'_succ, run_all, nest_eq_run_all body rest, hts]
        | timeout =>
          obtain ⟨k, hk⟩ : ∃ k, n.toNat = k + 1 := ⟨n.toNat - 1, by omega⟩
          simp [hk, List.range'_succ, run_all, nest_eq_run_all body rest, hts]
        | ok ts =>
          simp only [Run.ok_bind]
          rw [run_all_flatMap]
          apply run_all_congr
          intro dx _ s2
          rw [nest_eq_run_all body rest, hts, Run.ok_bind, run_all_map]
          apply run_all_congr
          intro t _ s3
          simp

theorem encode_members_eq_run_all
    (call : String → Buf → Int → Int → List Val → Int → Run (Buf × Int))
    (maxlen : Int) (S : List Val) (ix : Nat) :
    ∀ (ms : List lcm_member) (st : Buf × Int),
      encode_members call maxlen S ix ms st
        = run_all (fun lm st => encode_member call maxlen S ix lm st) ms st
  | [], st => rfl
  | lm :: rest, st => by
    simp only [encode_members, run_all]
    cases encode_member call maxlen S ix lm st with
    | ok s2 => simp [encode_members_eq_run_all call maxlen S ix rest s2]
    | fault => rfl
    | timeout => rfl

theorem enumFrom_increasing {α : Type} :
    ∀ (l : List α) (n : Nat),
      (l.enumFrom n).Pairwise (fun a b => a.1 < b.1) ∧ ∀ p ∈ l.enumFrom n, n ≤ p.1
  | [], n => by simp
  | a :: l, n => by
    obtain ⟨h1, h2⟩ := enumFrom_increasing l (n + 1)
    rw [List.enumFrom_cons]
    refine ⟨List.pairwise_cons.mpr ⟨fun p hp => ?_, h1⟩, fun p hp => ?_⟩
    · have := h2 p hp
      show n < p.1
      omega
    · rcases List.mem_cons.mp hp with h | h
      · rw [h]
      · have := h2 p h
        omega

theorem index_tuples_sorted :
    ∀ (dims : List lcm_dimension) (ts : List (List Nat)), index_tuples dims = .ok ts →
      ts.Pairwise (List.Lex (· < ·))
  | [], ts, h => by
    simp only [index_tuples, Run.ok.injEq] at h
    subst h
    simp
  | dim :: rest, ts, h => by
    simp only [index_tuples] at h
    cases hn : eval_size dim.size with
    | fault => simp [hn] at h
    | timeout => simp [hn] at h
    | ok n =>
      simp only [hn, Run.ok_bind] at h
      by_cases h0 : n.toNat = 0
      · simp only [h0, if_true, Run.ok.injEq] at h
        subst h
        simp
      · rw [if_neg h0] at h
        cases hr : index_tuples rest with
        | fault => simp [hr] at h
        | timeout => simp [hr] at h
        | ok ts2 =>
          simp only [hr, Run.ok_bind, Run.ok.injEq] at h
          subst h
          have ih := index_tuples_sorted rest ts2 hr
          rw [List.pairwise_flatMap]
          refine ⟨fun dx _ => ?_, ?_⟩
          · rw [List.pairwise_map]
            exact ih.imp fun hlt => List.Lex.cons hlt
          · refine (List.pairwise_lt_range' 1 n.toNat).imp ?_
            intro a b hab x hx y hy
            obtain ⟨t1, _, rfl⟩ := List.mem_map.mp hx
            obtain ⟨t2, _, rfl⟩ := List.mem_map.mp hy
            exact List.Lex.rel hab

theorem filter_instance_block {α : Type} (ms : List α) (ix : Nat) :
    ∀ (count first : Nat),
      ((List.range' first count).flatMap fun i => ms.map fun m => (i, m)).filter
          (fun p => decide (p.1 = ix))
        = if first ≤ ix ∧ ix < first + count then ms.map (fun m => (ix, m)) else []
  | 0, first => by
    have : ¬ (first ≤ ix ∧ ix < first + 0) := by omega
    simp [this]
  | count + 1, first => by
    rw [List.range'_succ, List.flatMap_cons, List.filter_append,
      filter_instance_block ms ix count (first + 1)]
    by_cases h : first = ix
    · subst h
      have h1 : ¬ (first + 1 ≤ first ∧ first < first + 1 + count) := by omega
      have h2 : first ≤ first ∧ first < first + (count + 1) := by omega
      rw [if_neg h1, if_pos h2, List.append_nil, List.filter_eq_self]
      intro p hp
      obtain ⟨m, _, rfl⟩ := List.mem_map.mp hp
      simp
    · have h3 : (ms.map fun m => (first, m)).filter (fun p => decide (p.1 = ix)) = [] := by
        rw [List.filter_eq_nil_iff]
        intro p hp
        obtain ⟨m, _, rfl⟩ := List.mem_map.mp hp
        simpa using h
      rw [h3, List.nil_append]
      by_cases h4 : first + 1 ≤ ix ∧ ix < first + 1 + count
      · rw [if_pos h4, if_pos (by omega)]
      · rw [if_neg h4, if_neg (by omega)]

/-! ## Arrays of constant extents -/

theorem eval_size_decimal {size : String} {n : Nat} (h : decimal size = some n) :
    eval_size size = .ok (n : Int) := by
  simp [eval_size, h]

theorem extents_cons {dim : lcm_dimension} {rest : List lcm_dimension} {ns : List Nat}
    (h : extents (dim :: rest) = some ns) :
    ∃ n ns2, ns = n :: ns2 ∧ decimal dim.size = some n ∧ extents rest = some ns2 := by
  simp only [extents] at h
  cases hd : decimal dim.size with
  | none => simp [hd] at h
  | some n =>
    cases hr : extents rest with
    | none => simp [hd, hr] at h
    | some ns2 =>
      simp only [hd, hr, Option.some.injEq] at h
      exact ⟨n, ns2, h.symm, rfl, rfl⟩

theorem extents_concat :
    ∀ (ds : List lcm_dimension) (d : lcm_dimension) (ns : List Nat),
      extents (ds ++ [d]) = some ns →
      ∃ ns2 n, ns = ns2 ++ [n] ∧ extents ds = some ns2 ∧ decimal d.size = some n
  | [], d, ns, h => by
    obtain ⟨n, ns2, rfl, hd, hr⟩ := extents_cons h
    simp only [extents, Option.some.injEq] at hr
    subst hr
    exact ⟨[], n, rfl, rfl, hd⟩
  | dim :: ds, d, ns, h => by
    obtain ⟨n, ns2, rfl, hd, hr⟩ := extents_cons h
    obtain ⟨ns3, m, rfl, h1, h2⟩ := extents_concat ds d ns2 hr
    exact ⟨n :: ns3, m, rfl, by simp [extents, hd, h1], h2⟩

theorem index_tuples_of_extents :
    ∀ (dims : List lcm_dimension) (ns : List Nat), extents dims = some ns →
      index_tuples dims = .ok (all_tuples ns)
  | [], ns, h => by
    simp only [extents, Option.some.injEq] at h
    subst h
    rfl
  | dim :: rest, ns, h => by
    obtain ⟨n, ns2, rfl, hd, hr⟩ := extents_cons h
    simp only [index_tuples, eval_size_decimal hd, Run.ok_bind, Int.toNat_ofNat,
      index_tuples_of_extents rest ns2 hr, all_tuples]
    by_cases h0 : n = 0
    · subst h0; simp
    · simp [h0]

theorem nth_append_length (pre : List Val) (x : Val) (rest : List Val) :
    nth (pre ++ x :: rest) (pre.length + 1) = .ok x := by
  unfold nth
  rw [if_neg (by omega), Nat.add_sub_cancel, List.get?_eq_getElem?,
    List.getElem?_append_right (le_refl _)]
  simp

theorem run_all_indices_aux {σ : Type} (F : Nat → σ → Run σ) (f : Val → σ → Run σ) :
    ∀ (rest pre : List Val),
      (∀ dx x, nth (pre ++ rest) dx = .ok x → ∀ s, F dx s = f x s) →
      ∀ s, run_all F (List.range' (pre.length + 1) rest.length) s = run_all f rest s
  | [], pre, _, s => by simp [run_all]
  | x :: rest, pre, h, s => by
    simp only [List.length_cons, List.range'_succ, run_all]
    rw [h (pre.length + 1) x (nth_append_length pre x rest) s]
    cases f x s with
    | fault => rfl
    | timeout => rfl
    | ok s2 =>
      simp only [Run.ok_bind]
      have := run_all_indices_aux F f rest (pre ++ [x]) (by simpa using h) s2
      simpa using this

/-- Running over the indices `1 .. numel(xs)` is running over the elements. -/
theorem run_all_indices {σ : Type} (xs : List Val) (F : Nat → σ → Run σ) (f : Val → σ → Run σ)
    (h : ∀ dx x, nth xs dx = .ok x → ∀ s, F dx s = f x s) (s : σ) :
    run_all F (List.range' 1 xs.length) s = run_all f xs s := by
  have := run_all_indices_aux F f xs [] (by simpa using h) s
  simpa using this

theorem element_arr_cons (xs : List Val) (dx : Nat) (t : List Nat) :
    element (.arr xs) (dx :: t) = (nth xs dx).bind fun x => element x t := by
  rw [element]

theorem nth_mem {xs : List Val} {dx : Nat} {x : Val} (h : nth xs dx = .ok x) : x ∈ xs := by
  unfold nth at h
  split at h
  · simp at h
  · cases hg : xs.get? (dx - 1) with
    | none => rw [hg] at h; simp at h
    | some y =>
      rw [hg] at h
      simp only [Run.ok.injEq] at h
      subst h
      exact List.get?_mem hg

/-- Visiting the index tuples of an array in row-major order visits its
elements in row-major order. -/
theorem run_all_elements {σ : Type} (g : Val → σ → Run σ) :
    ∀ (ns : List Nat) (v : Val), has_shape ns v = true → ∀ (s : σ),
      run_all (fun idx s => (element v idx).bind fun e => g e s) (all_tuples ns) s
        = run_all g (leaves ns v) s
  | [], v, _, s => by simp [all_tuples, leaves, run_all, element]
  | n :: ns, v, hs, s => by
    cases v with
    | num k => simp [has_shape] at hs
    | struct fs => simp [has_shape] at hs
    | arr xs =>
      simp only [has_shape, Bool.and_eq_true, decide_eq_true_eq, List.all_eq_true] at hs
      obtain ⟨hlen, hall⟩ := hs
      rw [all_tuples, leaves, run_all_flatMap, run_all_flatMap, ← hlen]
      apply run_all_indices xs
      intro dx x hx s2
      rw [run_all_map]
      rw [← run_all_elements g ns x (hall x (nth_mem hx)) s2]
      apply run_all_congr
      intro t _ s3
      rw [element_arr_cons, hx, Run.ok_bind]

theorem has_shape_arr {n : Nat} {ns : List Nat} {v : Val} (h : has_shape (n :: ns) v = true) :
    ∃ xs, v = .arr xs ∧ xs.length = n ∧ ∀ x ∈ xs, has_shape ns x = true := by
  cases v with
  | num k => simp [has_shape] at h
  | struct fs => simp [has_shape] at h
  | arr xs =>
    simp only [has_shape, Bool.and_eq_true, decide_eq_true_eq, List.all_eq_true] at h
    exact ⟨xs, rfl, h.1, h.2⟩

/-- The rows of an array: the leaves of its leading dimensions are arrays of
the last extent, whose elements in order are the leaves of the whole array. -/
theorem leaves_concat (n : Nat) :
    ∀ (ns : List Nat) (v : Val), has_shape (ns ++ [n]) v = true →
      has_shape ns v = true ∧
      (∀ e ∈ leaves ns v, ∃ row, e = .arr row ∧ row.length = n) ∧
      leaves (ns ++ [n]) v = (leaves ns v).flatMap row_of
  | [], v, h => by
    obtain ⟨xs, rfl, hlen, _⟩ := has_shape_arr h
    refine ⟨rfl, ?_, ?_⟩
    · intro e he
      simp only [leaves, List.mem_singleton] at he
      exact ⟨xs, he, hlen⟩
    · simp [leaves, row_of]
  | m :: ns, v, h => by
    obtain ⟨xs, rfl, hlen, hall⟩ := has_shape_arr h
    have ih := fun x hx => leaves_concat n ns x (hall x hx)
    refine ⟨?_, ?_, ?_⟩
    · simp only [has_shape, Bool.and_eq_true, decide_eq_true_eq, List.all_eq_true]
      exact ⟨hlen, fun x hx => (ih x hx).1⟩
    · intro e he
      simp only [leaves, List.mem_flatMap] at he
      obtain ⟨x, hx, hex⟩ := he
      exact (ih x hx).2.1 e hex
    · simp only [List.cons_append, leaves, List.flatMap_assoc]
      apply List.flatMap_congr
      intro x hx
      exact (ih x hx).2.2

theorem leaves_length :
    ∀ (ns : List Nat) (v : Val), has_shape ns v = true → (leaves ns v).length = ns.prod
  | [], v, _ => by simp [leaves]
  | n :: ns, v, h => by
    obtain ⟨xs, rfl, hlen, hall⟩ := has_shape_arr h
    have hsum : ∀ (l : List Val), (∀ x ∈ l, has_shape ns x = true) →
        (l.flatMap (leaves ns)).length = l.length * ns.prod := by
      intro l
      induction l with
      | nil => intro _; simp
      | cons x l ih =>
        intro hl
        rw [List.flatMap_cons, List.length_append, leaves_length ns x (hl x (List.mem_cons_self _ _)),
          ih (fun y hy => hl y (List.mem_cons_of_mem _ hy)), List.length_cons]
        ring
    rw [leaves, hsum xs hall, hlen, List.prod_cons]

/-! ## What the encoder writes for a member of constant extents -/

theorem encode_member_scalar
    (call : String → Buf → Int → Int → List Val → Int → Run (Buf × Int))
    (maxlen : Int) (S : List Val) (ix : Nat) (lm : lcm_member) (st : Buf × Int) (v : Val)
    (hd : lm.dimensions = []) (hv : member_ref S ix lm.membername = .ok v) :
    encode_member call maxlen S ix lm st
      = call (map_type_name (dots_to_double_colons lm.type.lctypename)) st.1 st.2 maxlen [v] 1 := by
  simp [encode_member, encode_element, hd, nest, hv]

theorem encode_member_array
    (call : String → Buf → Int → Int → List Val → Int → Run (Buf × Int))
    (maxlen : Int) (S : List Val) (ix : Nat) (lm : lcm_member) (st : Buf × Int) (v : Val)
    (ds : List lcm_dimension) (d : lcm_dimension) (ns : List Nat) (n : Nat)
    (hd : lm.dimensions = ds ++ [d]) (hds : extents ds = some ns) (hn : decimal d.size = some n)
    (hv : member_ref S ix lm.membername = .ok v) (hs : has_shape (ns ++ [n]) v = true) :
    encode_member call maxlen S ix lm st
      = run_all
          (fun e st => call (map_type_name (dots_to_double_colons lm.type.lctypename)) st.1 st.2
            maxlen (row_of e) n)
          (leaves ns v) st := by
  obtain ⟨hs1, hrows, _⟩ := leaves_concat n ns v hs
  rw [encode_member, hd, List.dropLast_concat, nest_eq_run_all, index_tuples_of_extents ds ns hds,
    Run.ok_bind]
  have hbody : ∀ idx ∈ all_tuples ns, ∀ st : Buf × Int,
      encode_element call maxlen S ix lm ([] ++ idx) st
        = (element v idx).bind fun e =>
            match e with
            | .arr row => call (map_type_name (dots_to_double_colons lm.type.lctypename)) st.1
                st.2 maxlen row n
            | _ => .fault := by
    intro idx _ st
    simp only [encode_element, hv, Run.ok_bind, hd, List.getLast?_concat, slice, List.nil_append,
      eval_size_decimal hn]
    cases element v idx with
    | fault => rfl
    | timeout => rfl
    | ok e => cases e <;> simp
  rw [run_all_congr _ _ _ _ hbody,
    run_all_elements (fun e st =>
      match e with
      | .arr row => call (map_type_name (dots_to_double_colons lm.type.lctypename)) st.1
          st.2 maxlen row n
      | _ => .fault) ns v hs1 st]
  apply run_all_congr
  intro e he st2
  obtain ⟨row, rfl, _⟩ := hrows e he
  rfl

/-- Steps that each advance the position by a known amount advance it by the
sum. -/
theorem run_all_advance {α : Type} (step : α → Buf × Int → Run (Buf × Int)) (c : α → Nat) :
    ∀ (l : List α) (st : Buf × Int),
      (∀ a ∈ l, ∀ st : Buf × Int, ∃ b, step a st = .ok (b, st.2 + (c a : Int))) →
      ∃ b, run_all step l st = .ok (b, st.2 + ((l.map c).sum : Nat))
  | [], st, _ => ⟨st.1, by simp [run_all]⟩
  | a :: l, st, h => by
    obtain ⟨b1, h1⟩ := h a (List.mem_cons_self _ _) st
    obtain ⟨b2, h2⟩ := run_all_advance step c l (b1, st.2 + (c a : Int))
      (fun x hx => h x (List.mem_cons_of_mem _ hx))
    refine ⟨b2, ?_⟩
    rw [run_all, h1, Run.ok_bind, h2]
    simp only [List.map_cons, List.sum_cons, Nat.cast_add]
    congr 2
    omega

/-! ## What the size procedure adds for a member of constant extents -/

theorem uint32_sat_le (n : Nat) : uint32_sat n ≤ 2 ^ 32 - 1 := by
  unfold uint32_sat; omega

theorem uint32_sat_add_sat (a b : Nat) : uint32_sat (a + uint32_sat b) = uint32_sat (a + b) := by
  unfold uint32_sat; omega

theorem uint32_sat_sat_add (a b : Nat) : uint32_sat (uint32_sat a + b) = uint32_sat (a + b) := by
  unfold uint32_sat; omega

theorem uint32_sat_of_le {n : Nat} (h : n ≤ 2 ^ 32 - 1) : uint32_sat n = n := by
  unfold uint32_sat; omega

theorem size_product_of_extents :
    ∀ (dims : List lcm_dimension) (ns : List Nat) (acc : Nat), extents dims = some ns →
      size_product dims acc = .ok (acc * ns.prod)
  | [], ns, acc, h => by
    simp only [extents, Option.some.injEq] at h
    subst h
    simp [size_product]
  | dim :: rest, ns, acc, h => by
    obtain ⟨n, ns2, rfl, hd, hr⟩ := extents_cons h
    rw [size_product, eval_size_decimal hd, Run.ok_bind, Int.toNat_ofNat,
      size_product_of_extents rest ns2 _ hr, List.prod_cons, Nat.mul_assoc]

theorem encodedSize_member_known (call : String → Val → Run Nat) (S : Val) (lm : lcm_member)
    (s : Nat) (ns : List Nat) (hns : extents lm.dimensions = some ns)
    (hk : encoded_size (dots_to_double_colons lm.type.lctypename) > -1) :
    encodedSize_member call S lm s
      = .ok (uint32_sat (s
          + (encoded_size (dots_to_double_colons lm.type.lctypename)).toNat * ns.prod)) := by
  simp [encodedSize_member, hk, size_product_of_extents _ ns _ hns]

theorem encodedSize_member_struct (call : String → Val → Run Nat) (S : Val) (lm : lcm_member)
    (s : Nat) (ns : List Nat) (v : Val) (hns : extents lm.dimensions = some ns)
    (hk : ¬ encoded_size (dots_to_double_colons lm.type.lctypename) > -1)
    (hv : S.field lm.membername = .ok v) (hs : has_shape ns v = true) :
    encodedSize_member call S lm s
      = run_all
          (fun e s =>
            (call (map_type_name (dots_to_double_colons lm.type.lctypename)) e).bind fun n =>
              .ok (uint32_sat (s + n)))
          (leaves ns v) s := by
  by_cases hd : lm.dimensions = []
  · rw [hd] at hns
    simp only [extents, Option.some.injEq] at hns
    subst hns
    simp [encodedSize_member, hk, hd, hv, leaves, run_all]
  · simp only [encodedSize_member, hk, hd, if_false]
    rw [nest_eq_run_all, index_tuples_of_extents _ ns hns, Run.ok_bind]
    simp only [hv, Run.ok_bind, List.nil_append]
    exact run_all_elements _ ns v hs s

/-- Sizes added one by one in saturating `uint32` arithmetic give the saturated
sum. -/
theorem run_all_saturating (call : Val → Run Nat) (c : Val → Nat) :
    ∀ (l : List Val) (s : Nat), (∀ e ∈ l, call e = .ok (uint32_sat (c e))) →
      s ≤ 2 ^ 32 - 1 →
      run_all (fun e s => (call e).bind fun n => .ok (uint32_sat (s + n))) l s
        = .ok (uint32_sat (s + (l.map c).sum))
  | [], s, _, hs => by simp [run_all, uint32_sat_of_le hs]
  | e :: l, s, h, _ => by
    rw [run_all, h e (List.mem_cons_self _ _), Run.ok_bind, Run.ok_bind,
      run_all_saturating call c l _ (fun x hx => h x (List.mem_cons_of_mem _ hx))
        (uint32_sat_le _),
      uint32_sat_add_sat, uint32_sat_sat_add, List.map_cons, List.sum_cons, Nat.add_assoc]

theorem field_of_field? {x : Val} {name : String} {v : Val} (h : x.field? name = some v) :
    x.field name = .ok v := by
  cases x with
  | num k => simp [Val.field?] at h
  | arr xs => simp [Val.field?] at h
  | struct fs =>
    simp only [Val.field?] at h
    simp [Val.field, h]

theorem sum_flatMap {α : Type} (f : α → List Val) (c : Val → Nat) :
    ∀ (l : List α), ((l.flatMap f).map c).sum = (l.map fun a => ((f a).map c).sum).sum
  | [] => rfl
  | a :: l => by
    rw [List.flatMap_cons, List.map_append, List.sum_append, sum_flatMap f c l, List.map_cons,
      List.sum_cons]

/-! ## Size consistency -/

theorem conforms_member {structs : List lcm_struct} {f : Nat} {ls : lcm_struct} {x : Val}
    (h : conforms structs (f + 1) ls x = true) {lm : lcm_member} (hlm : lm ∈ ls.members) :
    ∃ ns v, extents lm.dimensions = some ns ∧ x.field? lm.membername = some v ∧
      has_shape ns v = true ∧
      ((encoded_size (dots_to_double_colons lm.type.lctypename) > -1 ∧
          lookup structs (map_type_name (dots_to_double_colons lm.type.lctypename)) = none) ∨
       (¬ encoded_size (dots_to_double_colons lm.type.lctypename) > -1 ∧
          ∃ callee,
            lookup structs (map_type_name (dots_to_double_colons lm.type.lctypename))
              = some callee ∧
            f ≠ 0 ∧ ∀ e ∈ leaves ns v, conforms structs f callee e = true)) := by
  simp only [conforms, List.all_eq_true] at h
  have hm := h lm hlm
  cases hns : extents lm.dimensions with
  | none => simp [hns] at hm
  | some ns =>
    cases hv : x.field? lm.membername with
    | none => simp [hns, hv] at hm
    | some v =>
      simp only [hns, hv, Bool.and_eq_true] at hm
      obtain ⟨hs, hty⟩ := hm
      refine ⟨ns, v, rfl, rfl, hs, ?_⟩
      by_cases hk : encoded_size (dots_to_double_colons lm.type.lctypename) > -1
      · left
        simp only [hk, if_true, Option.isNone_iff_eq_none] at hty
        exact ⟨hk, hty⟩
      · right
        simp only [hk, if_false] at hty
        cases hl : lookup structs (map_type_name (dots_to_double_colons lm.type.lctypename)) with
        | none => simp [hl] at hty
        | some callee =>
          simp only [hl, Bool.and_eq_true, decide_eq_true_eq, List.all_eq_true] at hty
          exact ⟨hk, callee, rfl, hty.1, hty.2⟩

theorem member_ref_single {x : Val} {name : String} {v : Val} (h : x.field? name = some v) :
    member_ref [x] 1 name = .ok v := by
  simp [member_ref, nth, field_of_field? h]

theorem member_wire_size_known {structs : List lcm_struct} {size_of : lcm_struct → Val → Nat}
    {x : Val} {lm : lcm_member} {ns : List Nat} {v : Val}
    (hns : extents lm.dimensions = some ns) (hv : x.field? lm.membername = some v)
    (hk : encoded_size (dots_to_double_colons lm.type.lctypename) > -1) :
    member_wire_size structs size_of x lm
      = (encoded_size (dots_to_double_colons lm.type.lctypename)).toNat * ns.prod := by
  simp [member_wire_size, hns, hv, hk]

theorem member_wire_size_struct {structs : List lcm_struct} {size_of : lcm_struct → Val → Nat}
    {x : Val} {lm : lcm_member} {ns : List Nat} {v : Val} {callee : lcm_struct}
    (hns : extents lm.dimensions = some ns) (hv : x.field? lm.membername = some v)
    (hk : ¬ encoded_size (dots_to_double_colons lm.type.lctypename) > -1)
    (hl : lookup structs (map_type_name (dots_to_double_colons lm.type.lctypename))
      = some callee) :
    member_wire_size structs size_of x lm = ((leaves ns v).map (size_of callee)).sum := by
  simp [member_wire_size, hns, hv, hk, hl]

theorem nil_or_concat {α : Type} (l : List α) : l = [] ∨ ∃ ds d, l = ds ++ [d] := by
  rcases List.eq_nil_or_concat l with h | ⟨ds, d, h⟩
  · exact Or.inl h
  · exact Or.inr ⟨ds, d, by rw [h, List.concat_eq_append]⟩

/-- One member: the encoder advances the position by the member's wire size and
the size procedure adds it, given the same of the structs one level down. -/
theorem member_size_consistent (codec : Codec) (structs : List lcm_struct) (f : Nat)
    (hcodec : writes_fixed_width codec)
    (ihE : f ≠ 0 → ∀ (callee : lcm_struct) (S : List Val) (buf : Buf) (pos maxlen : Int),
      (∀ x ∈ S, conforms structs f callee x = true) →
      ∃ b, encode_nohash codec structs f callee buf pos maxlen S S.length
        = .ok (b, pos + (((S.map (wire_size structs f callee)).sum : Nat) : Int)))
    (ihS : f ≠ 0 → ∀ (callee : lcm_struct) (x : Val), conforms structs f callee x = true →
      encodedSize_nohash codec structs f callee x
        = .ok (uint32_sat (wire_size structs f callee x)))
    (ls : lcm_struct) (x : Val) (hx : conforms structs (f + 1) ls x = true)
    (lm : lcm_member) (hlm : lm ∈ ls.members) :
    (∀ (maxlen : Int) (st : Buf × Int),
      ∃ b, encode_member (call_encode_nohash codec structs (encode_nohash codec structs f))
          maxlen [x] 1 lm st
        = .ok (b, st.2 + ((member_wire_size structs (wire_size structs f) x lm : Nat) : Int))) ∧
    (∀ s, s ≤ 2 ^ 32 - 1 →
      encodedSize_member
          (call_encodedSize_nohash codec structs (encodedSize_nohash codec structs f)) x lm s
        = .ok (uint32_sat (s + member_wire_size structs (wire_size structs f) x lm))) := by
  obtain ⟨ns, v, hns, hv, hs, hty⟩ := conforms_member hx hlm
  rcases hty with ⟨hk, hl⟩ | ⟨hk, callee, hl, hf, hleaves⟩
  · -- a primitive of known size
    rw [member_wire_size_known hns hv hk]
    refine ⟨?_, fun s _ => encodedSize_member_known _ x lm s ns hns hk⟩
    intro maxlen st
    rcases nil_or_concat lm.dimensions with hd | ⟨ds, d, hd⟩
    · rw [hd] at hns
      simp only [extents, Option.some.injEq] at hns
      subst hns
      rw [encode_member_scalar _ maxlen [x] 1 lm st v hd (member_ref_single hv)]
      obtain ⟨b, hb⟩ := hcodec _ hk st.1 st.2 maxlen [v] 1
      refine ⟨b, ?_⟩
      simp only [call_encode_nohash, hl]
      simpa using hb
    · rw [hd] at hns
      obtain ⟨ns2, n, rfl, hds, hn⟩ := extents_concat ds d ns hns
      rw [encode_member_array _ maxlen [x] 1 lm st v ds d ns2 n hd hds hn (member_ref_single hv)
        hs]
      obtain ⟨hs2, _, _⟩ := leaves_concat n ns2 v hs
      obtain ⟨b, hb⟩ := run_all_advance
        (fun e st => call_encode_nohash codec structs (encode_nohash codec structs f)
          (map_type_name (dots_to_double_colons lm.type.lctypename)) st.1 st.2 maxlen (row_of e) n)
        (fun _ => n * (encoded_size (dots_to_double_colons lm.type.lctypename)).toNat)
        (leaves ns2 v) st
        (by
          intro e _ st2
          simp only [call_encode_nohash, hl]
          exact hcodec _ hk st2.1 st2.2 maxlen (row_of e) n)
      refine ⟨b, ?_⟩
      rw [hb]
      congr 3
      simp only [List.map_const', List.sum_replicate, leaves_length ns2 v hs2, List.prod_append,
        List.prod_cons, List.prod_nil, smul_eq_mul]
      push_cast
      ring
  · -- a struct of the schema
    obtain ⟨g, rfl⟩ : ∃ g, f = g + 1 := ⟨f - 1, by omega⟩
    rw [member_wire_size_struct hns hv hk hl]
    refine ⟨?_, ?_⟩
    · intro maxlen st
      rcases nil_or_concat lm.dimensions with hd | ⟨ds, d, hd⟩
      · rw [hd] at hns
        simp only [extents, Option.some.injEq] at hns
        subst hns
        rw [encode_member_scalar _ maxlen [x] 1 lm st v hd (member_ref_single hv)]
        simp only [call_encode_nohash, hl]
        obtain ⟨b, hb⟩ := ihE hf callee [v] st.1 st.2 maxlen
          (fun e he => hleaves e (by simpa [leaves] using he))
        exact ⟨b, by simpa [leaves] using hb⟩
      · rw [hd] at hns
        obtain ⟨ns2, n, rfl, hds, hn⟩ := extents_concat ds d ns hns
        rw [encode_member_array _ maxlen [x] 1 lm st v ds d ns2 n hd hds hn
          (member_ref_single hv) hs]
        obtain ⟨hs2, hrows, hflat⟩ := leaves_concat n ns2 v hs
        obtain ⟨b, hb⟩ := run_all_advance
          (fun e st => call_encode_nohash codec structs (encode_nohash codec structs (g + 1))
            (map_type_name (dots_to_double_colons lm.type.lctypename)) st.1 st.2 maxlen (row_of e)
            n)
          (fun e => ((row_of e).map (wire_size structs (g + 1) callee)).sum)
          (leaves ns2 v) st
          (by
            intro e he st2
            obtain ⟨row, rfl, hrow⟩ := hrows e he
            simp only [call_encode_nohash, hl, row_of]
            rw [← hrow]
            apply ihE hf
            intro y hy
            apply hleaves
            rw [hflat, List.mem_flatMap]
            exact ⟨.arr row, he, hy⟩)
        refine ⟨b, ?_⟩
        rw [hb, hflat, sum_flatMap]
    · intro s hs32
      rw [encodedSize_member_struct _ x lm s ns v hns hk (field_of_field? hv) hs]
      apply run_all_saturating
      · intro e he
        simp only [call_encodedSize_nohash, hl]
        exact ihS hf callee e (hleaves e he)
      · exact hs32

theorem encode_members_instance
    (call : String → Buf → Int → Int → List Val → Int → Run (Buf × Int))
    (maxlen : Int) (S : List Val) (ix : Nat) (x : Val) (hx : nth S ix = .ok x) :
    ∀ (ms : List lcm_member) (st : Buf × Int),
      encode_members call maxlen S ix ms st = encode_members call maxlen [x] 1 ms st := by
  have hel : ∀ lm, encode_element call maxlen S ix lm = encode_element call maxlen [x] 1 lm := by
    intro lm
    funext idx st
    have h1 : member_ref S ix lm.membername = x.field lm.membername := by
      rw [member_ref, hx, Run.ok_bind]
    have h2 : member_ref [x] 1 lm.membername = x.field lm.membername := by
      simp [member_ref, nth]
    simp only [encode_element, h1, h2]
  intro ms
  induction ms with
  | nil => intro st; rfl
  | cons lm rest ih =>
    intro st
    simp only [encode_members, encode_member, hel lm]
    cases nest lm.dimensions.dropLast [] (encode_element call maxlen [x] 1 lm) st with
    | ok s2 => simp [ih s2]
    | fault => rfl
    | timeout => rfl

theorem encodedSize_members_sum (call : String → Val → Run Nat) (S : Val) (c : lcm_member → Nat) :
    ∀ (ms : List lcm_member) (s : Nat), s ≤ 2 ^ 32 - 1 →
      (∀ lm ∈ ms, ∀ s, s ≤ 2 ^ 32 - 1 →
        encodedSize_member call S lm s = .ok (uint32_sat (s + c lm))) →
      encodedSize_members call S ms s = .ok (uint32_sat (s + (ms.map c).sum))
  | [], s, hs, _ => by simp [encodedSize_members, uint32_sat_of_le hs]
  | lm :: rest, s, hs, h => by
    rw [encodedSize_members, h lm (List.mem_cons_self _ _) s hs, Run.ok_bind,
      encodedSize_members_sum call S c rest _ (uint32_sat_le _)
        (fun m hm => h m (List.mem_cons_of_mem _ hm)),
      uint32_sat_sat_add, List.map_cons, List.sum_cons, Nat.add_assoc]

/-- For instances of constant extents, at every nesting budget: the no-preamble
encoder advances the position by the wire size of the instances it is given,
and the no-preamble size procedure returns the wire size, saturated. -/
theorem nohash_size_consistent (codec : Codec) (structs : List lcm_struct)
    (hcodec : writes_fixed_width codec) :
    ∀ (f : Nat), f ≠ 0 →
      (∀ (ls : lcm_struct) (S : List Val) (buf : Buf) (pos maxlen : Int),
        (∀ x ∈ S, conforms structs f ls x = true) →
        ∃ b, encode_nohash codec structs f ls buf pos maxlen S S.length
          = .ok (b, pos + (((S.map (wire_size structs f ls)).sum : Nat) : Int))) ∧
      (∀ (ls : lcm_struct) (x : Val), conforms structs f ls x = true →
        encodedSize_nohash codec structs f ls x = .ok (uint32_sat (wire_size structs f ls x))) := by
  intro f
  induction f with
  | zero => intro h; exact absurd rfl h
  | succ f ih =>
    intro _
    have hmember := member_size_consistent codec structs f hcodec
      (fun hf => (ih hf).1) (fun hf => (ih hf).2)
    refine ⟨?_, ?_⟩
    · intro ls S buf pos maxlen hS
      rw [encode_nohash, for_loop_eq_run_all, Int.toNat_ofNat,
        run_all_indices S _
          (fun x st => encode_members
            (call_encode_nohash codec structs (encode_nohash codec structs f)) maxlen [x] 1
            ls.members st)
          (fun dx x hx st => encode_members_instance _ maxlen S dx x hx ls.members st)]
      apply run_all_advance _ (wire_size structs (f + 1) ls)
      intro x hx st
      rw [encode_members_eq_run_all, wire_size]
      apply run_all_advance _ (member_wire_size structs (wire_size structs f) x)
      intro lm hlm st2
      exact (hmember ls x (hS x hx) lm hlm).1 maxlen st2
    · intro ls x hx
      rw [encodedSize_nohash, wire_size,
        encodedSize_members_sum _ x (member_wire_size structs (wire_size structs f) x) ls.members
          0 (by omega) (fun lm hlm s hs => (hmember ls x hx lm hlm).2 s hs),
        Nat.zero_add]

theorem conforms_fuel_ne_zero {structs : List lcm_struct} {fuel : Nat} {ls : lcm_struct} {x : Val}
    (h : conforms structs fuel ls x = true) : fuel ≠ 0 := by
  rintro rfl
  simp [conforms] at h

/-- The three top-level quantities of an instance of constant extents: the
position after the top-level encode, the no-preamble size and the top-level
size, in terms of the wire size. -/
theorem top_level_sizes (codec : Codec) (prim : String → Bool) (structs : List lcm_struct)
    (fuel : Nat) (ls : lcm_struct) (x : Val) (buf : Buf) (pos maxlen : Int) (hash : Hash)
    (hcodec : writes_fixed_width codec) (hint64 : lookup structs "int64" = none)
    (hhash : get_hash prim structs ls = .ok hash)
    (hconf : conforms structs fuel ls x = true) :
    (∃ b, encode codec prim structs fuel ls buf pos maxlen x
      = .ok (b, pos + ((8 + wire_size structs fuel ls x : Nat) : Int))) ∧
    encodedSize_nohash codec structs fuel ls x = .ok (uint32_sat (wire_size structs fuel ls x)) ∧
    encodedSize codec structs fuel ls x
      = .ok (uint32_sat (8 + uint32_sat (wire_size structs fuel ls x))) := by
  obtain ⟨hE, hS⟩ := nohash_size_consistent codec structs hcodec fuel (conforms_fuel_ne_zero hconf)
  refine ⟨?_, hS ls x hconf, ?_⟩
  · obtain ⟨b1, h1⟩ := hcodec "int64_t" (by decide) buf pos maxlen [.num hash.1, .num hash.2] 1
    obtain ⟨b2, h2⟩ := hE ls [x] b1 (pos + 8) maxlen (by simpa using hconf)
    refine ⟨b2, ?_⟩
    have hname : map_type_name "int64_t" = "int64" := by decide
    have hw : (encoded_size "int64_t").toNat = 8 := by decide
    rw [hname, hw] at h1
    simp only [encode, hhash, Run.ok_bind, call_encode_nohash, hint64]
    simp only [Nat.cast_one] at h1
    rw [h1, Run.ok_bind]
    simp only [List.length_singleton, Nat.cast_one, List.map_cons, List.map_nil, List.sum_cons,
      List.sum_nil, Nat.add_zero] at h2
    have h8 : pos + ((1 * 8 : Nat) : Int) = pos + 8 := by norm_num
    simp only [h8, h2]
    congr 2
    push_cast
    ring
  · rw [encodedSize, hS ls x hconf, Run.ok_bind]

theorem encoded_size_known {t : String} (h : encoded_size t > -1) :
    t = "boolean" ∨ t = "byte" ∨ t = "int8_t" ∨ t = "int16_t" ∨ t = "uint16_t" ∨ t = "int32_t" ∨
      t = "uint32_t" ∨ t = "int64_t" ∨ t = "float" ∨ t = "double" := by
  by_contra hne
  simp only [not_or] at hne
  obtain ⟨h1, h2, h3, h4, h5, h6, h7, h8, h9, h10⟩ := hne
  simp only [encoded_size, h1, h2, h3, h4, h5, h6, h7, h8, h9, h10, if_false] at h
  exact absurd h (by decide)

theorem be_width_map_type_name {t : String} (h : encoded_size t > -1) :
    be_width (map_type_name t) = some (encoded_size t).toNat := by
  rcases encoded_size_known h with h | h | h | h | h | h | h | h | h | h <;> subst h <;> decide

theorem counting_codec_writes_fixed_width : writes_fixed_width counting_codec := by
  intro t ht buf pos maxlen values count
  refine ⟨buf, ?_⟩
  simp only [counting_codec, be_width_map_type_name ht]
  push_cast
  rfl

theorem conforms_ex_Big (xs : List Val) (h : xs.length = 1073741824) :
    conforms [ex_Big] 1 ex_Big (.struct [("a", .arr xs)]) = true := by
  have hext : extents [(⟨.LCM_CONST, "1073741824"⟩ : lcm_dimension)] = some [1073741824] := by
    decide
  have hk : encoded_size (dots_to_double_colons "int32_t") > -1 := by decide
  have hl : lookup [ex_Big] (map_type_name (dots_to_double_colons "int32_t")) = none := by decide
  have hf : (Val.struct [("a", .arr xs)]).field? "a" = some (.arr xs) := by
    simp [Val.field?, List.lookup]
  have hm : ex_Big.members = [⟨unqualified "int32_t", "a", [⟨.LCM_CONST, "1073741824"⟩]⟩] := rfl
  have hu : (unqualified "int32_t").lctypename = "int32_t" := rfl
  simp only [conforms, hm, List.all_cons, List.all_nil, Bool.and_true, hu, hext, hf, hk, if_true,
    hl, Option.isNone_none, has_shape, h, decide_True, Bool.true_and]
  rw [List.all_eq_true]
  intro x _
  rfl

theorem wire_size_ex_Big (xs : List Val) :
    wire_size [ex_Big] 1 ex_Big (.struct [("a", .arr xs)]) = 4294967296 := by
  have hext : extents [(⟨.LCM_CONST, "1073741824"⟩ : lcm_dimension)] = some [1073741824] := by
    decide
  have hk : encoded_size (dots_to_double_colons "int32_t") > -1 := by decide
  have hf : (Val.struct [("a", .arr xs)]).field? "a" = some (.arr xs) := by
    simp [Val.field?, List.lookup]
  have hw : (encoded_size (dots_to_double_colons "int32_t")).toNat = 4 := by decide
  have hm : ex_Big.members = [⟨unqualified "int32_t", "a", [⟨.LCM_CONST, "1073741824"⟩]⟩] := rfl
  have hu : (unqualified "int32_t").lctypename = "int32_t" := rfl
  simp only [wire_size, hm, List.map_cons, List.map_nil, member_wire_size, hu, hext, hf, hk,
    if_true, hw, List.prod_cons, List.prod_nil, List.sum_cons, List.sum_nil]
  rfl

/-- C10 (as stated, refuted): for the instance of `Big { int32_t a[1073741824]; }`
the generated no-preamble size procedure computes 4294967295 (its `uint32`
accumulator saturates), and the generated top-level size procedure returns
4294967295 as well, while the generated top-level encode advances the position
by 8 + 4294967296 bytes: the size plus 8 is not the number of bytes written. -/
theorem encodedSize_saturates :
    encodedSize_nohash counting_codec [ex_Big] 1 ex_Big ex_big = .ok 4294967295 ∧
    encodedSize counting_codec [ex_Big] 1 ex_Big ex_big = .ok 4294967295 ∧
    (∃ b, encode counting_codec lcm_is_primitive_type [ex_Big] 1 ex_Big [] 1 5000000000 ex_big
      = .ok (b, 1 + (8 + 4294967296))) ∧
    (4294967295 : Int) + 8 ≠ 8 + 4294967296 := by
  have hlen : (List.replicate 1073741824 (Val.num 0)).length = 1073741824 :=
    List.length_replicate _ _
  obtain ⟨⟨b, hE⟩, hS, hT⟩ := top_level_sizes counting_codec lcm_is_primitive_type [ex_Big] 1
    ex_Big ex_big [] 1 5000000000 (0, 0x84) counting_codec_writes_fixed_width (by decide) (by decide)
    (conforms_ex_Big _ hlen)
  have hw : wire_size [ex_Big] 1 ex_Big ex_big = 4294967296 := wire_size_ex_Big _
  rw [hw] at hE hS hT
  refine ⟨?_, ?_, ⟨b, ?_⟩, by decide⟩
  · rw [hS]; rfl
  · rw [hT]; rfl
  · rw [hE]; rfl

/-! ## Dynamic dimensions -/

theorem eval_size_n : eval_size "n" = .fault := by decide

theorem encode_member_dynamic_not_ok
    (call : String → Buf → Int → Int → List Val → Int → Run (Buf × Int))
    (maxlen : Int) (S : List Val) (ix : Nat) (st r : Buf × Int) :
    encode_member call maxlen S ix ⟨unqualified "int32_t", "values", [⟨.LCM_VAR, "n"⟩]⟩ st
      ≠ .ok r := by
  simp only [encode_member, List.dropLast_single, nest, encode_element, List.getLast?_singleton]
  cases member_ref S ix "values" with
  | fault => simp
  | timeout => simp
  | ok m =>
    cases hs : slice m [] with
    | fault => simp [hs]
    | timeout => simp [hs]
    | ok values => simp [hs, eval_size_n]

theorem decode_member_dynamic_not_ok
    (call : String → Buf → Int → Int → List Val → Int → Run (Int × List Val))
    (buf : Buf) (maxlen : Int) (ix : Nat) (st r : Int × List Val) :
    decode_member call buf maxlen ix ⟨unqualified "int32_t", "values", [⟨.LCM_VAR, "n"⟩]⟩ st
      ≠ .ok r := by
  simp only [decode_member, List.dropLast_single, nest, List.getLast?_singleton]
  cases member_ref st.2 ix "values" with
  | fault => simp
  | timeout => simp
  | ok m =>
    cases hs : slice m [] with
    | fault => simp [hs]
    | timeout => simp [hs]
    | ok values => simp [hs, eval_size_n]

/-- C5 (the code at the failing input): for `Dyn { int32_t n; int32_t values[n]; }`
no primitive codec makes the round trip work, not even for the dynamic array of
length 0: the generated top-level encode of `n = 0, values = []` never returns,
and neither does the generated no-preamble decoder on any buffer; with the
big-endian codec both stop with a MATLAB error.  For the struct `Grid`, all of
whose dimensions are constants, decode after encode gives the instance back. -/
theorem roundtrip_fails_for_dynamic_array :
    (∀ (codec : Codec) (fuel : Nat) (buf : Buf) (pos maxlen : Int) (r : Buf × Int),
      encode codec lcm_is_primitive_type [ex_Dyn] fuel ex_Dyn buf pos maxlen ex_dyn0 ≠ .ok r) ∧
    (∀ (codec : Codec) (fuel : Nat) (buf : Buf) (pos maxlen : Int) (S : Val)
        (r : Int × List Val),
      decode_nohash codec [ex_Dyn] fuel ex_Dyn buf pos maxlen [S] 1 ≠ .ok r) ∧
    encode be_codec lcm_is_primitive_type [ex_Dyn] 5 ex_Dyn [] 1 100 ex_dyn0 = .fault ∧
    decode be_codec lcm_is_primitive_type [ex_Dyn] 5 ex_Dyn
        [0, 0, 0, 0, 0, 0, 0xac, 0xf0, 0, 0, 0, 0] 1 100 ex_dyn0 = .fault ∧
    ((encode be_codec lcm_is_primitive_type [ex_Point, ex_Grid] 5 ex_Grid [] 1 100 ex_grid).bind
        fun r =>
          decode be_codec lcm_is_primitive_type [ex_Point, ex_Grid] 5 ex_Grid r.1 1 100
            ex_grid_new)
      = .ok (37, ex_grid) := by
  refine ⟨?_, ?_, by decide, by rfl, by rfl⟩
  · intro codec fuel buf pos maxlen r
    have hh : get_hash lcm_is_primitive_type [ex_Dyn] ex_Dyn = .ok (0, 44272) := by decide
    have hl : lookup [ex_Dyn] "int64" = none := by decide
    simp only [encode, hh, Run.ok_bind, call_encode_nohash, hl]
    cases codec.encode_nohash "int64" buf pos maxlen [.num ((0, 44272) : Hash).1,
        .num ((0, 44272) : Hash).2] 1 with
    | fault => simp
    | timeout => simp
    | ok st =>
      simp only [Run.ok_bind]
      cases fuel with
      | zero => simp [encode_nohash]
      | succ f =>
        have hm : ex_Dyn.members = [⟨unqualified "int32_t", "n", []⟩,
            ⟨unqualified "int32_t", "values", [⟨.LCM_VAR, "n"⟩]⟩] := rfl
        simp only [encode_nohash, hm, Int.toNat_one, for_loop, encode_members]
        cases encode_member (call_encode_nohash codec [ex_Dyn] (encode_nohash codec [ex_Dyn] f))
            maxlen [ex_dyn0] 1 ⟨unqualified "int32_t", "n", []⟩ (st.1, st.2) with
        | fault => simp
        | timeout => simp
        | ok st2 =>
          simp only [Run.ok_bind]
          cases h2 : encode_member
              (call_encode_nohash codec [ex_Dyn] (encode_nohash codec [ex_Dyn] f)) maxlen
              [ex_dyn0] 1 ⟨unqualified "int32_t", "values", [⟨.LCM_VAR, "n"⟩]⟩ st2 with
          | fault => simp
          | timeout => simp
          | ok st3 => exact absurd h2 (encode_member_dynamic_not_ok _ _ _ _ _ _)
  · intro codec fuel buf pos maxlen S r
    cases fuel with
    | zero => simp [decode_nohash]
    | succ f =>
      have hm : ex_Dyn.members = [⟨unqualified "int32_t", "n", []⟩,
          ⟨unqualified "int32_t", "values", [⟨.LCM_VAR, "n"⟩]⟩] := rfl
      simp only [decode_nohash, hm, Int.toNat_one, for_loop, decode_members]
      cases decode_member (call_decode_nohash codec [ex_Dyn] (decode_nohash codec [ex_Dyn] f))
          buf maxlen 1 ⟨unqualified "int32_t", "n", []⟩ (pos, [S]) with
      | fault => simp
      | timeout => simp
      | ok st2 =>
        simp only [Run.ok_bind]
        cases h2 : decode_member
            (call_decode_nohash codec [ex_Dyn] (decode_nohash codec [ex_Dyn] f)) buf maxlen 1
            ⟨unqualified "int32_t", "values", [⟨.LCM_VAR, "n"⟩]⟩ st2 with
        | fault => simp
        | timeout => simp
        | ok st3 => exact absurd h2 (decode_member_dynamic_not_ok _ _ _ _ _ _)

/-- C8 (the code at the failing input): for `Dyn { int32_t n; int32_t values[n]; }`
the element count the emitter prints for `values` is the bare name `n`, which no
generated procedure binds (it is neither `S(ix).n` nor `S.n`); encoding
`n = 3, values = [10, 20, 30]`, decoding the bytes that encoding should give,
and computing the size all stop with a MATLAB error. -/
theorem dynamic_extent_is_unbound :
    (emit_encode_nohash ex_Dyn).map Line.render
      = ["function [buf, pos] = Dyn_encode_nohash(buf, pos, maxlen, S, elems)",
         "    for ix = 1:elems",
         "        [buf, pos] = int32_encode_nohash(buf, pos, maxlen, S(ix).n, 1);",
         "        [buf, pos] = int32_encode_nohash(buf, pos, maxlen, S(ix).values(:), n);",
         "    end",
         "%endfunction",
         ""] ∧
    (emit_decode_nohash ex_Dyn).map Line.render
      = ["function [pos, S] = Dyn_decode_nohash(buf, pos, maxlen, S, elems)",
         "    for ix = 1:elems",
         "        [pos, t] = int32_decode_nohash(buf, pos, maxlen, S(ix).n, 1);",
         "        S(ix).n = t(1);",
         "        [pos, t] = int32_decode_nohash(buf, pos, maxlen, S(ix).values(:), n);",
         "        S(ix).values(:) = t(1:n);",
         "    end",
         "%endfunction"] ∧
    eval_size "n" = .fault ∧
    encode be_codec lcm_is_primitive_type [ex_Dyn] 5 ex_Dyn [] 1 100 ex_dyn = .fault ∧
    decode be_codec lcm_is_primitive_type [ex_Dyn] 5 ex_Dyn
        [0, 0, 0, 0, 0, 0, 0xac, 0xf0, 0, 0, 0, 3, 0, 0, 0, 10, 0, 0, 0, 20, 0, 0, 0, 30] 1 100
        (.struct [("n", .num 0), ("values", .arr [.num 0, .num 0, .num 0])]) = .fault ∧
    encodedSize be_codec [ex_Dyn] 5 ex_Dyn ex_dyn = .fault :=
  ⟨by decide, by decide, by decide, by decide, by rfl, by decide⟩

/-! ## The table of encoded sizes -/

/-- C14: `encoded_size` returns 1 for boolean, byte and int8_t, 2 for int16_t and uint16_t,
4 for int32_t, uint32_t and float, 8 for int64_t and double, and -1 for every other type
name, among them string. -/
theorem encoded_size_table (t : String) :
    encoded_size t =
      (if t ∈ ["boolean", "byte", "int8_t"] then 1
       else if t ∈ ["int16_t", "uint16_t"] then 2
       else if t ∈ ["int32_t", "uint32_t", "float"] then 4
       else if t ∈ ["int64_t", "double"] then 8
       else -1) ∧
    encoded_size "string" = -1 := by
  refine ⟨?_, by decide⟩
  by_cases h : encoded_size t > -1
  · rcases encoded_size_known h with h | h | h | h | h | h | h | h | h | h <;> subst h <;> decide
  · have hn : ∀ s, encoded_size s > -1 → t ≠ s := fun s hs e => h (e ▸ hs)
    have h1 := hn "boolean" (by decide)
    have h2 := hn "byte" (by decide)
    have h3 := hn "int8_t" (by decide)
    have h4 := hn "int16_t" (by decide)
    have h5 := hn "uint16_t" (by decide)
    have h6 := hn "int32_t" (by decide)
    have h7 := hn "uint32_t" (by decide)
    have h8 := hn "int64_t" (by decide)
    have h9 := hn "float" (by decide)
    have h10 := hn "double" (by decide)
    simp only [encoded_size, h1, h2, h3, h4, h5, h6, h7, h8, h9, h10, if_false, List.mem_cons,
      List.mem_singleton, or_self, List.not_mem_nil, or_false]

/-! ## `dots_to_double_colons` within its allocation -/

theorem set_at_length {α : Type} (pre : List α) (a x : α) (rest : List α) :
    (pre ++ a :: rest).set pre.length x = pre ++ x :: rest := by
  induction pre with
  | nil => rfl
  | cons b pre ih => simp [ih]

theorem double_colons_length (s : List Char) :
    (s.flatMap (fun c => if c = '.' then [':', ':'] else [c])).length = s.length + s.count '.' := by
  induction s with
  | nil => rfl
  | cons c s ih =>
    by_cases h : c = '.'
    · subst h; simp [List.flatMap_cons, ih]; omega
    · have : ¬ (c == '.') = true := by simpa using h
      simp [List.flatMap_cons, ih, h, List.count_cons, this]; omega

theorem dots_to_double_colons_loop_spec (s : List Char) :
    ∀ (pre : List Char) (k : Nat), 2 * s.length + 1 ≤ k →
      dots_to_double_colons_loop s (pre ++ List.replicate k nul) pre.length =
        some (pre ++ s.flatMap (fun c => if c = '.' then [':', ':'] else [c]) ++
                List.replicate (k - (s.length + s.count '.')) nul,
              pre.length + (s.length + s.count '.')) := by
  induction s with
  | nil => intro pre k _; simp [dots_to_double_colons_loop]
  | cons c s ih =>
    intro pre k hk
    simp only [List.length_cons] at hk
    obtain ⟨k2, rfl⟩ : ∃ k2, k = k2 + 2 := ⟨k - 2, by omega⟩
    by_cases h : c = '.'
    · subst h
      have h1 : pre.length + 1 < (pre ++ List.replicate (k2 + 2) nul).length := by simp
      have h2 : ((pre ++ List.replicate (k2 + 2) nul).set pre.length ':').set (pre.length + 1) ':'
          = (pre ++ [':', ':']) ++ List.replicate k2 nul := by
        rw [List.replicate_succ, set_at_length, List.replicate_succ]
        have := set_at_length (pre ++ [':']) nul ':' (List.replicate k2 nul)
        simp only [List.length_append, List.length_singleton, List.append_assoc,
          List.singleton_append] at this
        rw [this]; simp
      have h3 : pre.length + 2 = (pre ++ [':', ':']).length := by simp
      rw [dots_to_double_colons_loop, if_pos rfl, if_pos h1, h2, h3, ih _ k2 (by omega)]
      simp [List.flatMap_cons]
      constructor
      · omega
      · omega
    · have h1 : pre.length < (pre ++ List.replicate (k2 + 2) nul).length := by simp
      have h2 : (pre ++ List.replicate (k2 + 2) nul).set pre.length c
          = (pre ++ [c]) ++ List.replicate (k2 + 1) nul := by
        rw [List.replicate_succ, set_at_length]; simp
      have h3 : pre.length + 1 = (pre ++ [c]).length := by simp
      have hb : ¬ (c == '.') = true := by simpa using h
      rw [dots_to_double_colons_loop, if_neg h, if_pos h1, h2, h3, ih _ (k2 + 1) (by omega)]
      simp [List.flatMap_cons, h, List.count_cons, hb]
      constructor
      · omega
      · omega

theorem takeWhile_append_nul (xs rest : List Char) (h : nul ∉ xs) :
    (xs ++ nul :: rest).takeWhile (fun c => c ≠ nul) = xs := by
  induction xs with
  | nil => simp
  | cons x xs ih =>
    have hx : x ≠ nul := fun e => h (by simp [e])
    have hxs : nul ∉ xs := fun e => h (by simp [e])
    have := ih hxs
    simp only [ne_eq, decide_not] at this
    simp [List.takeWhile_cons, hx, this]

/-- C19: for every string `s`, the loop of `dots_to_double_colons` on its `2 * strlen(s) + 1`
zero bytes makes every write inside the allocation and stops at `q = len(s) + dots(s)`, which
is at most `2 * len(s)`; the bytes before `q` are `s` with every '.' replaced by "::" and every
other character kept in order, all bytes from `q` on are still zero (so the terminator fits),
the result holds no '.', and for an `s` without a zero byte it is the C string returned. -/
theorem dots_to_double_colons_fits (s : String) :
    ∃ p q, dots_to_double_colons_buffer s = some (p, q) ∧
      p.length = 2 * s.length + 1 ∧
      q = s.length + s.data.count '.' ∧ q ≤ 2 * s.length ∧
      p.take q = (dots_to_double_colons s).data ∧
      (dots_to_double_colons s).data
        = s.data.flatMap (fun c => if c = '.' then [':', ':'] else [c]) ∧
      (dots_to_double_colons s).length = s.length + s.data.count '.' ∧
      p.drop q = List.replicate (2 * s.length + 1 - q) nul ∧
      p.get? q = some nul ∧
      '.' ∉ (dots_to_double_colons s).data ∧
      (nul ∉ s.data → c_string p = (dots_to_double_colons s).data) := by
  have hl : s.length = s.data.length := rfl
  have hd : (dots_to_double_colons s).length = (dots_to_double_colons s).data.length := rfl
  have hspec := dots_to_double_colons_loop_spec s.data [] (2 * s.data.length + 1) (le_refl _)
  have hcount : s.data.count '.' ≤ s.data.length := List.count_le_length _ _
  have hlen := double_colons_length s.data
  simp only [List.nil_append, List.length_nil, Nat.zero_add] at hspec
  obtain ⟨m, hm⟩ : ∃ m, 2 * s.data.length + 1 - (s.data.length + s.data.count '.') = m + 1 :=
    ⟨2 * s.data.length - (s.data.length + s.data.count '.'), by omega⟩
  simp only [hl, hd, dots_to_double_colons_buffer]
  refine ⟨_, _, hspec, ?_, rfl, by omega, ?_, rfl, ?_, ?_, ?_, ?_, ?_⟩
  · simp only [List.length_append, hlen, List.length_replicate]; omega
  · rw [← hlen, List.take_left]; rfl
  · exact hlen
  · rw [← hlen, List.drop_left]
  · rw [hm, List.replicate_succ, ← hlen, List.get?_eq_getElem?,
      List.getElem?_append_right (le_refl _), Nat.sub_self]
    simp
  · simp only [dots_to_double_colons, List.mem_flatMap, not_exists, not_and]
    intro c _ hc
    by_cases h : c = '.'
    · simp [h] at hc
    · simp only [h, if_false, List.mem_singleton] at hc; exact h hc.symm
  · intro hnul
    rw [c_string, hm, List.replicate_succ]
    apply takeWhile_append_nul
    simp only [List.mem_flatMap, not_exists, not_and]
    intro c hc hin
    by_cases h : c = '.'
    · simp only [h, if_true, List.mem_cons, List.mem_singleton, or_self, List.not_mem_nil,
        or_false] at hin
      exact absurd hin (by decide)
    · simp only [h, if_false, List.mem_singleton] at hin
      exact hnul (hin ▸ hc)

/-! ## The cells the scan visits -/

/-- The trace of the scan over the records that precede `parents_len`. -/
theorem scan_trace_ancestry (tn : String) (rest : List Nat) :
    ∀ (anc : List String) (pre : List Nat) (fuel : Nat),
      (∀ a ∈ anc, a ≠ "") → anc.length < fuel →
      scan_trace fuel (pre ++ ancestry anc ++ rest) (pre.length + (ancestry anc).length) tn
        (pre.length + 1)
        = .ok (length_cells (up_to_first anc tn) (pre.length + 1), decide (tn ∉ anc)) := by
  intro anc
  induction anc with
  | nil =>
    intro pre fuel _ hf
    obtain ⟨f, rfl⟩ : ∃ f, fuel = f + 1 := ⟨fuel - 1, by simp at hf; omega⟩
    simp [scan_trace, ancestry, up_to_first, length_cells]
  | cons a anc ih =>
    intro pre fuel hne hf
    obtain ⟨f, rfl⟩ : ∃ f, fuel = f + 1 := ⟨fuel - 1, by simp at hf; omega⟩
    have hlen : 0 < a.length := length_pos_of_ne_empty (hne a (List.mem_cons_self _ _))
    have hnext := ih (pre ++ record a) f (fun b hb => hne b (List.mem_cons_of_mem _ hb))
      (by simp at hf; omega)
    have hshape : pre ++ ancestry (a :: anc) ++ rest
        = pre ++ a.length :: (a.data.map Char.toNat ++ (ancestry anc ++ rest)) := by
      rw [ancestry_cons]; simp [record]
    have hshape2 : (pre ++ record a) ++ ancestry anc ++ rest
        = pre ++ a.length :: (a.data.map Char.toNat ++ (ancestry anc ++ rest)) := by
      simp [record]
    have hix : (pre ++ record a).length + 1 = pre.length + 1 + a.length + 1 := by
      rw [List.length_append, record_length]; omega
    have hlen2 : (pre ++ record a).length + (ancestry anc).length
        = pre.length + (ancestry (a :: anc)).length := by
      rw [ancestry_cons]; simp only [List.length_append]; omega
    have hcs : (a.data.map Char.toNat).length = a.length := by
      rw [List.length_map, String.length_data]
    rw [hix, hlen2, hshape2] at hnext
    have hlt : pre.length + 1 < pre.length + (ancestry (a :: anc)).length := by
      rw [ancestry_cons, List.length_append, record_length]; omega
    rw [hshape, scan_trace, if_pos hlt, get_after]
    by_cases hl : tn.length = a.length
    · have hin : pre.length + 1 + a.length
          ≤ (pre ++ a.length :: (a.data.map Char.toNat ++ (ancestry anc ++ rest))).length := by
        simp only [List.length_append, List.length_cons, hcs]; omega
      have hslice := slice_after pre a.length (a.data.map Char.toNat) (ancestry anc ++ rest)
      rw [hcs] at hslice
      simp only [hl, if_true, if_pos hin, hslice]
      by_cases he : a.data.map Char.toNat = tn.data.map Char.toNat
      · have : a = tn := string_eq_of_cells he
        subst this
        simp [up_to_first, length_cells]
      · have hne2 : tn ≠ a := fun h => he (by rw [h])
        rw [if_neg he, hnext]
        simp [hne2, up_to_first, Ne.symm hne2, length_cells]
    · have hne2 : tn ≠ a := fun h => hl (by rw [h])
      simp only [hl, if_false]
      rw [hnext]
      simp [hne2, up_to_first, Ne.symm hne2, length_cells]

theorem up_to_first_of_not_mem (tn : String) :
    ∀ anc : List String, tn ∉ anc → up_to_first anc tn = anc
  | [], _ => rfl
  | a :: anc, h => by
    have ha : a ≠ tn := fun e => h (by simp [e])
    have hr : tn ∉ anc := fun e => h (by simp [e])
    simp [up_to_first, ha, up_to_first_of_not_mem tn anc hr]

theorem length_cells_within (tn : String) :
    ∀ (anc : List String) (ix : Nat), ∀ p ∈ length_cells (up_to_first anc tn) ix,
      ix ≤ p.1 ∧ p.1 + p.2 + 1 ≤ ix + (ancestry anc).length
  | [], _, p, hp => by simp [up_to_first, length_cells] at hp
  | a :: anc, ix, p, hp => by
    rw [ancestry_cons, List.length_append, record_length]
    by_cases ha : a = tn
    · simp only [up_to_first, ha, if_true, length_cells, List.mem_singleton] at hp
      subst hp; subst ha; simp only; omega
    · simp only [up_to_first, ha, if_false, length_cells, List.mem_cons] at hp
      rcases hp with hp | hp
      · subst hp; simp only; omega
      · have := length_cells_within tn anc (ix + a.length + 1) p hp
        omega

theorem length_cells_read (tn : String) (rest : List Nat) :
    ∀ (anc : List String) (pre : List Nat),
      ∀ p ∈ length_cells (up_to_first anc tn) (pre.length + 1),
        (pre ++ ancestry anc ++ rest).get? (p.1 - 1) = some p.2
  | [], _, p, hp => by simp [up_to_first, length_cells] at hp
  | a :: anc, pre, p, hp => by
    have hshape : pre ++ ancestry (a :: anc) ++ rest
        = pre ++ a.length :: (a.data.map Char.toNat ++ (ancestry anc ++ rest)) := by
      rw [ancestry_cons]; simp [record]
    have hshape2 : (pre ++ record a) ++ ancestry anc ++ rest
        = pre ++ a.length :: (a.data.map Char.toNat ++ (ancestry anc ++ rest)) := by
      simp [record]
    have hix : (pre ++ record a).length + 1 = pre.length + 1 + a.length + 1 := by
      rw [List.length_append, record_length]; omega
    have hhead : (pre ++ ancestry (a :: anc) ++ rest).get? (pre.length + 1 - 1)
        = some a.length := by rw [hshape]; exact get_after _ _ _
    by_cases ha : a = tn
    · simp only [up_to_first, ha, if_true, length_cells, List.mem_singleton] at hp
      subst hp; subst ha; exact hhead
    · simp only [up_to_first, ha, if_false, length_cells, List.mem_cons] at hp
      rcases hp with hp | hp
      · subst hp; exact hhead
      · have := length_cells_read tn rest anc (pre ++ record a) p (by rw [hix]; exact hp)
        rw [hshape2] at this
        rw [hshape]; exact this

/-- C18: for an ancestry made of the records of non-empty names, with the record of the
current struct appended after `parents_len` was taken, the emitted scan ends within
`parents_len + 1` iterations without reading outside the ancestry; the indices it visits are
the length cells of the entry records, in order, up to the first record equal to the name
sought (all of them when the name is absent); every record read ends within the first
`parents_len` cells, so the record appended for the current struct is never examined. -/
theorem scan_examines_entry_records (anc : List String) (sn tn : String)
    (hne : ∀ a ∈ anc, a ≠ "") :
    scan_trace ((ancestry anc).length + 1) (ancestry anc ++ record sn) (ancestry anc).length
        tn 1 = .ok (length_cells (up_to_first anc tn) 1, decide (tn ∉ anc)) ∧
    scan_parents ((ancestry anc).length + 1) (ancestry anc ++ record sn) (ancestry anc).length
        tn 1 = .ok (decide (tn ∉ anc)) ∧
    (∀ p ∈ length_cells (up_to_first anc tn) 1,
        1 ≤ p.1 ∧ p.1 + p.2 ≤ (ancestry anc).length ∧
        (ancestry anc ++ record sn).get? (p.1 - 1) = some p.2) ∧
    (tn ∉ anc → up_to_first anc tn = anc) ∧
    ((ancestry anc).length + 1, sn.length) ∉ length_cells (up_to_first anc tn) 1 := by
  have ht := scan_trace_ancestry tn (record sn) anc [] ((ancestry anc).length + 1) hne
    (by have := ancestry_length_ge anc; omega)
  simp only [List.nil_append, List.length_nil, Nat.zero_add] at ht
  have hw := length_cells_within tn anc 1
  refine ⟨ht, scan_parents_entry anc sn tn hne, ?_, up_to_first_of_not_mem tn anc, ?_⟩
  · intro p hp
    have := hw p hp
    refine ⟨this.1, by omega, ?_⟩
    have hr := length_cells_read tn (record sn) anc [] p hp
    simpa using hr
  · intro hin
    have := hw _ hin
    simp only at this
    omega

/-- Witness of C18: the ancestry of A and B on entry to C, scanned for B. -/
theorem scan_examines_entry_records_witness :
    scan_trace ((ancestry ["A", "B"]).length + 1) (ancestry ["A", "B"] ++ record "C")
        (ancestry ["A", "B"]).length "B" 1
      = .ok (length_cells (up_to_first ["A", "B"] "B") 1, decide ("B" ∉ ["A", "B"])) ∧
    scan_parents ((ancestry ["A", "B"]).length + 1) (ancestry ["A", "B"] ++ record "C")
        (ancestry ["A", "B"]).length "B" 1 = .ok (decide ("B" ∉ ["A", "B"])) ∧
    (∀ p ∈ length_cells (up_to_first ["A", "B"] "B") 1,
        1 ≤ p.1 ∧ p.1 + p.2 ≤ (ancestry ["A", "B"]).length ∧
        (ancestry ["A", "B"] ++ record "C").get? (p.1 - 1) = some p.2) ∧
    ("B" ∉ ["A", "B"] → up_to_first ["A", "B"] "B" = ["A", "B"]) ∧
    ((ancestry ["A", "B"]).length + 1, "C".length)
      ∉ length_cells (up_to_first ["A", "B"] "B") 1 :=
  scan_examines_entry_records ["A", "B"] "C" "B" (by decide)

/-! ## Balance of the emitted loops -/

theorem open_loops_append (l1 l2 : List Line) :
    ∀ st, open_loops (l1 ++ l2) st = (open_loops l1 st).bind fun mid => open_loops l2 mid := by
  induction l1 with
  | nil => intro st; simp [open_loops]
  | cons a l1 ih =>
    intro st
    cases a with
    | end_ n =>
      cases st with
      | nil => simp [open_loops]
      | cons m st =>
        by_cases h : m = n
        · simp [open_loops, h, ih]
        · simp [open_loops, h]
    | _ => simp [open_loops, ih]

theorem open_loops_fors (a : Nat) :
    ∀ (ds : List lcm_dimension) (k : Nat) (st : List Nat),
      open_loops ((ds.enumFrom k).map fun p => Line.for_dx (a + p.1) p.1 p.2.size) st
        = some ((List.range' (a + k) ds.length).reverse ++ st)
  | [], k, st => by simp [open_loops]
  | d :: ds, k, st => by
    simp only [List.enumFrom_cons, List.map_cons, open_loops, List.length_cons,
      List.range'_succ, List.reverse_cons, List.append_assoc, List.singleton_append]
    rw [open_loops_fors a ds (k + 1)]
    rfl

theorem open_loops_ends :
    ∀ (l st : List Nat), open_loops (l.map fun dx => Line.end_ dx) (l ++ st) = some st
  | [], st => by simp [open_loops]
  | n :: l, st => by simp [open_loops, open_loops_ends l st]

theorem open_loops_block (fors mid ends : List Line) (st loops : List Nat)
    (hf : open_loops fors st = some (loops ++ st))
    (hm : ∀ s, open_loops mid s = some s)
    (he : open_loops ends (loops ++ st) = some st) :
    open_loops (fors ++ mid ++ ends) st = some st := by
  simp [open_loops_append, hf, hm, he]

theorem open_loops_encode_member (lm : lcm_member) (st : List Nat) :
    open_loops (emit_encode_member lm) st = some st := by
  unfold emit_encode_member emit_for_each_dimension
  apply open_loops_block _ _ _ st (List.range' 2 (lm.dimensions.length - 1)).reverse
  · have := open_loops_fors 2 lm.dimensions.dropLast 0 st
    simpa [List.enum] using this
  · intro s; split <;> simp [open_loops]
  · exact open_loops_ends _ st

theorem open_loops_decode_member (lm : lcm_member) (st : List Nat) :
    open_loops (emit_decode_member lm) st = some st := by
  unfold emit_decode_member emit_for_each_dimension
  by_cases h : 0 = lm.dimensions.length
  · simp [h, open_loops]
  · have hends : (List.range' 1 (lm.dimensions.length - 1)).reverse.map
          (fun dx => Line.end_ (1 + dx))
        = (List.range' 2 (lm.dimensions.length - 1)).reverse.map fun dx => Line.end_ dx := by
      have : List.range' 2 (lm.dimensions.length - 1)
          = (List.range' 1 (lm.dimensions.length - 1)).map (1 + ·) := by
        rw [List.map_add_range']
      rw [this, ← List.map_reverse, List.map_map]
      rfl
    simp only [if_neg h, hends]
    apply open_loops_block _ _ _ st (List.range' 2 (lm.dimensions.length - 1)).reverse
    · have := open_loops_fors 2 lm.dimensions.dropLast 0 st
      simpa [List.enum] using this
    · intro s; simp [open_loops]
    · exact open_loops_ends _ st

theorem open_loops_encoded_size_member (lm : lcm_member) (st : List Nat) :
    open_loops (emit_encoded_size_member lm) st = some st := by
  unfold emit_encoded_size_member
  by_cases hk : encoded_size (dots_to_double_colons lm.type.lctypename) > -1
  · simp [hk, open_loops]
  · by_cases h : 0 = lm.dimensions.length
    · simp [hk, h, open_loops]
    · simp only [hk, if_false, if_neg h]
      apply open_loops_block _ _ _ st (List.range' 1 lm.dimensions.length).reverse
      · have := open_loops_fors 1 lm.dimensions 0 st
        simpa [List.enum] using this
      · intro s; simp [open_loops]
      · exact open_loops_ends _ st

theorem open_loops_flatMap (f : lcm_member → List Line)
    (hf : ∀ lm st, open_loops (f lm) st = some st) :
    ∀ (ms : List lcm_member) (st : List Nat), open_loops (ms.flatMap f) st = some st
  | [], st => by simp [open_loops]
  | lm :: ms, st => by
    rw [List.flatMap_cons, open_loops_append, hf]
    exact open_loops_flatMap f hf ms st

theorem open_loops_counts :
    ∀ (lines : List Line) (st st2 : List Nat), open_loops lines st = some st2 →
      st2.length + lines.countP Line.is_end = st.length + lines.countP Line.is_for := by
  intro lines
  induction lines with
  | nil => intro st st2 h; simp [open_loops] at h; subst h; simp
  | cons a lines ih =>
    intro st st2 h
    cases a with
    | end_ n =>
      cases st with
      | nil => simp [open_loops] at h
      | cons m st =>
        by_cases hmn : m = n
        · simp only [open_loops, hmn, if_true] at h
          have := ih st st2 h
          simp [List.countP_cons, Line.is_end, Line.is_for]; omega
        · simp [open_loops, hmn] at h
    | for_ix n =>
      simp only [open_loops] at h
      have := ih _ st2 h
      simp [List.countP_cons, Line.is_end, Line.is_for] at this ⊢; omega
    | for_dx n dx size =>
      simp only [open_loops] at h
      have := ih _ st2 h
      simp [List.countP_cons, Line.is_end, Line.is_for] at this ⊢; omega
    | _ =>
      simp only [open_loops] at h
      have := ih _ st2 h
      simp [List.countP_cons, Line.is_end, Line.is_for] at this ⊢; omega

theorem balanced_of_open_loops (lines : List Line) (h : open_loops lines [] = some []) :
    lines.countP Line.is_end = lines.countP Line.is_for ∧
    ∀ i, (lines.take i).countP Line.is_end ≤ (lines.take i).countP Line.is_for := by
  refine ⟨by simpa using open_loops_counts lines [] [] h, fun i => ?_⟩
  have hsplit : open_loops (lines.take i ++ lines.drop i) [] = some [] := by
    rw [List.take_append_drop]; exact h
  rw [open_loops_append] at hsplit
  cases hp : open_loops (lines.take i) [] with
  | none => simp [hp] at hsplit
  | some mid =>
    have := open_loops_counts _ [] mid hp
    simp at this
    omega

theorem text_of_member_blocks (f : lcm_member → List Line)
    (hf : ∀ lm n s, Line.text n s ∉ f lm) (ms : List lcm_member) (n : Nat) (s : String) :
    Line.text n s ∉ ms.flatMap f := by
  simp only [List.mem_flatMap, not_exists, not_and]
  exact fun lm _ => hf lm n s

theorem no_text_encode_member (lm : lcm_member) (n : Nat) (s : String) :
    Line.text n s ∉ emit_encode_member lm := by
  simp only [emit_encode_member, emit_for_each_dimension]
  by_cases h : 0 = lm.dimensions.length <;> simp [h]

theorem no_text_decode_member (lm : lcm_member) (n : Nat) (s : String) :
    Line.text n s ∉ emit_decode_member lm := by
  simp only [emit_decode_member, emit_for_each_dimension]
  by_cases h : 0 = lm.dimensions.length <;> simp [h]

theorem no_text_encoded_size_member (lm : lcm_member) (n : Nat) (s : String) :
    Line.text n s ∉ emit_encoded_size_member lm := by
  simp only [emit_encoded_size_member]
  by_cases hk : encoded_size (dots_to_double_colons lm.type.lctypename) > -1
  · simp [hk]
  · by_cases h : 0 = lm.dimensions.length <;> simp [hk, h]

theorem starts_function (head pre tail : String) (sn : String)
    (h : head = "function " ++ pre) :
    ∃ rest, head ++ sn ++ tail = "function " ++ rest :=
  ⟨pre ++ sn ++ tail, by rw [h, String.append_assoc, String.append_assoc, String.append_assoc]⟩

/-- C17: for every struct, each of the emitted `encode_nohash`, `decode_nohash` and
`encodedSize_nohash` procedures has balanced loops: read in order, every `end` line closes
the innermost open `for` and stands at its indentation, and no loop is left open; so there
are as many `end` lines as `for` lines and no prefix has more `end` than `for` lines. The
lines of text beside them are the `function` line, `%endfunction`, the empty line and
`s = uint32(0);`. -/
theorem loops_balanced (ls : lcm_struct) :
    ∀ lines ∈ [emit_encode_nohash ls, emit_decode_nohash ls, emit_encoded_size_nohash ls],
      open_loops lines [] = some [] ∧
      lines.countP Line.is_end = lines.countP Line.is_for ∧
      (∀ i, (lines.take i).countP Line.is_end ≤ (lines.take i).countP Line.is_for) ∧
      (∀ n s, Line.text n s ∈ lines →
        (∃ rest, s = "function " ++ rest) ∨ s ∈ ["%endfunction", "", "s = uint32(0);"]) := by
  have key : ∀ lines : List Line, open_loops lines [] = some [] →
      (∀ n s, Line.text n s ∈ lines →
        (∃ rest, s = "function " ++ rest) ∨ s ∈ ["%endfunction", "", "s = uint32(0);"]) →
      open_loops lines [] = some [] ∧
      lines.countP Line.is_end = lines.countP Line.is_for ∧
      (∀ i, (lines.take i).countP Line.is_end ≤ (lines.take i).countP Line.is_for) ∧
      (∀ n s, Line.text n s ∈ lines →
        (∃ rest, s = "function " ++ rest) ∨ s ∈ ["%endfunction", "", "s = uint32(0);"]) :=
    fun lines h ht => ⟨h, (balanced_of_open_loops lines h).1, (balanced_of_open_loops lines h).2, ht⟩
  intro lines hl
  simp only [List.mem_cons, List.mem_singleton, List.not_mem_nil, or_false] at hl
  rcases hl with rfl | rfl | rfl
  · apply key
    · simp [emit_encode_nohash, open_loops, open_loops_append,
        open_loops_flatMap _ open_loops_encode_member]
    · intro n s h
      have hm := text_of_member_blocks _ no_text_encode_member ls.members n s
      simp only [emit_encode_nohash, List.mem_append, List.mem_cons, List.mem_singleton,
        Line.text.injEq, List.not_mem_nil, or_false, hm, false_or, reduceCtorEq] at h
      rcases h with ⟨_, rfl⟩ | ⟨_, rfl⟩ | ⟨_, rfl⟩
      · exact Or.inl (starts_function _ "[buf, pos] = " _ _ (by decide))
      · simp
      · simp
  · apply key
    · simp [emit_decode_nohash, open_loops, open_loops_append,
        open_loops_flatMap _ open_loops_decode_member]
    · intro n s h
      have hm := text_of_member_blocks _ no_text_decode_member ls.members n s
      simp only [emit_decode_nohash, List.mem_append, List.mem_cons, List.mem_singleton,
        Line.text.injEq, List.not_mem_nil, or_false, hm, false_or, reduceCtorEq] at h
      rcases h with ⟨_, rfl⟩ | ⟨_, rfl⟩
      · exact Or.inl (starts_function _ "[pos, S] = " _ _ (by decide))
      · simp
  · apply key
    · simp [emit_encoded_size_nohash, open_loops, open_loops_append,
        open_loops_flatMap _ open_loops_encoded_size_member]
    · intro n s h
      have hm := text_of_member_blocks _ no_text_encoded_size_member ls.members n s
      simp only [emit_encoded_size_nohash, List.mem_append, List.mem_cons, List.mem_singleton,
        Line.text.injEq, List.not_mem_nil, or_false, hm, false_or, reduceCtorEq] at h
      rcases h with (⟨_, rfl⟩ | ⟨_, rfl⟩) | ⟨_, rfl⟩ | ⟨_, rfl⟩
      · exact Or.inl (starts_function _ "s = " _ _ (by decide))
      · simp
      · simp
      · simp

/-- Witness of C17: the size procedure of `Grid`, with one loop around the call for
`Point corners[2]`. -/
theorem loops_balanced_witness :
    emit_encoded_size_nohash ex_Grid
      ∈ [emit_encode_nohash ex_Grid, emit_decode_nohash ex_Grid,
          emit_encoded_size_nohash ex_Grid] ∧
    (emit_encoded_size_nohash ex_Grid).map Line.render
      = ["function s = Grid_encodedSize_nohash(S)",
         "    s = uint32(0);",
         "    s = s + 2 * 2 * 3;",
         "    for dx0 = 1:2",
         "        s = s + Point_encodedSize_nohash(S.corners(dx0));",
         "    end",
         "%endfunction",
         ""] ∧
    open_loops (emit_encoded_size_nohash ex_Grid) [] = some [] ∧
    (emit_encoded_size_nohash ex_Grid).countP Line.is_end
      = (emit_encoded_size_nohash ex_Grid).countP Line.is_for :=
  have hmem : emit_encoded_size_nohash ex_Grid
      ∈ [emit_encode_nohash ex_Grid, emit_decode_nohash ex_Grid,
          emit_encoded_size_nohash ex_Grid] := by simp
  have h := loops_balanced ex_Grid (emit_encoded_size_nohash ex_Grid) hmem
  ⟨hmem, by decide, h.1, h.2.1⟩

/-! ## The size procedures, line by line -/

theorem known_type_no_dots {t : String} (h : encoded_size t > -1) :
    dots_to_double_colons t = t := by
  rcases encoded_size_known h with h | h | h | h | h | h | h | h | h | h <;> subst h <;> decide

/-- C11: for a member whose type is a primitive of known width `w` and whose dimensions are
all constant extents `d1..dk` (none included), `emit_encoded_size_nohash` prints the one line
`s = s + w * d1 * ... * dk;` and no `for` line, and the generated line adds `w * d1 * ... * dk`
to the `uint32` sum; for `Point { int32_t x; int32_t y; }` the procedure is two such lines,
the no-preamble size of every instance is 8 and the top-level size 16. -/
theorem known_size_closed_form (call : String → Val → Run Nat) (S : Val) (lm : lcm_member)
    (s : Nat) (ns : List Nat) (hk : encoded_size lm.type.lctypename > -1)
    (hns : extents lm.dimensions = some ns) :
    emit_encoded_size_member lm
      = [.size_known 1 (encoded_size lm.type.lctypename) (lm.dimensions.map fun dim => dim.size)] ∧
    (∀ line ∈ emit_encoded_size_member lm, line.is_for = false ∧ line.callee = none) ∧
    encodedSize_member call S lm s
      = .ok (uint32_sat (s + (encoded_size lm.type.lctypename).toNat * ns.prod)) ∧
    (emit_encoded_size_nohash ex_Point).map Line.render
      = ["function s = Point_encodedSize_nohash(S)",
         "    s = uint32(0);",
         "    s = s + 4;",
         "    s = s + 4;",
         "%endfunction",
         ""] ∧
    (∀ (codec : Codec) (structs : List lcm_struct) (fuel : Nat) (x : Val),
      encodedSize_nohash codec structs (fuel + 1) ex_Point x = .ok 8 ∧
      encodedSize codec structs (fuel + 1) ex_Point x = .ok 16) := by
  have hd := known_type_no_dots hk
  have hk2 : encoded_size (dots_to_double_colons lm.type.lctypename) > -1 := by rw [hd]; exact hk
  have hlines : emit_encoded_size_member lm
      = [.size_known 1 (encoded_size lm.type.lctypename)
          (lm.dimensions.map fun dim => dim.size)] := by
    simp only [emit_encoded_size_member, hd, if_pos hk]
  refine ⟨hlines, ?_, ?_, by decide, ?_⟩
  · intro line hl
    rw [hlines, List.mem_singleton] at hl
    subst hl
    exact ⟨rfl, rfl⟩
  · have := encodedSize_member_known call S lm s ns hns hk2
    rw [hd] at this
    exact this
  · intro codec structs fuel x
    have h8 : encodedSize_nohash codec structs (fuel + 1) ex_Point x = .ok 8 := by
      simp [encodedSize_nohash, ex_Point, encodedSize_members, encodedSize_member, unqualified,
        dots_to_double_colons, encoded_size, size_product, uint32_sat]
    refine ⟨h8, ?_⟩
    simp [encodedSize, h8, uint32_sat]

/-- Witness of C11: the member `int16_t cells[2][3]` of `Grid`. -/
theorem known_size_closed_form_witness :
    emit_encoded_size_member ⟨unqualified "int16_t", "cells", [⟨.LCM_CONST, "2"⟩, ⟨.LCM_CONST, "3"⟩]⟩
      = [.size_known 1 2 ["2", "3"]] ∧
    (emit_encoded_size_member
        ⟨unqualified "int16_t", "cells", [⟨.LCM_CONST, "2"⟩, ⟨.LCM_CONST, "3"⟩]⟩).map Line.render
      = ["    s = s + 2 * 2 * 3;"] ∧
    encodedSize_member (fun _ _ => .fault) ex_grid
        ⟨unqualified "int16_t", "cells", [⟨.LCM_CONST, "2"⟩, ⟨.LCM_CONST, "3"⟩]⟩ 0
      = .ok 12 :=
  have h := known_size_closed_form (fun _ _ => .fault) ex_grid
    ⟨unqualified "int16_t", "cells", [⟨.LCM_CONST, "2"⟩, ⟨.LCM_CONST, "3"⟩]⟩ 0 [2, 3]
    (by decide) (by decide)
  ⟨h.1, by decide, h.2.2.1⟩

/-- C12 (counterexample): the member `int32_t values[n]` of `Dyn` has a dynamic dimension, yet
the size procedure gets the one line `s = s + 4 * n;` for it and no loop. -/
theorem dynamic_primitive_has_no_loop :
    ex_Dyn.members.get? 1 = some ⟨unqualified "int32_t", "values", [⟨.LCM_VAR, "n"⟩]⟩ ∧
    (emit_encoded_size_member ⟨unqualified "int32_t", "values", [⟨.LCM_VAR, "n"⟩]⟩).map Line.render
      = ["    s = s + 4 * n;"] ∧
    (emit_encoded_size_member
      ⟨unqualified "int32_t", "values", [⟨.LCM_VAR, "n"⟩]⟩).countP Line.is_for = 0 ∧
    (emit_encoded_size_nohash ex_Dyn).map Line.render
      = ["function s = Dyn_encodedSize_nohash(S)",
         "    s = uint32(0);",
         "    s = s + 4;",
         "    s = s + 4 * n;",
         "%endfunction",
         ""] := by
  decide

/-- C12 (amended): for every member whose type has no known width (`encoded_size` gives -1: the
compound types and `string`), whatever its dimensions, the size procedure gets one `for` line
for each dimension, in declaration order and each nested one level deeper than the one before,
around one line that adds the no-preamble size of the single indexed element, and the `end`
lines; with constant extents the generated lines add the size of each element in row-major
order. A member of a type of known width gets the closed-form line and no loop, also when a
dimension is dynamic. -/
theorem unknown_size_member_loops (lm : lcm_member)
    (hk : ¬ encoded_size (dots_to_double_colons lm.type.lctypename) > -1) :
    emit_encoded_size_member lm
      = (lm.dimensions.enum.map fun p => Line.for_dx (1 + p.1) p.1 p.2.size)
        ++ [.size_call (1 + lm.dimensions.length)
              (map_type_name (dots_to_double_colons lm.type.lctypename)) lm.membername
              (if lm.dimensions = [] then none else some (List.range lm.dimensions.length))]
        ++ (List.range' 1 lm.dimensions.length).reverse.map (fun dx => Line.end_ dx) ∧
    (emit_encoded_size_member lm).filter Line.is_for
      = (lm.dimensions.enum.map fun p => Line.for_dx (1 + p.1) p.1 p.2.size) ∧
    (emit_encoded_size_member lm).countP Line.is_for = lm.dimensions.length ∧
    callees (emit_encoded_size_member lm)
      = [map_type_name (dots_to_double_colons lm.type.lctypename) ++ "_encodedSize_nohash"] ∧
    (∀ (call : String → Val → Run Nat) (S v : Val) (s : Nat) (ns : List Nat),
      extents lm.dimensions = some ns → S.field lm.membername = .ok v → has_shape ns v = true →
      encodedSize_member call S lm s
        = run_all
            (fun e s =>
              (call (map_type_name (dots_to_double_colons lm.type.lctypename)) e).bind fun n =>
                .ok (uint32_sat (s + n)))
            (leaves ns v) s) ∧
    (∀ lm2 : lcm_member, encoded_size (dots_to_double_colons lm2.type.lctypename) > -1 →
      emit_encoded_size_member lm2
        = [.size_known 1 (encoded_size (dots_to_double_colons lm2.type.lctypename))
            (lm2.dimensions.map fun dim => dim.size)]) := by
  have hlines : emit_encoded_size_member lm
      = (lm.dimensions.enum.map fun p => Line.for_dx (1 + p.1) p.1 p.2.size)
        ++ [.size_call (1 + lm.dimensions.length)
              (map_type_name (dots_to_double_colons lm.type.lctypename)) lm.membername
              (if lm.dimensions = [] then none else some (List.range lm.dimensions.length))]
        ++ (List.range' 1 lm.dimensions.length).reverse.map (fun dx => Line.end_ dx) := by
    simp only [emit_encoded_size_member, if_neg hk]
    by_cases h : lm.dimensions = []
    · simp [h, List.enum]
    · have h0 : ¬ 0 = lm.dimensions.length := fun e => h (List.length_eq_zero.mp e.symm)
      simp [h, h0]
  have hfilter : (emit_encoded_size_member lm).filter Line.is_for
      = (lm.dimensions.enum.map fun p => Line.for_dx (1 + p.1) p.1 p.2.size) := by
    rw [hlines, List.filter_append, List.filter_append]
    have h1 : ((lm.dimensions.enum.map fun p => Line.for_dx (1 + p.1) p.1 p.2.size)).filter
        Line.is_for = (lm.dimensions.enum.map fun p => Line.for_dx (1 + p.1) p.1 p.2.size) := by
      rw [List.filter_eq_self]
      intro a ha
      obtain ⟨p, _, rfl⟩ := List.mem_map.mp ha
      rfl
    have h2 : ((List.range' 1 lm.dimensions.length).reverse.map (fun dx => Line.end_ dx)).filter
        Line.is_for = [] := by
      rw [List.filter_eq_nil_iff]
      intro a ha
      obtain ⟨p, _, rfl⟩ := List.mem_map.mp ha
      simp [Line.is_for]
    rw [h1, h2]
    simp [Line.is_for]
  refine ⟨hlines, hfilter, ?_, ?_, ?_, ?_⟩
  · rw [List.countP_eq_length_filter, hfilter]; simp [List.enum]
  · rw [hlines]
    simp only [callees, List.filterMap_append, List.filterMap_map]
    have h1 : List.filterMap (Line.callee ∘ fun p : Nat × lcm_dimension =>
        Line.for_dx (1 + p.1) p.1 p.2.size) lm.dimensions.enum = [] := by
      rw [List.filterMap_eq_nil_iff]; intro a _; rfl
    have h2 : List.filterMap (Line.callee ∘ fun dx => Line.end_ dx)
        (List.range' 1 lm.dimensions.length).reverse = [] := by
      rw [List.filterMap_eq_nil_iff]; intro a _; rfl
    rw [h1, h2]
    simp [Line.callee]
  · intro call S v s ns hns hv hs
    exact encodedSize_member_struct call S lm s ns v hns hk hv hs
  · intro lm2 h2
    simp only [emit_encoded_size_member, if_pos h2]

/-- Witness of C12: the member `Point corners[2]` of `Grid`. -/
theorem unknown_size_member_loops_witness :
    ¬ encoded_size (dots_to_double_colons "Point") > -1 ∧
    (emit_encoded_size_member ⟨unqualified "Point", "corners", [⟨.LCM_CONST, "2"⟩]⟩).map
        Line.render
      = ["    for dx0 = 1:2",
         "        s = s + Point_encodedSize_nohash(S.corners(dx0));",
         "    end"] ∧
    (emit_encoded_size_member
      ⟨unqualified "Point", "corners", [⟨.LCM_CONST, "2"⟩]⟩).countP Line.is_for = 1 ∧
    callees (emit_encoded_size_member ⟨unqualified "Point", "corners", [⟨.LCM_CONST, "2"⟩]⟩)
      = ["Point_encodedSize_nohash"] :=
  have h := unknown_size_member_loops ⟨unqualified "Point", "corners", [⟨.LCM_CONST, "2"⟩]⟩
    (by decide)
  ⟨by decide, by decide, h.2.2.1, h.2.2.2.1⟩

/-- C13 (counterexample): for `Big { int32_t a[1073741824]; }` the generated no-preamble size
is 4294967295, the largest `uint32`, and the generated top-level size, `uint32(8)` plus that,
is 4294967295 too: not 8 more than the no-preamble size. -/
theorem top_level_size_not_eight_more :
    (emit_encoded_size ex_Big).map Line.render
      = ["function bytes = Big_encodedSize(S)",
         "    bytes = uint32(8) + Big_encodedSize_nohash(S);",
         "%endfunction",
         ""] ∧
    encodedSize_nohash counting_codec [ex_Big] 1 ex_Big ex_big = .ok 4294967295 ∧
    encodedSize counting_codec [ex_Big] 1 ex_Big ex_big = .ok 4294967295 ∧
    (4294967295 : Nat) ≠ 8 + 4294967295 := by
  decide

theorem callees_append (a b : List Line) : callees (a ++ b) = callees a ++ callees b := by
  simp [callees, List.filterMap_append]

theorem callees_flatMap (f : lcm_member → List Line) (g : lcm_member → List String)
    (h : ∀ lm, callees (f lm) = g lm) :
    ∀ ms : List lcm_member, callees (ms.flatMap f) = ms.flatMap g
  | [] => rfl
  | lm :: ms => by
    rw [List.flatMap_cons, callees_append, h, callees_flatMap f g h ms, List.flatMap_cons]

theorem callees_map_none {α : Type} (f : α → Line) (h : ∀ a, (f a).callee = none) (l : List α) :
    callees (l.map f) = [] := by
  simp only [callees, List.filterMap_map, List.filterMap_eq_nil_iff]
  intro a _
  exact h a

theorem callees_fors (a : Nat) (l : List (Nat × lcm_dimension)) :
    callees (l.map fun p => Line.for_dx (a + p.1) p.1 p.2.size) = [] :=
  callees_map_none (fun p : Nat × lcm_dimension => Line.for_dx (a + p.1) p.1 p.2.size)
    (fun _ => rfl) l

theorem callees_ends (g : Nat → Nat) (l : List Nat) :
    callees (l.map fun dx => Line.end_ (g dx)) = [] :=
  callees_map_none (fun dx : Nat => Line.end_ (g dx)) (fun _ => rfl) l

theorem callees_encode_member (lm : lcm_member) :
    callees (emit_encode_member lm)
      = [map_type_name (dots_to_double_colons lm.type.lctypename) ++ "_encode_nohash"] := by
  simp only [emit_encode_member, emit_for_each_dimension, callees_append]
  rw [callees_fors, callees_ends (fun dx => dx)]
  by_cases h : 0 = lm.dimensions.length <;> simp [h, callees, Line.callee]

theorem callees_decode_member (lm : lcm_member) :
    callees (emit_decode_member lm)
      = [map_type_name (dots_to_double_colons lm.type.lctypename) ++ "_decode_nohash"] := by
  simp only [emit_decode_member, emit_for_each_dimension]
  by_cases h : 0 = lm.dimensions.length
  · simp [h, callees, Line.callee]
  · simp only [if_neg h, callees_append]
    rw [callees_fors, callees_ends]
    simp [callees, Line.callee]

theorem callees_encoded_size_member (lm : lcm_member) :
    callees (emit_encoded_size_member lm)
      = if encoded_size (dots_to_double_colons lm.type.lctypename) > -1 then []
        else [map_type_name (dots_to_double_colons lm.type.lctypename)
                ++ "_encodedSize_nohash"] := by
  simp only [emit_encoded_size_member]
  by_cases hk : encoded_size (dots_to_double_colons lm.type.lctypename) > -1
  · simp [hk, callees, Line.callee]
  · by_cases h : 0 = lm.dimensions.length
    · simp [hk, h, callees, Line.callee]
    · simp only [if_neg hk, if_neg h, callees_append]
      rw [callees_fors, callees_ends]
      simp [callees, Line.callee]

theorem indent_text (n : Nat) (head pre sn tail : String) (h : indentation n ++ pre = head) :
    indentation n ++ (pre ++ sn ++ tail) = head ++ sn ++ tail := by
  rw [← h, String.append_assoc, String.append_assoc, String.append_assoc]

theorem indent_zero (s : String) : indentation 0 ++ s = s := by
  have : indentation 0 = "" := by decide
  rw [this, String.empty_append]

theorem flatMap_singleton_map {α β : Type} (g : α → β) :
    ∀ l : List α, (l.flatMap fun a => [g a]) = l.map g
  | [] => rfl
  | a :: l => by rw [List.flatMap_cons, flatMap_singleton_map g l]; rfl

theorem flatMap_unless_map {α β : Type} (c : α → Prop) [DecidablePred c] (g : α → β) :
    ∀ l : List α,
      (l.flatMap fun a => if c a then [] else [g a]) = (l.filter fun a => ¬ c a).map g
  | [] => rfl
  | a :: l => by
    rw [List.flatMap_cons, flatMap_unless_map c g l]
    by_cases h : c a <;> simp [h]

/-- C13 (amended): for every struct, the generated top-level size is `uint32(8)` plus the
no-preamble size in saturating `uint32` arithmetic, exactly 8 more whenever that sum is below
2^32; the generated top-level encode writes the fingerprint first (8 bytes with a codec of
fixed widths) and then runs the no-preamble encoder once, on the one instance with element
count 1; and the procedures called for the members inside the no-preamble encode, decode and
size procedures are, one for each member (for the size: each member without known width),
`<type>_encode_nohash`, `<type>_decode_nohash` and `<type>_encodedSize_nohash`. -/
theorem preamble_only_at_top_level (codec : Codec) (prim : String → Bool)
    (structs : List lcm_struct) (fuel : Nat) (ls : lcm_struct) (S : Val) (buf : Buf)
    (pos maxlen : Int) :
    encodedSize codec structs fuel ls S
      = ((encodedSize_nohash codec structs fuel ls S).bind fun n => .ok (uint32_sat (8 + n))) ∧
    (∀ n, encodedSize_nohash codec structs fuel ls S = .ok n → 8 + n < 2 ^ 32 →
      encodedSize codec structs fuel ls S = .ok (8 + n)) ∧
    encode codec prim structs fuel ls buf pos maxlen S
      = ((get_hash prim structs ls).bind fun hash =>
          (call_encode_nohash codec structs (encode_nohash codec structs fuel) "int64" buf pos
            maxlen [.num hash.1, .num hash.2] 1).bind fun st =>
            encode_nohash codec structs fuel ls st.1 st.2 maxlen [S] 1) ∧
    (writes_fixed_width codec → lookup structs "int64" = none → ∀ hash : Hash, ∃ b,
      call_encode_nohash codec structs (encode_nohash codec structs fuel) "int64" buf pos
        maxlen [.num hash.1, .num hash.2] 1 = .ok (b, pos + 8)) ∧
    (emit_encoded_size ls).map Line.render
      = ["function bytes = " ++ ls.structname.shortname ++ "_encodedSize(S)",
         "    bytes = uint32(8) + " ++ ls.structname.shortname ++ "_encodedSize_nohash(S);",
         "%endfunction",
         ""] ∧
    (emit_encode ls).map Line.render
      = ["function [buf, pos] = " ++ ls.structname.shortname ++ "_encode(buf, pos, maxlen, S)",
         "    hash = " ++ ls.structname.shortname ++ "_hash();",
         "    [buf, pos] = int64_encode_nohash(buf, pos, maxlen, hash, 1);",
         "    [buf, pos] = " ++ ls.structname.shortname
           ++ "_encode_nohash(buf, pos, maxlen, S, 1);",
         "%endfunction",
         ""] ∧
    callees (emit_encode_nohash ls)
      = ls.members.map (fun lm =>
          map_type_name (dots_to_double_colons lm.type.lctypename) ++ "_encode_nohash") ∧
    callees (emit_decode_nohash ls)
      = ls.members.map (fun lm =>
          map_type_name (dots_to_double_colons lm.type.lctypename) ++ "_decode_nohash") ∧
    callees (emit_encoded_size_nohash ls)
      = (ls.members.filter fun lm =>
          ¬ encoded_size (dots_to_double_colons lm.type.lctypename) > -1).map (fun lm =>
          map_type_name (dots_to_double_colons lm.type.lctypename) ++ "_encodedSize_nohash") := by
  refine ⟨rfl, ?_, rfl, ?_, ?_, ?_, ?_, ?_, ?_⟩
  · intro n hn hlt
    rw [encodedSize, hn, Run.ok_bind, uint32_sat_of_le (by omega)]
  · intro hcodec hint64 hash
    obtain ⟨b, hb⟩ := hcodec "int64_t" (by decide) buf pos maxlen [.num hash.1, .num hash.2] 1
    refine ⟨b, ?_⟩
    have hname : map_type_name "int64_t" = "int64" := by decide
    have hw : (encoded_size "int64_t").toNat = 8 := by decide
    rw [hname, hw] at hb
    simp only [call_encode_nohash, hint64]
    simp only [Nat.cast_one] at hb
    rw [hb]
    norm_num
  · simp only [emit_encoded_size, List.map, Line.render, indent_zero]
    rw [indent_text 1 "    bytes = uint32(8) + " _ _ _ (by decide)]
  · simp only [emit_encode, List.map, Line.render, indent_zero]
    rw [indent_text 1 "    hash = " _ _ _ (by decide),
      indent_text 1 "    [buf, pos] = " _ _ _ (by decide)]
    have : indentation 1 ++ "[buf, pos] = int64_encode_nohash(buf, pos, maxlen, hash, 1);"
        = "    [buf, pos] = int64_encode_nohash(buf, pos, maxlen, hash, 1);" := by decide
    rw [this]
  · simp only [emit_encode_nohash, callees_append,
      callees_flatMap _ _ callees_encode_member, flatMap_singleton_map]
    simp [callees, Line.callee]
  · simp only [emit_decode_nohash, callees_append,
      callees_flatMap _ _ callees_decode_member, flatMap_singleton_map]
    simp [callees, Line.callee]
  · simp only [emit_encoded_size_nohash, callees_append,
      callees_flatMap _ _ callees_encoded_size_member]
    rw [flatMap_unless_map (fun lm : lcm_member =>
      encoded_size (dots_to_double_colons lm.type.lctypename) > -1)]
    simp [callees, Line.callee]

/-! ## Names with and without a package -/

theorem flatMap_no_dots : ∀ l : List Char, '.' ∉ l →
    l.flatMap (fun c => if c = '.' then [':', ':'] else [c]) = l
  | [], _ => rfl
  | c :: l, h => by
    have hc : c ≠ '.' := fun e => h (by simp [e])
    have hl : '.' ∉ l := fun e => h (by simp [e])
    rw [List.flatMap_cons, flatMap_no_dots l hl, if_neg hc]
    rfl

theorem dots_to_double_colons_no_dots {s : String} (h : '.' ∉ s.data) :
    dots_to_double_colons s = s := by
  rw [dots_to_double_colons, flatMap_no_dots _ h]

/-- C15 (counterexample): in package `pkg` with `P { Q q; }` and `Q { P p; }`, the
`computeHash` of `Q` appends the pair (1, 'Q') for itself while that of `P` compares the
ancestry with the pair (6, 'pkg::Q'); in `Q` entered from `P` the scan for the member of type
`pkg.P` does not find `P` on the call path. And without any package, in `T { T t; }` entered
at the top level, the scan does not find `T`, the struct of the current activation. -/
theorem qualified_record_not_recognised :
    Line.append_record 1 1 "Q" ∈ emit_compute_hash lcm_is_primitive_type ex_pkg_Q ∧
    Line.compare_record 2 6 "pkg::Q" ∈ emit_compute_hash lcm_is_primitive_type ex_pkg_P ∧
    (∀ n name, Line.compare_record 2 n name ∈ emit_compute_hash lcm_is_primitive_type ex_pkg_P →
      (n, name) ≠ (1, "Q")) ∧
    record "Q" ≠ record (dots_to_double_colons "pkg.Q") ∧
    scan_parents ((ancestry ["P"]).length + 1) (ancestry ["P"] ++ record "Q")
      (ancestry ["P"]).length (dots_to_double_colons "pkg.P") 1 = .ok true ∧
    scan_parents ((ancestry []).length + 1) (ancestry [] ++ record "T")
      (ancestry []).length (dots_to_double_colons "T") 1 = .ok true := by
  refine ⟨by decide, by decide, ?_, by decide, by decide, by decide⟩
  intro n name h
  have : emit_compute_hash lcm_is_primitive_type ex_pkg_P
      = [.text 0 "function hash = P_computeHash(parents)",
         .text 1 "parents_len = length(parents);",
         .append_record 1 1 "P",
         .text 0 "",
         .text 1 "hash = hex2int64('0000000000000033');",
         .text 1 "visit = true;",
         .text 1 "ix = uint32(1);",
         .text 1 "while ix < parents_len",
         .text 2 "p_len = uint32(parents(ix));",
         .compare_record 2 6 "pkg::Q",
         .text 3 "visit = false;",
         .text 3 "break",
         .end_ 2,
         .text 2 "ix = ix + p_len + 1;",
         .end_ 1,
         .text 1 "if visit",
         .hash_call 2 "pkg::Q",
         .end_ 1,
         .text 0 "",
         .text 1 "%wrap around shift",
         .text 1 "overflowbit = bitshift(hash(2), -31);",
         .text 1 "bigendbit = bitshift(hash(1), -31);",
         .text 1 "hash = bitshift(hash, 1);",
         .text 1 "hash(1) = bitor(hash(1), overflowbit);",
         .text 1 "hash(2) = bitor(hash(2), bigendbit);",
         .text 0 "%endfunction",
         .text 0 ""] := by decide
  rw [this] at h
  simp only [List.mem_cons, reduceCtorEq, Line.compare_record.injEq, List.not_mem_nil,
    or_false, false_or, true_and] at h
  obtain ⟨rfl, rfl⟩ := h
  decide

/-- C15 (amended): for every struct `T` whose name is not package-qualified (no '.' in the
type name, which is then the short name), the pair (length, name) that `T`'s `computeHash`
appends for itself is the pair that the `computeHash` of a struct with a member of type `T`
compares with the ancestry; so a member of type `T` is skipped, and nothing called for it,
when the record of `T` was in the ancestry on entry to the current activation, and it is
visited otherwise (the record the current activation appends for itself is not compared). -/
theorem unqualified_record_recognised (prim : String → Bool) (structs : List lcm_struct)
    (call : lcm_struct → List Nat → Run Hash) (T : lcm_struct) (lm : lcm_member)
    (anc : List String) (sn : String) (hash : Hash)
    (hq : '.' ∉ T.structname.lctypename.data)
    (hs : T.structname.shortname = T.structname.lctypename)
    (hm : lm.type = T.structname)
    (hp : prim lm.type.lctypename = false)
    (hne : ∀ a ∈ anc, a ≠ "") :
    Line.append_record 1 T.structname.shortname.length T.structname.shortname
      ∈ emit_compute_hash prim T ∧
    Line.compare_record 2 T.structname.shortname.length T.structname.shortname
      ∈ emit_hash_member prim lm ∧
    (∀ S : lcm_struct, lm ∈ S.members →
      Line.compare_record 2 T.structname.shortname.length T.structname.shortname
        ∈ emit_compute_hash prim S) ∧
    record (dots_to_double_colons lm.type.lctypename) = record T.structname.shortname ∧
    scan_parents ((ancestry anc).length + 1) (ancestry anc ++ record sn) (ancestry anc).length
      (dots_to_double_colons lm.type.lctypename) 1
        = .ok (decide (T.structname.shortname ∉ anc)) ∧
    (T.structname.shortname ∈ anc →
      hash_member prim structs call (ancestry anc).length (ancestry anc ++ record sn) hash lm
        = .ok hash) := by
  have hname : dots_to_double_colons lm.type.lctypename = T.structname.shortname := by
    rw [hm, dots_to_double_colons_no_dots hq, hs]
  have hmem : Line.compare_record 2 T.structname.shortname.length T.structname.shortname
      ∈ emit_hash_member prim lm := by
    simp [emit_hash_member, hp, hname]
  refine ⟨by simp [emit_compute_hash], hmem, ?_, by rw [hname], ?_, ?_⟩
  · intro S hS
    simp only [emit_compute_hash, List.mem_append, List.mem_flatMap]
    exact Or.inl (Or.inr ⟨lm, hS, hmem⟩)
  · rw [hname]; exact scan_parents_entry anc sn _ hne
  · intro hin
    rw [hash_member_entry prim structs call anc sn hash lm hne hp, hname, if_pos hin]

/-- Witness of C15 (amended): the member `B b` of `A { A a; B b; }`, in the activation of `A`
entered below `A` and `B`. -/
theorem unqualified_record_recognised_witness :
    Line.append_record 1 1 "B" ∈ emit_compute_hash lcm_is_primitive_type ex_B ∧
    Line.compare_record 2 1 "B" ∈ emit_compute_hash lcm_is_primitive_type ex_A ∧
    scan_parents ((ancestry ["A", "B"]).length + 1) (ancestry ["A", "B"] ++ record "A")
      (ancestry ["A", "B"]).length (dots_to_double_colons "B") 1 = .ok false ∧
    hash_member lcm_is_primitive_type [ex_A, ex_B]
      (computeHash lcm_is_primitive_type [ex_A, ex_B] 4) (ancestry ["A", "B"]).length
      (ancestry ["A", "B"] ++ record "A") (0, 1) ⟨unqualified "B", "b", []⟩ = .ok (0, 1) :=
  have h := unqualified_record_recognised lcm_is_primitive_type [ex_A, ex_B]
    (computeHash lcm_is_primitive_type [ex_A, ex_B] 4) ex_B ⟨unqualified "B", "b", []⟩
    ["A", "B"] "A" (0, 1) (by decide) (by decide) (by decide) (by decide) (by decide)
  ⟨h.1, h.2.2.1 ex_A (by decide), h.2.2.2.2.1, h.2.2.2.2.2 (by decide)⟩

theorem dots_to_underscores_no_dots {s : String} (h : '.' ∉ s.data) :
    dots_to_underscores s = s := by
  have : ∀ l : List Char, '.' ∉ l → l.map (fun c => if c = '.' then '_' else c) = l := by
    intro l
    induction l with
    | nil => intro _; rfl
    | cons c l ih =>
      intro hl
      have hc : c ≠ '.' := fun e => hl (by simp [e])
      have hr : '.' ∉ l := fun e => hl (by simp [e])
      rw [List.map_cons, ih hr, if_neg hc]
  rw [dots_to_underscores, this _ h]

/-- C16 (the code at the failing input): in package `pkg` with `Sub { int32_t v; }` and
`Top { Sub s; Sub r[2]; }`, the procedures of `Sub` are defined as `Sub_encode_nohash`,
`Sub_decode_nohash`, `Sub_encodedSize_nohash` and `Sub_computeHash`, in files of those names
under `pkg/`, while the procedures of `Top` call `pkg::Sub_encode_nohash`,
`pkg::Sub_decode_nohash`, `pkg::Sub_encodedSize_nohash` and `pkg::Sub_computeHash`; no
procedure of those names is defined. For a struct name without '.' that `map_type_name` does
not translate, the name at the call site is the short name. -/
theorem qualified_call_names_undefined :
    callees (emit_encode_nohash ex_pkg_Top)
      = ["pkg::Sub_encode_nohash", "pkg::Sub_encode_nohash"] ∧
    callees (emit_decode_nohash ex_pkg_Top)
      = ["pkg::Sub_decode_nohash", "pkg::Sub_decode_nohash"] ∧
    callees (emit_encoded_size_nohash ex_pkg_Top)
      = ["pkg::Sub_encodedSize_nohash", "pkg::Sub_encodedSize_nohash"] ∧
    callees (emit_compute_hash lcm_is_primitive_type ex_pkg_Top)
      = ["pkg::Sub_computeHash", "pkg::Sub_computeHash"] ∧
    ((emit_encode_nohash ex_pkg_Sub).head?.map Line.render
        = some "function [buf, pos] = Sub_encode_nohash(buf, pos, maxlen, S, elems)" ∧
      (emit_decode_nohash ex_pkg_Sub).head?.map Line.render
        = some "function [pos, S] = Sub_decode_nohash(buf, pos, maxlen, S, elems)" ∧
      (emit_encoded_size_nohash ex_pkg_Sub).head?.map Line.render
        = some "function s = Sub_encodedSize_nohash(S)" ∧
      (emit_compute_hash lcm_is_primitive_type ex_pkg_Sub).head?.map Line.render
        = some "function hash = Sub_computeHash(parents)") ∧
    (get_file_name "." ex_pkg_Sub "_encode_nohash" = "./pkg/Sub_encode_nohash.m" ∧
      get_file_name "." ex_pkg_Sub "_decode_nohash" = "./pkg/Sub_decode_nohash.m" ∧
      get_file_name "." ex_pkg_Sub "_encodedSize_nohash" = "./pkg/Sub_encodedSize_nohash.m" ∧
      get_file_name "." ex_pkg_Sub "_computeHash" = "./pkg/Sub_computeHash.m") ∧
    (lookup [ex_pkg_Sub, ex_pkg_Top] "pkg::Sub" = none ∧
      lookup [ex_pkg_Sub, ex_pkg_Top] "Sub" = some ex_pkg_Sub) ∧
    get_hash lcm_is_primitive_type [ex_pkg_Sub, ex_pkg_Top] ex_pkg_Top = .fault ∧
    encodedSize be_codec [ex_pkg_Sub, ex_pkg_Top] 3 ex_pkg_Top
      (.struct [("s", .struct [("v", .num 1)]),
        ("r", .arr [.struct [("v", .num 2)], .struct [("v", .num 3)]])]) = .fault ∧
    (∀ name : String, '.' ∉ name.data →
      name ∉ ["boolean", "byte", "int8_t", "int16_t", "uint16_t", "int32_t", "uint32_t",
        "int64_t", "float"] →
      dots_to_double_colons name = name ∧ map_type_name (dots_to_double_colons name) = name) := by
  refine ⟨by decide, by decide, by decide, by decide, by decide, by decide, by decide,
    by decide, by decide, ?_⟩
  intro name hd hn
  rw [dots_to_double_colons_no_dots hd]
  refine ⟨rfl, ?_⟩
  simp only [List.mem_cons, List.mem_singleton, List.not_mem_nil, or_false, not_or] at hn
  obtain ⟨h1, h2, h3, h4, h5, h6, h7, h8, h9⟩ := hn
  simp only [map_type_name, h1, h2, h3, h4, h5, h6, h7, h8, h9, if_false,
    dots_to_underscores_no_dots hd]

/-! ## The writes of the encoder, element by element -/

theorem shaped_member {ls : lcm_struct} {x : Val} (h : shaped ls x = true) {lm : lcm_member}
    (hlm : lm ∈ ls.members) :
    ∃ ns v, extents lm.dimensions = some ns ∧ x.field? lm.membername = some v ∧
      has_shape ns v = true := by
  simp only [shaped, List.all_eq_true] at h
  have hm := h lm hlm
  cases hns : extents lm.dimensions with
  | none => simp [hns] at hm
  | some ns =>
    cases hv : x.field? lm.membername with
    | none => simp [hns, hv] at hm
    | some v =>
      simp only [hns, hv] at hm
      exact ⟨ns, v, rfl, rfl, hm⟩

/-- One member of an instance of constant extents: the emitted loops and call make the writes
of `member_writes`, in order. -/
theorem encode_member_writes
    (call : String → Buf → Int → Int → List Val → Int → Run (Buf × Int))
    (maxlen : Int) (x : Val) (lm : lcm_member) (ns : List Nat) (v : Val)
    (hns : extents lm.dimensions = some ns) (hv : x.field? lm.membername = some v)
    (hs : has_shape ns v = true) (st : Buf × Int) :
    encode_member call maxlen [x] 1 lm st
      = run_all (fun w st => call w.1 st.1 st.2 maxlen w.2.1 w.2.2) (member_writes x lm) st := by
  rcases nil_or_concat lm.dimensions with hd | ⟨ds, d, hd⟩
  · have hns2 := hns
    rw [hd] at hns2
    simp only [extents, Option.some.injEq] at hns2
    subst hns2
    rw [encode_member_scalar _ maxlen [x] 1 lm st v hd (member_ref_single hv)]
    simp [member_writes, hns, hv, run_all]
  · have hns2 := hns
    rw [hd] at hns2
    obtain ⟨ns2, n, rfl, hds, hn⟩ := extents_concat ds d ns hns2
    rw [encode_member_array _ maxlen [x] 1 lm st v ds d ns2 n hd hds hn (member_ref_single hv) hs]
    simp only [member_writes, hns, hv, List.getLast?_concat, List.dropLast_concat]
    rw [run_all_map]

theorem member_writes_elements (x : Val) (lm : lcm_member) (ns : List Nat) (v : Val)
    (hns : extents lm.dimensions = some ns) (hv : x.field? lm.membername = some v)
    (hs : has_shape ns v = true) :
    (member_writes x lm).flatMap (fun w => w.2.1) = leaves ns v := by
  rcases nil_or_concat ns with rfl | ⟨ns2, n, rfl⟩
  · simp [member_writes, hns, hv, leaves]
  · obtain ⟨_, hrows, hflat⟩ := leaves_concat n ns2 v hs
    simp only [member_writes, hns, hv, List.getLast?_concat, List.dropLast_concat]
    rw [hflat, List.flatMap_map]

/-- The no-preamble encoder on instances of constant extents: the run of the writes of the
instances, in order. -/
theorem encode_nohash_writes (codec : Codec) (structs : List lcm_struct) (fuel : Nat)
    (ls : lcm_struct) (buf : Buf) (pos maxlen : Int) (S : List Val)
    (hS : ∀ x ∈ S, shaped ls x = true) :
    encode_nohash codec structs (fuel + 1) ls buf pos maxlen S S.length
      = run_all
          (fun w st =>
            call_encode_nohash codec structs (encode_nohash codec structs fuel) w.1 st.1 st.2
              maxlen w.2.1 w.2.2)
          (S.flatMap (instance_writes ls)) (buf, pos) := by
  rw [encode_nohash, for_loop_eq_run_all, Int.toNat_ofNat,
    run_all_indices S _
      (fun x st => encode_members
        (call_encode_nohash codec structs (encode_nohash codec structs fuel)) maxlen [x] 1
        ls.members st)
      (fun dx x hx st => encode_members_instance _ maxlen S dx x hx ls.members st),
    run_all_flatMap]
  apply run_all_congr
  intro x hx st
  rw [encode_members_eq_run_all, instance_writes, run_all_flatMap]
  apply run_all_congr
  intro lm hlm st2
  obtain ⟨ns, v, hns, hv, hs⟩ := shaped_member (hS x hx) hlm
  exact encode_member_writes _ maxlen x lm ns v hns hv hs st2

set_option maxRecDepth 100000 in
theorem encode_two_grids :
    encode_nohash be_codec [ex_Point, ex_Grid] 2 ex_Grid [] 1 100
        [ex_grid,
         .struct
          [("cells", .arr [.arr [.num 11, .num 12, .num 13], .arr [.num 14, .num 15, .num 16]]),
           ("corners", .arr [.struct [("x", .num 17), ("y", .num 18)],
              .struct [("x", .num 19), ("y", .num 20)]])]] 2
      = .ok ([0, 1, 0, 2, 0, 3, 0, 4, 0, 5, 0, 6, 0, 0, 0, 7, 0, 0, 0, 8, 0, 0, 0, 9, 0, 0, 0, 10,
              0, 11, 0, 12, 0, 13, 0, 14, 0, 15, 0, 16, 0, 0, 0, 17, 0, 0, 0, 18, 0, 0, 0, 19,
              0, 0, 0, 20], 57) := by
  decide

/-- C7: for every struct and every element count, the generated no-preamble encoder makes
its writes in lexicographic order of (instance index, member index in declaration order,
dimension indices with the first declared dimension outermost): it is the run, in list order,
of one codec call for each instance, member and index tuple `(dx0, dx1, ...)` of the dimensions
before the last; the call for the tuple takes the elements `S(ix).m(dx0, dx1, ..., :)` along
the last dimension, in order, with the last extent as count (a member without dimensions: the
value `S(ix).m` with count 1).  The instances come in increasing order, within an instance the
members in declaration order, and within a member the index tuples in lexicographic order.
For instances of constant extents the calls are those of `instance_writes`, instance after
instance, and the elements handed over for a member are, in order, its elements in row-major
order.  With the big-endian codec two instances of `Grid` give the bytes of their numbers in
that order. -/
theorem encode_nohash_write_order (codec : Codec) (structs : List lcm_struct) (fuel : Nat)
    (ls : lcm_struct) (buf : Buf) (pos maxlen : Int) (S : List Val) (elems : Int) :
    encode_nohash codec structs (fuel + 1) ls buf pos maxlen S elems
      = run_all
          (fun p st =>
            (index_tuples p.2.2.dimensions.dropLast).bind fun ts =>
              run_all
                (encode_element
                  (call_encode_nohash codec structs (encode_nohash codec structs fuel)) maxlen S
                  p.1 p.2.2)
                ts st)
          (write_order ls elems) (buf, pos) ∧
    (write_order ls elems).Pairwise
      (fun a b => a.1 < b.1 ∨ (a.1 = b.1 ∧ a.2.1 < b.2.1)) ∧
    (∀ p ∈ write_order ls elems,
      1 ≤ p.1 ∧ p.1 ≤ elems.toNat ∧ ls.members.get? p.2.1 = some p.2.2) ∧
    (∀ ix, 1 ≤ ix → ix ≤ elems.toNat →
      ((write_order ls elems).filter (fun p => p.1 = ix)).map (fun p => p.2.2) = ls.members) ∧
    (∀ lm ∈ ls.members, ∀ ts, index_tuples lm.dimensions.dropLast = .ok ts →
      ts.Pairwise (List.Lex (· < ·))) ∧
    (∀ (ix : Nat) (lm : lcm_member) (idx : List Nat) (st : Buf × Int),
      encode_element (call_encode_nohash codec structs (encode_nohash codec structs fuel))
          maxlen S ix lm idx st
        = (member_ref S ix lm.membername).bind fun m =>
            match lm.dimensions.getLast? with
            | none =>
              call_encode_nohash codec structs (encode_nohash codec structs fuel)
                (map_type_name (dots_to_double_colons lm.type.lctypename)) st.1 st.2 maxlen [m] 1
            | some dim =>
              (slice m idx).bind fun values =>
                (eval_size dim.size).bind fun count =>
                  call_encode_nohash codec structs (encode_nohash codec structs fuel)
                    (map_type_name (dots_to_double_colons lm.type.lctypename)) st.1 st.2 maxlen
                    values count) ∧
    ((∀ x ∈ S, shaped ls x = true) →
      encode_nohash codec structs (fuel + 1) ls buf pos maxlen S S.length
        = run_all
            (fun w st =>
              call_encode_nohash codec structs (encode_nohash codec structs fuel) w.1 st.1 st.2
                maxlen w.2.1 w.2.2)
            (S.flatMap (instance_writes ls)) (buf, pos)) ∧
    (∀ x ∈ S, shaped ls x = true → ∀ lm ∈ ls.members, ∃ ns v,
      extents lm.dimensions = some ns ∧ x.field? lm.membername = some v ∧
      (member_writes x lm).flatMap (fun w => w.2.1) = leaves ns v ∧
      ∀ w ∈ member_writes x lm,
        w.1 = map_type_name (dots_to_double_colons lm.type.lctypename) ∧
        (w.2.2 : Int) = ((ns.getLast?.getD 1 : Nat) : Int)) ∧
    encode_nohash be_codec [ex_Point, ex_Grid] 2 ex_Grid [] 1 100
        [ex_grid,
         .struct
          [("cells", .arr [.arr [.num 11, .num 12, .num 13], .arr [.num 14, .num 15, .num 16]]),
           ("corners", .arr [.struct [("x", .num 17), ("y", .num 18)],
              .struct [("x", .num 19), ("y", .num 20)]])]] 2
      = .ok ([0, 1, 0, 2, 0, 3, 0, 4, 0, 5, 0, 6, 0, 0, 0, 7, 0, 0, 0, 8, 0, 0, 0, 9, 0, 0, 0, 10,
              0, 11, 0, 12, 0, 13, 0, 14, 0, 15, 0, 16, 0, 0, 0, 17, 0, 0, 0, 18, 0, 0, 0, 19,
              0, 0, 0, 20], 57) := by
  refine ⟨?_, ?_, ?_, ?_, ?_, ?_, ?_, ?_, encode_two_grids⟩
  · rw [encode_nohash, for_loop_eq_run_all, write_order, run_all_flatMap]
    apply run_all_congr
    intro ix _ st
    rw [encode_members_eq_run_all, run_all_map]
    conv_lhs => rw [← List.enum_map_snd ls.members]
    rw [run_all_map]
    apply run_all_congr
    intro p _ st2
    simp only [encode_member]
    rw [nest_eq_run_all]
    simp
  · rw [write_order, List.pairwise_flatMap]
    refine ⟨fun ix _ => ?_, ?_⟩
    · rw [List.pairwise_map]
      exact (enumFrom_increasing ls.members 0).1.imp fun h => Or.inr ⟨rfl, h⟩
    · refine (List.pairwise_lt_range' 1 elems.toNat).imp ?_
      intro a b hab x hx y hy
      obtain ⟨_, _, rfl⟩ := List.mem_map.mp hx
      obtain ⟨_, _, rfl⟩ := List.mem_map.mp hy
      exact Or.inl hab
  · intro p hp
    simp only [write_order, List.mem_flatMap, List.mem_map, List.mem_range'_1] at hp
    obtain ⟨ix, ⟨h1, h2⟩, m, hm, rfl⟩ := hp
    refine ⟨h1, by omega, ?_⟩
    rw [List.get?_eq_getElem?]
    exact List.mem_enum_iff_getElem?.mp hm
  · intro ix h1 h2
    rw [write_order, filter_instance_block, if_pos (by omega), List.map_map]
    exact List.enum_map_snd ls.members
  · intro lm _ ts hts
    exact index_tuples_sorted _ ts hts
  · intro ix lm idx st
    rfl
  · intro hS
    exact encode_nohash_writes codec structs fuel ls buf pos maxlen S hS
  · intro x _ hx lm hlm
    obtain ⟨ns, v, hns, hv, hs⟩ := shaped_member hx hlm
    refine ⟨ns, v, hns, hv, member_writes_elements x lm ns v hns hv hs, ?_⟩
    intro w hw
    simp only [member_writes, hns, hv] at hw
    cases hl : ns.getLast? with
    | none =>
      simp only [hl, List.mem_singleton] at hw
      subst hw
      simp
    | some n =>
      simp only [hl, List.mem_map] at hw
      obtain ⟨e, _, rfl⟩ := hw
      simp

/-! ## Size consistency within the buffer -/

theorem be_codec_writes_within : writes_within be_codec be_accepts := by
  intro t ht buf pos maxlen values count hpos hroom hvalid
  simp only [be_accepts, Bool.and_eq_true, decide_eq_true_eq, Int.toNat_ofNat] at hvalid
  obtain ⟨hlen, hnums⟩ := hvalid
  obtain ⟨ns, hns⟩ := Option.isSome_iff_exists.mp hnums
  have hover : ¬ (pos < 1 ∨ maxlen < pos - 1 + (count : Int) * ((encoded_size t).toNat : Int)) := by
    push_cast at hroom
    omega
  simp only [be_codec, be_width_map_type_name ht, hover, if_false, Int.toNat_ofNat,
    not_lt.mpr hlen, hns]
  exact ⟨_, by push_cast; rfl⟩

/-- Steps that each advance the position by a known amount when there is room for it advance
it by the sum when there is room for the sum. -/
theorem run_all_advance_within {α : Type} (step : α → Buf × Int → Run (Buf × Int))
    (c : α → Nat) (maxlen : Int) :
    ∀ (l : List α) (st : Buf × Int),
      (∀ a ∈ l, ∀ st : Buf × Int, 1 ≤ st.2 → st.2 - 1 + (c a : Int) ≤ maxlen →
        ∃ b, step a st = .ok (b, st.2 + (c a : Int))) →
      1 ≤ st.2 → st.2 - 1 + (((l.map c).sum : Nat) : Int) ≤ maxlen →
      ∃ b, run_all step l st = .ok (b, st.2 + ((l.map c).sum : Nat))
  | [], st, _, _, _ => ⟨st.1, by simp [run_all]⟩
  | a :: l, st, h, hpos, hroom => by
    simp only [List.map_cons, List.sum_cons, Nat.cast_add] at hroom
    obtain ⟨b1, h1⟩ := h a (List.mem_cons_self _ _) st hpos (by omega)
    obtain ⟨b2, h2⟩ := run_all_advance_within step c maxlen l (b1, st.2 + (c a : Int))
      (fun x hx => h x (List.mem_cons_of_mem _ hx)) (by simp only; omega) (by simp only; omega)
    refine ⟨b2, ?_⟩
    rw [run_all, h1, Run.ok_bind, h2]
    simp only [List.map_cons, List.sum_cons, Nat.cast_add]
    congr 2
    omega

theorem accepted_member {valid : String → List Val → Int → Bool} {structs : List lcm_struct}
    {f : Nat} {ls : lcm_struct} {x : Val} (h : accepted valid structs (f + 1) ls x = true)
    {lm : lcm_member} (hlm : lm ∈ ls.members) :
    (encoded_size (dots_to_double_colons lm.type.lctypename) > -1 →
      ∀ w ∈ member_writes x lm, valid w.1 w.2.1 w.2.2 = true) ∧
    (¬ encoded_size (dots_to_double_colons lm.type.lctypename) > -1 →
      ∀ callee ns v,
        lookup structs (map_type_name (dots_to_double_colons lm.type.lctypename)) = some callee →
        extents lm.dimensions = some ns → x.field? lm.membername = some v →
        ∀ e ∈ leaves ns v, accepted valid structs f callee e = true) := by
  simp only [accepted, List.all_eq_true] at h
  have hm := h lm hlm
  refine ⟨fun hk => ?_, fun hk callee ns v hl hns hv => ?_⟩
  · simpa [hk] using hm
  · simpa [hk, hl, hns, hv] using hm

/-- One member: with room for its wire size the encoder advances the position by it, given
the same of the structs one level down. -/
theorem member_encode_within (codec : Codec) (valid : String → List Val → Int → Bool)
    (structs : List lcm_struct) (f : Nat) (hcodec : writes_within codec valid)
    (ihE : f ≠ 0 → ∀ (callee : lcm_struct) (S : List Val) (buf : Buf) (pos maxlen : Int),
      (∀ x ∈ S, conforms structs f callee x = true ∧ accepted valid structs f callee x = true) →
      1 ≤ pos → pos - 1 + (((S.map (wire_size structs f callee)).sum : Nat) : Int) ≤ maxlen →
      ∃ b, encode_nohash codec structs f callee buf pos maxlen S S.length
        = .ok (b, pos + (((S.map (wire_size structs f callee)).sum : Nat) : Int)))
    (ls : lcm_struct) (x : Val) (hx : conforms structs (f + 1) ls x = true)
    (ha : accepted valid structs (f + 1) ls x = true)
    (lm : lcm_member) (hlm : lm ∈ ls.members) (maxlen : Int) (st : Buf × Int)
    (hpos : 1 ≤ st.2)
    (hroom : st.2 - 1 + ((member_wire_size structs (wire_size structs f) x lm : Nat) : Int)
      ≤ maxlen) :
    ∃ b, encode_member (call_encode_nohash codec structs (encode_nohash codec structs f))
        maxlen [x] 1 lm st
      = .ok (b, st.2 + ((member_wire_size structs (wire_size structs f) x lm : Nat) : Int)) := by
  obtain ⟨ns, v, hns, hv, hs, hty⟩ := conforms_member hx hlm
  obtain ⟨hak, has⟩ := accepted_member ha hlm
  rw [encode_member_writes _ maxlen x lm ns v hns hv hs st]
  rcases hty with ⟨hk, hl⟩ | ⟨hk, callee, hl, hf, hleaves⟩
  · -- a primitive of known size
    rw [member_wire_size_known hns hv hk] at hroom ⊢
    have hvalid := hak hk
    have hstep : ∀ w ∈ member_writes x lm, ∀ st : Buf × Int, 1 ≤ st.2 →
        st.2 - 1 + ((w.2.2.toNat
          * (encoded_size (dots_to_double_colons lm.type.lctypename)).toNat : Nat) : Int) ≤ maxlen →
        ∃ b, call_encode_nohash codec structs (encode_nohash codec structs f) w.1 st.1 st.2
            maxlen w.2.1 w.2.2
          = .ok (b, st.2 + ((w.2.2.toNat
              * (encoded_size (dots_to_double_colons lm.type.lctypename)).toNat : Nat) : Int)) := by
      intro w hw st2 hp2 hr2
      have hv2 := hvalid w hw
      have hw2 : w.1 = map_type_name (dots_to_double_colons lm.type.lctypename) ∧ 0 ≤ w.2.2 := by
        simp only [member_writes, hns, hv] at hw
        cases hl2 : ns.getLast? with
        | none =>
          simp only [hl2, List.mem_singleton] at hw
          subst hw
          exact ⟨rfl, by norm_num⟩
        | some n =>
          simp only [hl2, List.mem_map] at hw
          obtain ⟨e, _, rfl⟩ := hw
          exact ⟨rfl, by simp⟩
      obtain ⟨hfn, hnn⟩ := hw2
      obtain ⟨k, hkk⟩ : ∃ k : Nat, w.2.2 = (k : Int) := ⟨w.2.2.toNat, (Int.toNat_of_nonneg hnn).symm⟩
      rw [hkk, Int.toNat_ofNat] at hr2 ⊢
      rw [hfn] at hv2 ⊢
      rw [hkk] at hv2
      simp only [call_encode_nohash, hl]
      exact hcodec _ hk st2.1 st2.2 maxlen w.2.1 k hp2 hr2 hv2
    have hsum : ((member_writes x lm).map fun w => w.2.2.toNat
          * (encoded_size (dots_to_double_colons lm.type.lctypename)).toNat).sum
        = (encoded_size (dots_to_double_colons lm.type.lctypename)).toNat * ns.prod := by
      rcases nil_or_concat ns with rfl | ⟨ns2, n, rfl⟩
      · simp [member_writes, hns, hv]
      · obtain ⟨hs2, _, _⟩ := leaves_concat n ns2 v hs
        simp only [member_writes, hns, hv, List.getLast?_concat, List.dropLast_concat,
          List.map_map, Function.comp_def, Int.toNat_ofNat, List.map_const', List.sum_replicate,
          leaves_length ns2 v hs2, List.prod_append, List.prod_cons, List.prod_nil, smul_eq_mul]
        ring
    obtain ⟨b, hb⟩ := run_all_advance_within _ (fun w => w.2.2.toNat
        * (encoded_size (dots_to_double_colons lm.type.lctypename)).toNat) maxlen
      (member_writes x lm) st hstep hpos (by rw [hsum]; exact hroom)
    exact ⟨b, by rw [hb, hsum]⟩
  · -- a struct of the schema
    obtain ⟨g, rfl⟩ : ∃ g, f = g + 1 := ⟨f - 1, by omega⟩
    rw [member_wire_size_struct hns hv hk hl] at hroom ⊢
    have hacc := has hk callee ns v hl hns hv
    have hrowsmem : ∀ w ∈ member_writes x lm,
        w.1 = map_type_name (dots_to_double_colons lm.type.lctypename) ∧
        w.2.2 = (w.2.1.length : Int) ∧ ∀ y ∈ w.2.1, y ∈ leaves ns v := by
      intro w hw
      rcases nil_or_concat ns with rfl | ⟨ns2, n, rfl⟩
      · simp only [member_writes, hns, hv, List.getLast?_nil, List.mem_singleton] at hw
        subst hw
        simp [leaves]
      · obtain ⟨_, hrows, hflat⟩ := leaves_concat n ns2 v hs
        simp only [member_writes, hns, hv, List.getLast?_concat, List.dropLast_concat,
          List.mem_map] at hw
        obtain ⟨e, he, rfl⟩ := hw
        obtain ⟨row, rfl, hrow⟩ := hrows e he
        refine ⟨rfl, by simp [row_of, hrow], ?_⟩
        intro y hy
        rw [hflat, List.mem_flatMap]
        exact ⟨.arr row, he, hy⟩
    have hstep : ∀ w ∈ member_writes x lm, ∀ st : Buf × Int, 1 ≤ st.2 →
        st.2 - 1 + (((w.2.1.map (wire_size structs (g + 1) callee)).sum : Nat) : Int) ≤ maxlen →
        ∃ b, call_encode_nohash codec structs (encode_nohash codec structs (g + 1)) w.1 st.1 st.2
            maxlen w.2.1 w.2.2
          = .ok (b, st.2 + (((w.2.1.map (wire_size structs (g + 1) callee)).sum : Nat) : Int)) := by
      intro w hw st2 hp2 hr2
      obtain ⟨hfn, hcount, hmem⟩ := hrowsmem w hw
      rw [hfn, hcount]
      simp only [call_encode_nohash, hl]
      exact ihE hf callee w.2.1 st2.1 st2.2 maxlen
        (fun y hy => ⟨hleaves y (hmem y hy), hacc y (hmem y hy)⟩) hp2 hr2
    have hsum : ((member_writes x lm).map fun w =>
          (w.2.1.map (wire_size structs (g + 1) callee)).sum).sum
        = ((leaves ns v).map (wire_size structs (g + 1) callee)).sum := by
      rw [← member_writes_elements x lm ns v hns hv hs, sum_flatMap]
    obtain ⟨b, hb⟩ := run_all_advance_within _
      (fun w => (w.2.1.map (wire_size structs (g + 1) callee)).sum) maxlen
      (member_writes x lm) st hstep hpos (by rw [hsum]; exact hroom)
    exact ⟨b, by rw [hb, hsum]⟩

/-- For instances of constant extents whose values the codec takes, at every nesting budget:
with room for the wire size of the instances, the no-preamble encoder advances the position
by it. -/
theorem encode_nohash_within (codec : Codec) (valid : String → List Val → Int → Bool)
    (structs : List lcm_struct) (hcodec : writes_within codec valid) :
    ∀ (f : Nat), f ≠ 0 →
      ∀ (ls : lcm_struct) (S : List Val) (buf : Buf) (pos maxlen : Int),
        (∀ x ∈ S, conforms structs f ls x = true ∧ accepted valid structs f ls x = true) →
        1 ≤ pos → pos - 1 + (((S.map (wire_size structs f ls)).sum : Nat) : Int) ≤ maxlen →
        ∃ b, encode_nohash codec structs f ls buf pos maxlen S S.length
          = .ok (b, pos + (((S.map (wire_size structs f ls)).sum : Nat) : Int)) := by
  intro f
  induction f with
  | zero => intro h; exact absurd rfl h
  | succ f ih =>
    intro _ ls S buf pos maxlen hS hpos hroom
    rw [encode_nohash, for_loop_eq_run_all, Int.toNat_ofNat,
      run_all_indices S _
        (fun x st => encode_members
          (call_encode_nohash codec structs (encode_nohash codec structs f)) maxlen [x] 1
          ls.members st)
        (fun dx x hx st => encode_members_instance _ maxlen S dx x hx ls.members st)]
    apply run_all_advance_within _ (wire_size structs (f + 1) ls) maxlen S (buf, pos) _ hpos hroom
    intro x hx st hp2 hr2
    rw [encode_members_eq_run_all, wire_size] at *
    apply run_all_advance_within _ (member_wire_size structs (wire_size structs f) x) maxlen
      ls.members st _ hp2 hr2
    intro lm hlm st2 hp3 hr3
    exact member_encode_within codec valid structs f hcodec ih ls x (hS x hx).1 (hS x hx).2 lm hlm
      maxlen st2 hp3 hr3

/-- The no-preamble size of an instance of constant extents, for any codec: the size
procedures of such an instance call no primitive codec. -/
theorem encodedSize_nohash_conforms (codec : Codec) (structs : List lcm_struct) :
    ∀ (f : Nat) (ls : lcm_struct) (x : Val), conforms structs f ls x = true →
      encodedSize_nohash codec structs f ls x = .ok (uint32_sat (wire_size structs f ls x)) := by
  have hsame : ∀ f, encodedSize_nohash codec structs f
      = encodedSize_nohash
          ⟨counting_codec.encode_nohash, codec.decode_nohash, codec.encodedSize_nohash⟩
          structs f := by
    intro f
    induction f with
    | zero => rfl
    | succ f ih =>
      funext ls x
      simp only [encodedSize_nohash]
      rw [ih]
      rfl
  intro f ls x hx
  rw [hsame]
  exact (nohash_size_consistent
    ⟨counting_codec.encode_nohash, codec.decode_nohash, codec.encodedSize_nohash⟩ structs
    counting_codec_writes_fixed_width f (conforms_fuel_ne_zero hx)).2 ls x hx

/-- C10 (amended): take a struct and an instance `x` of it such that, at every level, the
members have constant dimensions and are fixed-width primitives or structs of the schema whose
`_nohash` procedures the member calls name (`conforms`: this leaves out dynamic dimensions and
member types declared in a package), the fingerprint is computed, the codec takes the values
of `x`, the encoding with its preamble fits between `pos` and `maxlen`, and is shorter than
2^32 bytes.  Then the value `n` the generated no-preamble size procedure computes for `x`,
plus 8, is the number of bytes the generated top-level encode writes for `x` (each primitive
write of `k` elements of width `w` that the codec takes and that fits advancing the position by
`k * w`), and is the value the generated top-level size procedure returns. -/
theorem encodedSize_matches_encode (codec : Codec) (valid : String → List Val → Int → Bool)
    (prim : String → Bool) (structs : List lcm_struct) (fuel : Nat) (ls : lcm_struct) (x : Val)
    (buf : Buf) (pos maxlen : Int) (hash : Hash)
    (hcodec : writes_within codec valid) (hint64 : lookup structs "int64" = none)
    (hwords : valid "int64" [.num hash.1, .num hash.2] 1 = true)
    (hhash : get_hash prim structs ls = .ok hash)
    (hconf : conforms structs fuel ls x = true)
    (hacc : accepted valid structs fuel ls x = true)
    (hpos : 1 ≤ pos)
    (hroom : pos - 1 + ((8 + wire_size structs fuel ls x : Nat) : Int) ≤ maxlen)
    (hsmall : wire_size structs fuel ls x + 8 < 2 ^ 32) :
    ∃ (b : Buf) (n : Nat),
      encodedSize_nohash codec structs fuel ls x = .ok n ∧
      encode codec prim structs fuel ls buf pos maxlen x = .ok (b, pos + ((n + 8 : Nat) : Int)) ∧
      encodedSize codec structs fuel ls x = .ok (n + 8) ∧
      n = wire_size structs fuel ls x := by
  have hS := encodedSize_nohash_conforms codec structs fuel ls x hconf
  have h1 : uint32_sat (wire_size structs fuel ls x) = wire_size structs fuel ls x :=
    uint32_sat_of_le (by omega)
  have h2 : uint32_sat (8 + wire_size structs fuel ls x) = wire_size structs fuel ls x + 8 := by
    rw [uint32_sat_of_le (by omega)]; omega
  rw [h1] at hS
  -- the preamble
  have hname : map_type_name "int64_t" = "int64" := by decide
  have hw : (encoded_size "int64_t").toNat = 8 := by decide
  push_cast at hroom
  obtain ⟨b1, hb1⟩ := hcodec "int64_t" (by decide) buf pos maxlen [.num hash.1, .num hash.2] 1
    hpos (by rw [hw]; push_cast; omega) (by rw [hname]; exact hwords)
  rw [hname, hw] at hb1
  simp only [Nat.cast_one] at hb1
  -- the payload
  obtain ⟨b2, hb2⟩ := encode_nohash_within codec valid structs hcodec fuel
    (conforms_fuel_ne_zero hconf) ls [x] b1 (pos + 8) maxlen
    (by simpa using ⟨hconf, hacc⟩) (by omega) (by simp; omega)
  refine ⟨b2, wire_size structs fuel ls x, hS, ?_, ?_, rfl⟩
  · simp only [encode, hhash, Run.ok_bind, call_encode_nohash, hint64]
    rw [hb1, Run.ok_bind]
    have h8 : pos + ((1 * 8 : Nat) : Int) = pos + 8 := by norm_num
    simp only [h8]
    simp only [List.length_singleton, Nat.cast_one, List.map_cons, List.map_nil, List.sum_cons,
      List.sum_nil, Nat.add_zero] at hb2
    rw [hb2]
    congr 2
    push_cast
    ring
  · rw [encodedSize, hS, Run.ok_bind, h2]

/-- Witness of C10 (amended): the instance of `Grid` over `Point`, 28 bytes of payload,
written with the big-endian codec into a buffer of 100 bytes. -/
theorem encodedSize_matches_encode_witness :
    ∃ (b : Buf) (n : Nat),
      encodedSize_nohash be_codec [ex_Point, ex_Grid] 2 ex_Grid ex_grid = .ok n ∧
      encode be_codec lcm_is_primitive_type [ex_Point, ex_Grid] 2 ex_Grid [] 1 100 ex_grid
        = .ok (b, 1 + ((n + 8 : Nat) : Int)) ∧
      encodedSize be_codec [ex_Point, ex_Grid] 2 ex_Grid ex_grid = .ok (n + 8) ∧
      n = wire_size [ex_Point, ex_Grid] 2 ex_Grid ex_grid :=
  encodedSize_matches_encode be_codec be_accepts lcm_is_primitive_type [ex_Point, ex_Grid] 2
    ex_Grid ex_grid [] 1 100 (0, 97864) be_codec_writes_within (by decide) (by decide)
    (by decide) (by decide) (by decide) (by decide) (by decide) (by decide)

end EmitM
